import Mathlib

/-!
# mixedbag: `ARo::sparse_vector`

A shallow embedding of `include/mixedbag/sparse_vector.hxx`; the embedding of
`ARo::bookkeeping_memory_resource` follows the definitions for the container.

* The two private members `pos_` (position table) and `data_` (dense array) are
  lists; the entries of `pos_` are values of `size_type`, an unsigned integer
  type of `w` bits, represented as natural numbers.
* A member function that can throw returns an `Outcome`: a normal return, a
  thrown exception (together with the state the object is left in), or
  undefined behaviour (an out-of-bounds `std::vector` access, dereferencing
  `end()`, a loop that never ends).
* The template parameter `Checked` is an explicit `Bool` argument.
* A member function that makes a vector grow takes the answer of the memory
  behind the vectors as an argument (`Memory`): a vector that is refused its
  storage, or asked to grow beyond `max_size()`, throws and stays as it was.
-/

namespace ARo

/-- The exceptions that leave a member function of `sparse_vector`.  Four are
`std::runtime_error`s thrown by the class, named as in the specification.
`InvalidIndex`: "insert - index out of range";
`DuplicateIndex`: "insert - element already exists at specified index";
`OutOfRange`: "access - index out of range";
`NotFound`: "access - no data at specified index".
Two come out of the `std::pmr::vector` members: `LengthError`, the
`std::length_error` of a vector asked to grow beyond `max_size()`, and
`BadAlloc`, the exception of a memory resource that refuses a request. -/
inductive Error where
  | InvalidIndex
  | DuplicateIndex
  | OutOfRange
  | NotFound
  | LengthError
  | BadAlloc
  deriving DecidableEq, Repr

/-- Result of calling a member function on an object of state type `σ`. -/
inductive Outcome (σ ρ : Type) where
  /-- normal return: the state after the call and the returned value -/
  | ok (state : σ) (ret : ρ)
  /-- an exception left the function: the state at the `throw` and the error -/
  | throw (state : σ) (e : Error)
  /-- the call has undefined behaviour -/
  | undefined
  deriving DecidableEq, Repr

namespace Outcome

variable {σ ρ : Type}

/-- The object state after the call, when the call has defined behaviour. -/
def state? : Outcome σ ρ → Option σ
  | ok s _ => some s
  | throw s _ => some s
  | undefined => none

/-- The returned value of a call that returned normally. -/
def ret? : Outcome σ ρ → Option ρ
  | ok _ r => some r
  | _ => none

/-- The error of a call that threw. -/
def error? : Outcome σ ρ → Option Error
  | throw _ e => some e
  | _ => none

/-- What the caller observes: the returned value or the error. -/
def result? : Outcome σ ρ → Option (Except Error ρ)
  | ok _ r => some (.ok r)
  | throw _ e => some (.error e)
  | undefined => none

end Outcome

/-- The data members of `sparse_vector<T, SizeT, Checked>`. -/
structure sparse_vector (α : Type) where
  /-- `std::pmr::vector<size_type> pos_` -/
  pos_ : List Nat
  /-- `std::pmr::vector<T> data_` -/
  data_ : List α
  deriving DecidableEq, Repr

/-- `InvalidPos = ~(size_type(0))`: the largest value of a `w`-bit `size_type`. -/
def InvalidPos (w : Nat) : Nat := 2 ^ w - 1

/-- `index + 1` as the compiler evaluates it for a `w`-bit unsigned `index`:
a type narrower than `int` (32 bits) is promoted to `int` and the sum is
exact; otherwise the sum is taken modulo `2 ^ w`. -/
def index_succ (w index : Nat) : Nat :=
  if w < 32 then index + 1 else (index + 1) % 2 ^ w

/-- What the memory behind the two vectors of a container answers during one
call: the `max_size()` of each vector, and whether the memory resource grants
the storage the vector asks for.  `false` describes a call in which the vector
had to ask for storage and was refused. -/
structure Memory where
  /-- `pos_.max_size()` -/
  pos_max_size : Nat
  /-- `data_.max_size()` -/
  data_max_size : Nat
  /-- the memory resource grants what `pos_` asks for -/
  pos_granted : Bool
  /-- the memory resource grants what `data_` asks for -/
  data_granted : Bool
  deriving DecidableEq, Repr

/-- A memory that grants every request for up to `n` elements. -/
def Memory.granting (n : Nat) : Memory := ⟨n, n, true, true⟩

/-- A memory that grants `pos_` up to `n` elements and refuses `data_`. -/
def Memory.refusing_data (n : Nat) : Memory := ⟨n, n, true, false⟩

/-- `std::vector::resize(n, val)`.  Shrinking needs no storage.  Growing
throws `std::length_error` when `n` exceeds `max_size()` and the exception of
the memory resource when the storage is refused; the vector is then as it
was. -/
def resize (max_size : Nat) (granted : Bool) (l : List Nat) (n val : Nat) :
    Except Error (List Nat) :=
  if n ≤ l.length then .ok (l.take n)
  else if max_size < n then .error .LengthError
  else if granted then .ok (l ++ List.replicate (n - l.length) val)
  else .error .BadAlloc

/-- `std::vector::push_back(x)`, and `emplace_back`: `std::length_error` when
the vector has `max_size()` elements, the exception of the memory resource
when the storage is refused; the vector is then as it was.  An exception of
the constructor of the element leaves the vector in the same way. -/
def push_back {β : Type} (max_size : Nat) (granted : Bool) (l : List β) (x : β) :
    Except Error (List β) :=
  if max_size ≤ l.length then .error .LengthError
  else if granted then .ok (l ++ [x])
  else .error .BadAlloc

/-- `std::ranges::find(pos_, x)`: the offset of the first element equal to `x`,
or `none` for `end()`. -/
def find : List Nat → Nat → Option Nat
  | [], _ => none
  | p :: ps, x => if p = x then some 0 else (find ps x).map (· + 1)

namespace sparse_vector

variable {α : Type}

/-- `sparse_vector() noexcept = default` -/
def empty_vector : sparse_vector α := ⟨[], []⟩

/-- `size()`: `static_cast<size_type>(data_.size())`. -/
def size (w : Nat) (s : sparse_vector α) : Nat := s.data_.length % 2 ^ w

/-- `empty()`: `data_.empty()`. -/
def empty (s : sparse_vector α) : Bool := s.data_.isEmpty

/-- `prepare_insert(index)`.  An exception of `pos_.resize` leaves the
function with the container as it was. -/
def prepare_insert (w : Nat) (Checked : Bool) (mem : Memory) (s : sparse_vector α)
    (index : Nat) : Outcome (sparse_vector α) Unit :=
  if Checked ∧ index = InvalidPos w then
    .throw s .InvalidIndex
  else
    let resized : Except Error (List Nat) :=
      if index ≥ s.pos_.length then
        resize mem.pos_max_size mem.pos_granted s.pos_ (index_succ w index) (InvalidPos w)
      else .ok s.pos_
    match resized with
    | .error e => .throw s e
    | .ok pos1 =>
      let s1 : sparse_vector α := { s with pos_ := pos1 }
      match s1.pos_[index]? with
      | none => .undefined
      | some p =>
        if Checked ∧ p ≠ InvalidPos w then
          .throw s1 .DuplicateIndex
        else
          .ok { s1 with pos_ := s1.pos_.set index (s1.data_.length % 2 ^ w) } ()

/-- `check_access(index) const`; `none` is undefined behaviour. -/
def check_access (w : Nat) (Checked : Bool) (s : sparse_vector α) (index : Nat) :
    Option (Except Error Unit) :=
  if Checked then
    if s.pos_.length ≤ index then some (.error .OutOfRange)
    else
      match s.pos_[index]? with
      | none => none
      | some p => if p = InvalidPos w then some (.error .NotFound) else some (.ok ())
  else some (.ok ())

/-- `insert(index, val)`: `prepare_insert(index); data_.push_back(val);
return data_.back();`.  The returned reference is given as the offset in
`data_` of the element it designates.  When `push_back` throws, the exception
leaves `insert` after `prepare_insert` has written `pos_[index]`. -/
def insert (w : Nat) (Checked : Bool) (mem : Memory) (s : sparse_vector α) (index : Nat)
    (val : α) : Outcome (sparse_vector α) Nat :=
  match prepare_insert w Checked mem s index with
  | .undefined => .undefined
  | .throw s1 e => .throw s1 e
  | .ok s1 _ =>
    match push_back mem.data_max_size mem.data_granted s1.data_ val with
    | .error e => .throw s1 e
    | .ok data1 =>
      let s2 : sparse_vector α := { s1 with data_ := data1 }
      .ok s2 (s2.data_.length - 1)

/-- `emplace(index, args)`: as `insert`, the element being constructed in
place from the argument by `ctor`, by `data_.emplace_back`. -/
def emplace {β : Type} (w : Nat) (Checked : Bool) (mem : Memory) (ctor : β → α)
    (s : sparse_vector α) (index : Nat) (args : β) : Outcome (sparse_vector α) Nat :=
  match prepare_insert w Checked mem s index with
  | .undefined => .undefined
  | .throw s1 e => .throw s1 e
  | .ok s1 _ =>
    match push_back mem.data_max_size mem.data_granted s1.data_ (ctor args) with
    | .error e => .throw s1 e
    | .ok data1 =>
      let s2 : sparse_vector α := { s1 with data_ := data1 }
      .ok s2 (s2.data_.length - 1)

/-- `erase(index)`.  `data_.size() - 1` is written with truncated subtraction:
when `data_` is empty every path of the function that reaches it goes on to an
access to an element of the empty `data_`, which is undefined. -/
def erase (w : Nat) (Checked : Bool) (s : sparse_vector α) (index : Nat) :
    Outcome (sparse_vector α) Unit :=
  match check_access w Checked s index with
  | none => .undefined
  | some (.error e) => .throw s e
  | some (.ok _) =>
    match s.pos_[index]? with
    | none => .undefined
    | some toRemove =>
      if s.data_.length = 0 then .undefined
      else
        let last := s.data_.length - 1
        if toRemove ≠ last then
          match s.data_[toRemove]?, s.data_[last]? with
          | some x, some y =>
            let data1 := (s.data_.set toRemove y).set last x
            match find s.pos_ last with
            | none => .undefined
            | some it =>
              let pos1 := s.pos_.set it toRemove
              .ok { pos_ := pos1.set index (InvalidPos w), data_ := data1.dropLast } ()
          | _, _ => .undefined
        else
          .ok { pos_ := s.pos_.set index (InvalidPos w), data_ := s.data_.dropLast } ()

/-- `operator[](index)`: `check_access(index); return data_[pos_[index]];`.
The returned reference is given as the offset in `data_` of the element it
designates. -/
def operator_index (w : Nat) (Checked : Bool) (s : sparse_vector α) (index : Nat) :
    Outcome (sparse_vector α) Nat :=
  match check_access w Checked s index with
  | none => .undefined
  | some (.error e) => .throw s e
  | some (.ok _) =>
    match s.pos_[index]? with
    | none => .undefined
    | some p => if p < s.data_.length then .ok s p else .undefined

/-- `operator[](index) const`: the same body; the returned `const` reference
is given as the value read through it. -/
def operator_index_const (w : Nat) (Checked : Bool) (s : sparse_vector α) (index : Nat) :
    Outcome (sparse_vector α) α :=
  match check_access w Checked s index with
  | none => .undefined
  | some (.error e) => .throw s e
  | some (.ok _) =>
    match s.pos_[index]? with
    | none => .undefined
    | some p =>
      match s.data_[p]? with
      | none => .undefined
      | some v => .ok s v

/-- Reading through a reference into `data_`. -/
def deref (s : sparse_vector α) (ref : Nat) : Option α := s.data_[ref]?

/-- The elements visited by a traversal from `begin()` to `end()` (equally
from `cbegin()` to `cend()`): `data_` in storage order. -/
def traverse (s : sparse_vector α) : List α := s.data_

/-- Result of `a.data_.size()` against `b.data_.size()` at the end of
`operator<=>`. -/
def size_tiebreak (a b : sparse_vector α) : Ordering :=
  if a.data_.length < b.data_.length then .lt
  else if a.data_.length > b.data_.length then .gt
  else .eq

/-- The `for` loop of `operator<=>` and the size comparison after it.  The
first argument is `minLen - i`, the number of iterations left; `i` is the
loop counter, of type `size_type`.  If `++i` wraps, the loop starts again from
`0` in the same state and never ends: `none`, like an out-of-bounds access. -/
def three_way_loop [Ord α] (w : Nat) (a b : sparse_vector α) : Nat → Nat → Option Ordering
  | 0, _ => some (size_tiebreak a b)
  | rem + 1, i =>
    let next : Option Ordering :=
      if (i + 1) % 2 ^ w = i + 1 then three_way_loop w a b rem (i + 1) else none
    match a.pos_[i]?, b.pos_[i]? with
    | some pa, some pb =>
      if pa = InvalidPos w ∧ pb = InvalidPos w then next
      else if pa = InvalidPos w then some .gt
      else if pb = InvalidPos w then some .lt
      else
        match a.data_[pa]?, b.data_[pb]? with
        | some x, some y => if compare x y ≠ .eq then some (compare x y) else next
        | _, _ => none
    | _, _ => none

/-- `operator<=>(other)`: `less`, `equal`, `greater` are `Ordering.lt`,
`Ordering.eq`, `Ordering.gt`; `none` is undefined behaviour. -/
def three_way [Ord α] (w : Nat) (a b : sparse_vector α) : Option Ordering :=
  three_way_loop w a b (min a.pos_.length b.pos_.length) 0

/-- The slots of the position table that are not `InvalidPos`. -/
def live_slots (w : Nat) (s : sparse_vector α) : List Nat :=
  s.pos_.filter (fun p => decide (p ≠ InvalidPos w))

/-- Well-formed container: the position table has at most `InvalidPos`
slots (every index is below the sentinel), and invariants I2 and I3 hold. -/
structure WF (w : Nat) (s : sparse_vector α) : Prop where
  pos_length : s.pos_.length ≤ InvalidPos w
  I2 : s.data_.length = (live_slots w s).length
  I3_range : ∀ p ∈ live_slots w s, p < s.data_.length
  I3_unique : (live_slots w s).Nodup

/-- Index `i` is present: inside the position table, slot not `InvalidPos`. -/
def present (w : Nat) (s : sparse_vector α) (i : Nat) : Prop :=
  ∃ p, s.pos_[i]? = some p ∧ p ≠ InvalidPos w

/-- Index `i` is absent: beyond the position table, or slot `InvalidPos`. -/
def absent (w : Nat) (s : sparse_vector α) (i : Nat) : Prop :=
  ∀ p, s.pos_[i]? = some p → p = InvalidPos w

/-- The value stored at index `i`, if `i` is present (invariant I1 reads the
association off the two arrays). -/
def lookup (w : Nat) (s : sparse_vector α) (i : Nat) : Option α :=
  match s.pos_[i]? with
  | none => none
  | some p => if p = InvalidPos w then none else s.data_[p]?

/-- The indices of the position table whose slot is not `InvalidPos`, in
increasing order. -/
def present_indices (w : Nat) (s : sparse_vector α) : List Nat :=
  (List.range s.pos_.length).filter (fun i => decide (s.pos_[i]? ≠ some (InvalidPos w)))

end sparse_vector

/-- A call of one of the modifiers of a checked `sparse_vector`; with a call
that can make a vector grow goes the answer of the memory during the call. -/
inductive Call (α : Type) where
  | insert (index : Nat) (val : α) (mem : Memory)
  | emplace (index : Nat) (args : α) (mem : Memory)
  | erase (index : Nat)
  deriving DecidableEq, Repr

namespace Call

variable {α : Type}

/-- The `size_type` argument of the call. -/
def index : Call α → Nat
  | insert i _ _ => i
  | emplace i _ _ => i
  | erase i => i

/-- The call on a checked (`Checked = true`) container, the returned
reference dropped. -/
def apply (w : Nat) (s : sparse_vector α) : Call α → Outcome (sparse_vector α) Unit
  | insert i v mem =>
    match sparse_vector.insert w true mem s i v with
    | .ok s1 _ => .ok s1 ()
    | .throw s1 e => .throw s1 e
    | .undefined => .undefined
  | emplace i v mem =>
    match sparse_vector.emplace w true mem id s i v with
    | .ok s1 _ => .ok s1 ()
    | .throw s1 e => .throw s1 e
    | .undefined => .undefined
  | erase i => sparse_vector.erase w true s i

end Call

/-- The calls one after the other, a throwing call being caught; `none` if
one of them has undefined behaviour. -/
def run {α : Type} (w : Nat) : sparse_vector α → List (Call α) → Option (sparse_vector α)
  | s, [] => some s
  | s, c :: cs =>
    match (c.apply w s).state? with
    | none => none
    | some s1 => run w s1 cs

/-- A state a checked container with a `w`-bit `size_type` can be in: the
result of calls of `insert`, `emplace` and `erase`, successful or failed, on
the empty container, whatever the memory answers during the calls. -/
def Reachable {α : Type} (w : Nat) (s : sparse_vector α) : Prop :=
  ∃ calls : List (Call α), (∀ c ∈ calls, c.index < 2 ^ w) ∧
    run w sparse_vector.empty_vector calls = some s

/-- The storage requests of `insert(index, _)` or `emplace(index, _)` in state
`s` are met: the position table can grow to `index + 1` slots if it has to,
and the dense array can take one more element. -/
def Memory.grants {α : Type} (mem : Memory) (s : sparse_vector α) (index : Nat) : Prop :=
  (s.pos_.length ≤ index → index + 1 ≤ mem.pos_max_size ∧ mem.pos_granted = true) ∧
    s.data_.length < mem.data_max_size ∧ mem.data_granted = true

instance Memory.grants.decidable {α : Type} (mem : Memory) (s : sparse_vector α)
    (index : Nat) : Decidable (mem.grants s index) :=
  inferInstanceAs (Decidable (_ ∧ _ ∧ _))

/-- The storage requests of a call in state `s` are met. -/
def Call.granted {α : Type} (s : sparse_vector α) : Call α → Prop
  | .insert i _ mem => mem.grants s i
  | .emplace i _ mem => mem.grants s i
  | .erase _ => True

instance Call.granted.decidable {α : Type} (s : sparse_vector α) :
    (c : Call α) → Decidable (c.granted s)
  | .insert i _ mem => inferInstanceAs (Decidable (mem.grants s i))
  | .emplace i _ mem => inferInstanceAs (Decidable (mem.grants s i))
  | .erase _ => isTrue trivial

/-- Along the calls, starting in state `s`, every storage request is met. -/
def Granted {α : Type} (w : Nat) : sparse_vector α → List (Call α) → Prop
  | _, [] => True
  | s, c :: cs =>
    c.granted s ∧
      match (c.apply w s).state? with
      | some s1 => Granted w s1 cs
      | none => True

instance Granted.decidable {α : Type} (w : Nat) :
    (s : sparse_vector α) → (calls : List (Call α)) → Decidable (Granted w s calls)
  | _, [] => isTrue trivial
  | s, c :: cs =>
    match h : (c.apply w s).state? with
    | none => decidable_of_iff (c.granted s) (by simp [Granted, h])
    | some s1 =>
      have := Granted.decidable w s1 cs
      decidable_of_iff (c.granted s ∧ Granted w s1 cs) (by simp [Granted, h])

/-- The reference for the container: a finite map from index to value. -/
abbrev RefMap (α : Type) : Type := Finmap (fun _ : Nat => α)

/-- The call on the reference map: `insert`/`emplace` bind the index to the
value, `erase` removes the index. -/
def Call.apply_ref {α : Type} (m : RefMap α) : Call α → RefMap α
  | .insert i v _ => m.insert i v
  | .emplace i v _ => m.insert i v
  | .erase i => m.erase i

/-- The calls applied to the container and, in lockstep, to the reference
map: a call that fails on the container is not applied to the map. -/
def lockstep {α : Type} (w : Nat) :
    sparse_vector α × RefMap α → List (Call α) → Option (sparse_vector α × RefMap α)
  | sm, [] => some sm
  | (s, m), c :: cs =>
    match c.apply w s with
    | .ok s1 _ => lockstep w (s1, c.apply_ref m) cs
    | .throw s1 _ => lockstep w (s1, m) cs
    | .undefined => none

/-- The position table after the growth step of `prepare_insert`, for an
index below the sentinel. -/
def grown (w : Nat) (pos : List Nat) (i : Nat) : List Nat :=
  if i ≥ pos.length then pos ++ List.replicate (i + 1 - pos.length) (InvalidPos w) else pos

namespace sparse_vector

variable {α : Type}

/-- The invariants in counting form: every offset below `data_.size()` occurs
in exactly one slot, and no other value but `InvalidPos` occurs. -/
structure Counted (w : Nat) (s : sparse_vector α) : Prop where
  pos_length : s.pos_.length ≤ InvalidPos w
  data_length : s.data_.length ≤ InvalidPos w
  count_eq : ∀ p, p ≠ InvalidPos w → s.pos_.count p = if p < s.data_.length then 1 else 0

/-- The state after a successful `insert(i, v)`. -/
def inserted (w : Nat) (s : sparse_vector α) (i : Nat) (v : α) : sparse_vector α :=
  { pos_ := (grown w s.pos_ i).set i s.data_.length, data_ := s.data_ ++ [v] }

/-- What holds of a container in every state, also after a call that failed:
the position table has at most `InvalidPos` slots, and there are at least as
many non-absent slots as stored elements. -/
structure Bounded (w : Nat) (s : sparse_vector α) : Prop where
  pos_length : s.pos_.length ≤ InvalidPos w
  data_le_live : s.data_.length ≤ (live_slots w s).length

/-- What a successful `erase(i)` does to the state, in terms of the
index-to-value association. -/
structure ErasedFrom (w : Nat) (s : sparse_vector α) (i : Nat) (s1 : sparse_vector α) :
    Prop where
  wf : WF w s1
  pos_length : s1.pos_.length = s.pos_.length
  data_length : s1.data_.length + 1 = s.data_.length
  lookup_eq : ∀ j, lookup w s1 j = if j = i then none else lookup w s j

/-- The error `check_access` reports for an absent index. -/
def access_error (s : sparse_vector α) (i : Nat) : Error :=
  if s.pos_.length ≤ i then .OutOfRange else .NotFound

end sparse_vector


/-- The container agrees with the reference map. -/
structure Agrees {α : Type} (w : Nat) (s : sparse_vector α) (m : RefMap α) : Prop where
  wf : sparse_vector.WF w s
  lookup_eq : ∀ k, sparse_vector.lookup w s k = Finmap.lookup k m
  card_eq : s.data_.length = m.keys.card

/-- The contract of an access to index `i` (`operator[]`, `erase`) with
outcome `r`: `OutOfRange` exactly when `i` is at or beyond the length of the
position table, `NotFound` exactly when `i` is inside the table and its slot
is `InvalidPos`, a normal return otherwise, and a failing call leaves the
container as it was. -/
def AccessContract {α ρ : Type} (w : Nat) (s : sparse_vector α) (i : Nat)
    (r : Outcome (sparse_vector α) ρ) : Prop :=
  (r.error? = some .OutOfRange ↔ s.pos_.length ≤ i) ∧
  (r.error? = some .NotFound ↔ i < s.pos_.length ∧ s.pos_[i]? = some (InvalidPos w)) ∧
  ((∃ s1 v, r = .ok s1 v) ↔ i < s.pos_.length ∧ s.pos_[i]? ≠ some (InvalidPos w)) ∧
  (∀ s1 e, r = .throw s1 e → s1 = s)

/-- The container of the test "Insert" after `insert(2, 8)` and
`insert(4, 9)`, with an 8-bit `size_type`. -/
def sample : sparse_vector Int := ⟨[255, 255, 0, 255, 1], [8, 9]⟩

/-- The call `insert(0, 5)` with a memory resource that refuses the storage of
`data_`. -/
def failed_insert_calls : List (Call Int) := [.insert 0 5 (Memory.refusing_data 16)]

/-- The container, with an 8-bit `size_type`, after `insert(0, 5)` on the
empty container threw in `data_.push_back`: slot `0` holds offset `0` and no
element is stored. -/
def dangling_sample : sparse_vector Int := ⟨[0], []⟩

/-- The calls `insert(0, 1)`, `insert(1, 2)` and `insert(2, 3)`, the memory
resource refusing the storage of `data_` during the second. -/
def shared_offset_calls : List (Call Int) :=
  [.insert 0 1 (Memory.granting 16), .insert 1 2 (Memory.refusing_data 16),
    .insert 2 3 (Memory.granting 16)]

/-- The container after `shared_offset_calls`: the slots of the indices `1`
and `2` hold the same offset. -/
def shared_offset_sample : sparse_vector Int := ⟨[0, 1, 1], [1, 3]⟩

section views

variable {α : Type}

/-- The index-to-value association slot by slot: `none` for an absent slot,
the stored value for a present one. -/
def view (w : Nat) (s : sparse_vector α) : List (Option α) :=
  s.pos_.map (fun p => if p = InvalidPos w then none else s.data_[p]?)

/-- Comparison of two slots in `operator<=>`: absent against absent is equal,
absent is greater than present, two values compare as values. -/
def slot_compare [Ord α] : Option α → Option α → Ordering
  | none, none => .eq
  | none, some _ => .gt
  | some _, none => .lt
  | some x, some y => compare x y

/-- The scan of `operator<=>` over the common prefix of two views: the first
slot comparison that is not equal, if there is one. -/
def scan_compare [Ord α] : List (Option α) → List (Option α) → Option Ordering
  | x :: xs, y :: ys =>
    if slot_compare x y = .eq then scan_compare xs ys else some (slot_compare x y)
  | _, _ => none

/-- The number of present slots of a view. -/
def live_count (v : List (Option α)) : Nat := v.countP Option.isSome

/-- `operator<=>` on views: the scan, then the tiebreak on the number of
stored values. -/
def view_compare [Ord α] (va vb : List (Option α)) : Ordering :=
  match scan_compare va vb with
  | some o => o
  | none => compare (live_count va) (live_count vb)

/-- Lexicographic comparison of two views, a proper prefix being less. -/
def lex_compare [Ord α] : List (Option α) → List (Option α) → Ordering
  | [], [] => .eq
  | [], _ :: _ => .lt
  | _ :: _, [] => .gt
  | x :: xs, y :: ys =>
    if slot_compare x y = .eq then lex_compare xs ys else slot_compare x y

/-- The position table does not end in an absent slot. -/
def no_trailing_absent (w : Nat) (s : sparse_vector α) : Prop :=
  s.pos_.getLast? ≠ some (InvalidPos w)

/-- A view that does not end in an absent slot. -/
def Trimmed (v : List (Option α)) : Prop := v.getLast? ≠ some none

/-- The container `{0 ↦ 1}` built by `insert(0, 1)`. -/
def order_a : sparse_vector Int := ⟨[0], [1]⟩

/-- The container `{0 ↦ 1}` built by `insert(0, 1)`, `insert(1, 9)`,
`erase(1)`: its position table keeps a trailing absent slot. -/
def order_a1 : sparse_vector Int := ⟨[0, 255], [1]⟩

/-- The container `{0 ↦ 1, 1 ↦ 2}` built by `insert(0, 1)`, `insert(1, 2)`. -/
def order_b : sparse_vector Int := ⟨[0, 1], [1, 2]⟩

end views

section equality

variable {α : Type}

/-- The `for` loop of `operator==`, with the loop counter as in
`three_way_loop`: the first argument is the number of iterations left, `i`
is of type `size_type`, and a wrapping `++i` never ends (`none`). -/
def operator_eq_loop [BEq α] (w : Nat) (a b : sparse_vector α) : Nat → Nat → Option Bool
  | 0, _ => some true
  | rem + 1, i =>
    let next : Option Bool :=
      if (i + 1) % 2 ^ w = i + 1 then operator_eq_loop w a b rem (i + 1) else none
    match a.pos_[i]?, b.pos_[i]? with
    | some pa, some pb =>
      if pa = InvalidPos w ∧ pb = InvalidPos w then next
      else if pa = InvalidPos w ∨ pb = InvalidPos w then some false
      else
        match a.data_[pa]?, b.data_[pb]? with
        | some x, some y => if x != y then some false else next
        | _, _ => none
    | _, _ => none

/-- `operator==(other)`: the sizes of the dense arrays are compared first,
then the position tables slot by slot up to the shorter one; `none` is
undefined behaviour. -/
def operator_eq [BEq α] (w : Nat) (a b : sparse_vector α) : Option Bool :=
  if a.data_.length ≠ b.data_.length then some false
  else operator_eq_loop w a b (min a.pos_.length b.pos_.length) 0

/-- What the reference scan of the ordering comparison finds at index `i`:
nothing when both slots are absent or hold values that compare equal,
`greater` when only the slot of `a` is absent, `less` when only the slot of
`b` is absent, and otherwise the result of comparing the two values. -/
def reference_slot [Ord α] (w : Nat) (a b : sparse_vector α) (i : Nat) : Option Ordering :=
  match sparse_vector.lookup w a i, sparse_vector.lookup w b i with
  | none, none => none
  | none, some _ => some .gt
  | some _, none => some .lt
  | some x, some y => if compare x y = .eq then none else some (compare x y)

/-- The reference definition of the ordering comparison, in the words of the
specification: scan the indices from `0` up to the shorter position table and
return what is found first; if nothing is found, compare `a.size()` with
`b.size()`. -/
def reference_three_way [Ord α] (w : Nat) (a b : sparse_vector α) : Ordering :=
  match (List.range (min a.pos_.length b.pos_.length)).findSome? (reference_slot w a b) with
  | some o => o
  | none => compare (sparse_vector.size w a) (sparse_vector.size w b)

end equality

/-! # `ARo::bookkeeping_memory_resource`

A shallow embedding of `include/mixedbag/bookkeeping_memory_resource.hxx` and
`source/bookkeeping_memory_resource.cxx`.  Addresses (`void*`) and sizes
(`std::size_t`, of `w` bits) are natural numbers.  The upstream resource is
outside the program: what `upstream_->allocate` answers is an argument of
`do_allocate`, and the calls made through `upstream_` are logged in the state.
The storage the two bookkeeping vectors obtain for themselves is not
modelled. -/

/-- `struct Allocation`; its defaulted comparison compares the three members. -/
structure Allocation where
  byteCount : Nat
  alignment : Nat
  address : Nat
  deriving DecidableEq, Repr

/-- A call made through the pointer `upstream_`. -/
inductive UpstreamCall where
  | allocate (byteCount alignment : Nat)
  | deallocate (address byteCount alignment : Nat)
  deriving DecidableEq, Repr

/-- The data members of `bookkeeping_memory_resource`; `upstream_log` holds
the calls made through `upstream_`, oldest first. -/
structure bookkeeping_memory_resource where
  liveAllocations_ : List Allocation
  deadAllocations_ : List Allocation
  numAllocatedBytes_ : Nat
  upstream_log : List UpstreamCall
  deriving DecidableEq, Repr

/-- The exceptions that leave `do_allocate` and `do_deallocate`, named as in
the specification.  The three `std::runtime_error`s of `do_deallocate` carry
the values formatted into their messages; `UpstreamFailure` is whatever
`upstream_->allocate` throws. -/
inductive LedgerError where
  | MismatchedDeallocation (byteCount alignment address existingByteCount
      existingAlignment : Nat)
  | DoubleFree (address : Nat)
  | ForeignPointer
  | UpstreamFailure
  deriving DecidableEq, Repr

/-- Result of a member function of the ledger: a normal return or a thrown
exception, each with the state the object is left in. -/
inductive LedgerOutcome (ρ : Type) where
  | ok (state : bookkeeping_memory_resource) (ret : ρ)
  | throw (state : bookkeeping_memory_resource) (e : LedgerError)
  deriving DecidableEq, Repr

/-- `std::ranges::find` with a predicate for the element sought: the offset
and the value of the first element that satisfies it, or `none` for `end()`. -/
def find_first {β : Type} (p : β → Bool) : List β → Option (Nat × β)
  | [] => none
  | x :: xs => if p x then some (0, x) else (find_first p xs).map (fun r => (r.1 + 1, r.2))

namespace bookkeeping_memory_resource

/-- The constructor: no record, no byte, nothing asked of the upstream. -/
def fresh : bookkeeping_memory_resource := ⟨[], [], 0, []⟩

/-- `get_num_live_allocations()` -/
def get_num_live_allocations (m : bookkeeping_memory_resource) : Nat :=
  m.liveAllocations_.length

/-- `get_num_deallocations()` -/
def get_num_deallocations (m : bookkeeping_memory_resource) : Nat :=
  m.deadAllocations_.length

/-- `get_num_live_allocated_bytes()` -/
def get_num_live_allocated_bytes (m : bookkeeping_memory_resource) : Nat :=
  m.numAllocatedBytes_

/-- `has_no_leak()` -/
def has_no_leak (m : bookkeeping_memory_resource) : Bool :=
  m.liveAllocations_.isEmpty

/-- `do_allocate(byteCount, alignment)`, reached through
`memory_resource::allocate`.  `upstream` is the answer of
`upstream_->allocate(byteCount, alignment)`: the address, or `none` when it
throws. -/
def do_allocate (w : Nat) (m : bookkeeping_memory_resource) (byteCount alignment : Nat)
    (upstream : Option Nat) : LedgerOutcome Nat :=
  let log := m.upstream_log ++ [UpstreamCall.allocate byteCount alignment]
  match upstream with
  | none => .throw { m with upstream_log := log } .UpstreamFailure
  | some address =>
    .ok { liveAllocations_ := m.liveAllocations_ ++ [⟨byteCount, alignment, address⟩]
          deadAllocations_ := m.deadAllocations_
          numAllocatedBytes_ := (m.numAllocatedBytes_ + byteCount) % 2 ^ w
          upstream_log := log } address

/-- `do_deallocate(address, byteCount, alignment)`, reached through
`memory_resource::deallocate`. -/
def do_deallocate (w : Nat) (m : bookkeeping_memory_resource)
    (address byteCount alignment : Nat) : LedgerOutcome Unit :=
  let allocation : Allocation := ⟨byteCount, alignment, address⟩
  match find_first (fun r => decide (r = allocation)) m.liveAllocations_ with
  | some it =>
    .ok { liveAllocations_ := m.liveAllocations_.eraseIdx it.1
          deadAllocations_ := m.deadAllocations_ ++ [allocation]
          numAllocatedBytes_ := (m.numAllocatedBytes_ + (2 ^ w - byteCount % 2 ^ w)) % 2 ^ w
          upstream_log :=
            m.upstream_log ++ [UpstreamCall.deallocate address byteCount alignment] } ()
  | none =>
    match find_first (fun r => decide (r.address = address)) m.liveAllocations_ with
    | some it =>
      .throw m (.MismatchedDeallocation byteCount alignment address it.2.byteCount
        it.2.alignment)
    | none =>
      match find_first (fun r => decide (r.address = address)) m.deadAllocations_ with
      | some _ => .throw m (.DoubleFree address)
      | none => .throw m .ForeignPointer

end bookkeeping_memory_resource

/-- A call of `allocate` (with the answer of the upstream) or `deallocate` on
a ledger. -/
inductive LedgerCall where
  | allocate (byteCount alignment : Nat) (upstream : Option Nat)
  | deallocate (address byteCount alignment : Nat)
  deriving DecidableEq, Repr

/-- The state the ledger is left in by a call, returned or thrown. -/
def LedgerCall.apply (w : Nat) (m : bookkeeping_memory_resource) :
    LedgerCall → bookkeeping_memory_resource
  | .allocate byteCount alignment upstream =>
    match m.do_allocate w byteCount alignment upstream with
    | .ok m1 _ => m1
    | .throw m1 _ => m1
  | .deallocate address byteCount alignment =>
    match m.do_deallocate w address byteCount alignment with
    | .ok m1 _ => m1
    | .throw m1 _ => m1

/-- The calls one after the other, a throwing call being caught. -/
def run_ledger (w : Nat) : bookkeeping_memory_resource → List LedgerCall →
    bookkeeping_memory_resource
  | m, [] => m
  | m, c :: cs => run_ledger w (c.apply w m) cs

/-- The addresses of a list of records. -/
def addresses (l : List Allocation) : List Nat := l.map Allocation.address

/-- Along the calls, starting in state `m`, the upstream never answers an
`allocate` with one of the addresses `avoid` selects from the state at that
time. -/
def UpstreamAvoids (avoid : bookkeeping_memory_resource → List Nat) (w : Nat) :
    bookkeeping_memory_resource → List LedgerCall → Prop
  | _, [] => True
  | m, c :: cs =>
    (∀ byteCount alignment address, c = .allocate byteCount alignment (some address) →
      address ∉ avoid m) ∧ UpstreamAvoids avoid w (c.apply w m) cs

section more_samples

variable {α : Type}

/-- What the scan finds at a pair of slots. -/
def slot_find [Ord α] (x y : Option α) : Option Ordering :=
  if slot_compare x y = .eq then none else some (slot_compare x y)

/-- The container left by `insert(0, 5)`, `erase(0)`: empty, with one absent
slot in its position table. -/
def emptied : sparse_vector Int := ⟨[255], []⟩

end more_samples

/-- The ledger of the test after `allocate(10, 2)` answered with address
`4096`, and once more with `8192`, for a 64-bit `size_t`. -/
def sample_ledger : bookkeeping_memory_resource :=
  ⟨[⟨10, 2, 4096⟩, ⟨10, 2, 8192⟩], [], 20,
    [UpstreamCall.allocate 10 2, UpstreamCall.allocate 10 2]⟩

/-- The ledger `sample_ledger` after `deallocate(8192, 10, 2)`. -/
def sample_ledger_freed : bookkeeping_memory_resource :=
  ⟨[⟨10, 2, 4096⟩], [⟨10, 2, 8192⟩], 10,
    [UpstreamCall.allocate 10 2, UpstreamCall.allocate 10 2,
      UpstreamCall.deallocate 8192 10 2]⟩

/-- The calls of the counterexample to C20: an allocation answered with
address `4096`, its deallocation, and a second allocation that the upstream
answers with the freed address `4096` again. -/
def reuse_calls : List LedgerCall :=
  [.allocate 10 2 (some 4096), .deallocate 4096 10 2, .allocate 10 2 (some 4096)]

/-- The invariant behind C20: the live addresses are pairwise distinct, and
(`disjoint`) none of them is the address of a dead record. -/
structure LedgerInv (disjoint : Bool) (m : bookkeeping_memory_resource) : Prop where
  nodup : (addresses m.liveAllocations_).Nodup
  live_not_dead : disjoint = true →
    ∀ a ∈ addresses m.liveAllocations_, a ∉ addresses m.deadAllocations_

/-- Calls whose allocations the upstream answers with addresses it has not
given out before. -/
def distinct_calls : List LedgerCall :=
  [.allocate 10 2 (some 4096), .allocate 4 4 (some 8192), .deallocate 4096 10 2]

/-! ### Teardown of the ledger -/

/-- A line the ledger writes to an output stream: the message of the
destructor, `"Leaking memory resource!"`; the first line of the dump,
`"There are {} live allocations, with a total of {} bytes allocated:"`; a line
of the dump for one record, `"  {}: {} bytes, alignment {}"`. -/
inductive OutputLine where
  | leaking_memory_resource
  | live_allocations_header (count bytes : Nat)
  | live_allocation (address byteCount alignment : Nat)
  deriving DecidableEq, Repr

/-- What the destructor does: the lines written to `std::cerr`, and whether
`std::terminate()` is called. -/
structure Teardown where
  cerr : List OutputLine
  terminates : Bool
  deriving DecidableEq, Repr

namespace bookkeeping_memory_resource

/-- `print_live_allocations(outputStream)`: the lines written to the stream. -/
def print_live_allocations (m : bookkeeping_memory_resource) : List OutputLine :=
  OutputLine.live_allocations_header m.liveAllocations_.length m.numAllocatedBytes_ ::
    m.liveAllocations_.map (fun r => OutputLine.live_allocation r.address r.byteCount r.alignment)

/-- `~bookkeeping_memory_resource()`:
`if (!has_no_leak()) { std::cerr << "Leaking memory resource!\n"; std::terminate(); }`. -/
def destructor (m : bookkeeping_memory_resource) : Teardown :=
  if !m.has_no_leak then ⟨[OutputLine.leaking_memory_resource], true⟩ else ⟨[], false⟩

end bookkeeping_memory_resource

/-- The allocator of a container, `std::pmr::polymorphic_allocator<>`, given by
the memory resource it points to, the memory resources being numbered.  Two
allocators compare equal when their resources do, and a ledger compares equal
to itself only (`do_is_equal` is `&other == this`). -/
structure polymorphic_allocator where
  resource : Nat
  deriving DecidableEq, Repr

/-- A `std::pmr::vector`: its elements and its allocator. -/
structure pmr_vector (β : Type) where
  elems : List β
  allocator : polymorphic_allocator
  deriving DecidableEq, Repr

/-- What an operation of `std::pmr::vector` that takes another vector leaves:
the vector built or assigned, the other vector after the call, and the
allocators that were asked for storage during the call. -/
structure Transfer (β : Type) where
  vector : pmr_vector β
  other : pmr_vector β
  requests : List polymorphic_allocator
  deriving DecidableEq, Repr

namespace pmr_vector

variable {β : Type}

/-- The storage for `n` elements asked of allocator `a`: nothing is asked for
no element, `std::length_error` above `max_size()`, and the exception of the
memory resource when it refuses. -/
def storage (max_size : Nat) (granted : Bool) (n : Nat) (a : polymorphic_allocator) :
    Except Error (List polymorphic_allocator) :=
  if n = 0 then .ok []
  else if max_size < n then .error .LengthError
  else if granted then .ok [a]
  else .error .BadAlloc

/-- `vector(const vector& other)`: the allocator is
`select_on_container_copy_construction` of the allocator of `other`, for a
polymorphic allocator a default-constructed allocator, which points to
`std::pmr::get_default_resource()`, here `default_resource`. -/
def copy (default_resource max_size : Nat) (granted : Bool) (other : pmr_vector β) :
    Except Error (Transfer β) :=
  match storage max_size granted other.elems.length ⟨default_resource⟩ with
  | .error e => .error e
  | .ok requests => .ok ⟨⟨other.elems, ⟨default_resource⟩⟩, other, requests⟩

/-- `vector(const vector& other, const Allocator& alloc)`. -/
def copy_with (max_size : Nat) (granted : Bool) (other : pmr_vector β)
    (alloc : polymorphic_allocator) : Except Error (Transfer β) :=
  match storage max_size granted other.elems.length alloc with
  | .error e => .error e
  | .ok requests => .ok ⟨⟨other.elems, alloc⟩, other, requests⟩

/-- `vector(vector&& other)`: the new vector takes the storage and the
allocator of `other`, which is left empty; no storage is asked for. -/
def move (other : pmr_vector β) : Transfer β :=
  ⟨⟨other.elems, other.allocator⟩, ⟨[], other.allocator⟩, []⟩

/-- `vector(vector&& other, const Allocator& alloc)`, as libstdc++ implements
it: the storage is taken when `alloc == other.get_allocator()`; otherwise the
elements are moved one by one into storage from `alloc` and `other` is cleared
(the C++ standard leaves the state of `other` unspecified in this case). -/
def move_with (max_size : Nat) (granted : Bool) (other : pmr_vector β)
    (alloc : polymorphic_allocator) : Except Error (Transfer β) :=
  if alloc = other.allocator then .ok ⟨⟨other.elems, alloc⟩, ⟨[], other.allocator⟩, []⟩
  else
    match storage max_size granted other.elems.length alloc with
    | .error e => .error e
    | .ok requests => .ok ⟨⟨other.elems, alloc⟩, ⟨[], other.allocator⟩, requests⟩

/-- `operator=(const vector& other)`: a polymorphic allocator does not
propagate on copy assignment, the vector keeps its allocator. -/
def copy_assign (max_size : Nat) (granted : Bool) (self other : pmr_vector β) :
    Except Error (Transfer β) :=
  match storage max_size granted other.elems.length self.allocator with
  | .error e => .error e
  | .ok requests => .ok ⟨⟨other.elems, self.allocator⟩, other, requests⟩

/-- `operator=(vector&& other)`, as libstdc++ implements it: a polymorphic
allocator does not propagate on move assignment; the storage is taken when the
allocators are equal, otherwise the elements are moved one by one and `other`
is cleared. -/
def move_assign (max_size : Nat) (granted : Bool) (self other : pmr_vector β) :
    Except Error (Transfer β) :=
  if self.allocator = other.allocator then
    .ok ⟨⟨other.elems, self.allocator⟩, ⟨[], other.allocator⟩, []⟩
  else
    match storage max_size granted other.elems.length self.allocator with
    | .error e => .error e
    | .ok requests => .ok ⟨⟨other.elems, self.allocator⟩, ⟨[], other.allocator⟩, requests⟩

end pmr_vector

/-- A `sparse_vector` object with the allocators of its two members. -/
structure pmr_sparse_vector (α : Type) where
  pos_ : pmr_vector Nat
  data_ : pmr_vector α
  deriving DecidableEq, Repr

/-- What a constructor that takes another container leaves: the new object,
the argument after the call, and the allocators that were asked for storage. -/
structure Constructed (α : Type) where
  object : pmr_sparse_vector α
  other : pmr_sparse_vector α
  requests : List polymorphic_allocator
  deriving DecidableEq, Repr

/-- What an assignment leaves: the assigned object and the argument after the
call; `none` when the argument is the assigned object itself. -/
structure Assigned (α : Type) where
  self : pmr_sparse_vector α
  other : Option (pmr_sparse_vector α)
  deriving DecidableEq, Repr

namespace pmr_sparse_vector

variable {α : Type}

/-- The two arrays of the object. -/
def contents (o : pmr_sparse_vector α) : sparse_vector α := ⟨o.pos_.elems, o.data_.elems⟩

/-- An object holding the arrays of `s` in vectors on allocator `a`, as built
from `sparse_vector(allocator)` by calls of the modifiers. -/
def on_allocator (s : sparse_vector α) (a : polymorphic_allocator) : pmr_sparse_vector α :=
  ⟨⟨s.pos_, a⟩, ⟨s.data_, a⟩⟩

/-- `explicit sparse_vector(const allocator_type& allocator)` -/
def allocator_ctor (allocator : polymorphic_allocator) : pmr_sparse_vector α :=
  ⟨⟨[], allocator⟩, ⟨[], allocator⟩⟩

/-- `sparse_vector(const sparse_vector& other) = default`: `pos_`, then
`data_`, is copy constructed; an exception leaves the constructor and no
object is built. -/
def copy_ctor (default_resource : Nat) (mem : Memory) (other : pmr_sparse_vector α) :
    Except Error (Constructed α) :=
  match other.pos_.copy default_resource mem.pos_max_size mem.pos_granted with
  | .error e => .error e
  | .ok p =>
    match other.data_.copy default_resource mem.data_max_size mem.data_granted with
    | .error e => .error e
    | .ok d => .ok ⟨⟨p.vector, d.vector⟩, ⟨p.other, d.other⟩, p.requests ++ d.requests⟩

/-- `sparse_vector(const sparse_vector& other, const allocator_type& allocator)`:
`pos_(other.pos_, allocator), data_(other.data_, allocator)`. -/
def copy_ctor_with (mem : Memory) (other : pmr_sparse_vector α)
    (allocator : polymorphic_allocator) : Except Error (Constructed α) :=
  match other.pos_.copy_with mem.pos_max_size mem.pos_granted allocator with
  | .error e => .error e
  | .ok p =>
    match other.data_.copy_with mem.data_max_size mem.data_granted allocator with
    | .error e => .error e
    | .ok d => .ok ⟨⟨p.vector, d.vector⟩, ⟨p.other, d.other⟩, p.requests ++ d.requests⟩

/-- `sparse_vector(sparse_vector&& other) noexcept = default`: each member is
move constructed. -/
def move_ctor (other : pmr_sparse_vector α) : Constructed α :=
  ⟨⟨other.pos_.move.vector, other.data_.move.vector⟩,
    ⟨other.pos_.move.other, other.data_.move.other⟩,
    other.pos_.move.requests ++ other.data_.move.requests⟩

/-- `sparse_vector(sparse_vector&& other, allocator_type& allocator) noexcept`:
`pos_(std::move(other.pos_), allocator), data_(std::move(other.data_), allocator)`.
The constructor is `noexcept`: an error is a call of `std::terminate`. -/
def move_ctor_with (mem : Memory) (other : pmr_sparse_vector α)
    (allocator : polymorphic_allocator) : Except Error (Constructed α) :=
  match other.pos_.move_with mem.pos_max_size mem.pos_granted allocator with
  | .error e => .error e
  | .ok p =>
    match other.data_.move_with mem.data_max_size mem.data_granted allocator with
    | .error e => .error e
    | .ok d => .ok ⟨⟨p.vector, d.vector⟩, ⟨p.other, d.other⟩, p.requests ++ d.requests⟩

/-- `operator=(const sparse_vector& other)`: `if (&other == this) return *this;
pos_ = other.pos_; data_ = other.data_;`.  `other = none` is the case
`&other == this`.  An exception of the second assignment leaves the function
after `pos_` has been assigned. -/
def operator_assign (mem : Memory) (self : pmr_sparse_vector α)
    (other : Option (pmr_sparse_vector α)) : Outcome (Assigned α) Unit :=
  match other with
  | none => .ok ⟨self, none⟩ ()
  | some o =>
    match self.pos_.copy_assign mem.pos_max_size mem.pos_granted o.pos_ with
    | .error e => .throw ⟨self, some o⟩ e
    | .ok p =>
      match self.data_.copy_assign mem.data_max_size mem.data_granted o.data_ with
      | .error e => .throw ⟨⟨p.vector, self.data_⟩, some ⟨p.other, o.data_⟩⟩ e
      | .ok d => .ok ⟨⟨p.vector, d.vector⟩, some ⟨p.other, d.other⟩⟩ ()

/-- `operator=(sparse_vector&& other) noexcept`: `if (&other == this) return
*this; pos_ = std::move(other.pos_); data_ = std::move(other.data_);`.
`other = none` is the case `&other == this`.  The function is `noexcept`: an
error is a call of `std::terminate`. -/
def operator_assign_move (mem : Memory) (self : pmr_sparse_vector α)
    (other : Option (pmr_sparse_vector α)) : Except Error (Assigned α) :=
  match other with
  | none => .ok ⟨self, none⟩
  | some o =>
    match self.pos_.move_assign mem.pos_max_size mem.pos_granted o.pos_ with
    | .error e => .error e
    | .ok p =>
      match self.data_.move_assign mem.data_max_size mem.data_granted o.data_ with
      | .error e => .error e
      | .ok d => .ok ⟨⟨p.vector, d.vector⟩, some ⟨p.other, d.other⟩⟩

/-- `get_allocator()`: `data_.get_allocator()`. -/
def get_allocator (o : pmr_sparse_vector α) : polymorphic_allocator := o.data_.allocator

end pmr_sparse_vector

/-- The memory has room for a copy of the two arrays of `s`. -/
def Memory.holds {α : Type} (mem : Memory) (s : sparse_vector α) : Prop :=
  s.pos_.length ≤ mem.pos_max_size ∧ s.data_.length ≤ mem.data_max_size ∧
    mem.pos_granted = true ∧ mem.data_granted = true

instance Memory.holds.decidable {α : Type} (mem : Memory) (s : sparse_vector α) :
    Decidable (mem.holds s) :=
  inferInstanceAs (Decidable (_ ∧ _ ∧ _ ∧ _))

/-- Container `d` holds the index-to-value mapping of `s`, as the interface
shows it: `d.size() == s.size()`, the same indices are present, and `d[i]`
returns the value `s[i]` returns at every index present in `s`. -/
def SameMapping {α : Type} (w : Nat) (d s : sparse_vector α) : Prop :=
  sparse_vector.size w d = sparse_vector.size w s ∧
    (∀ i : Nat, sparse_vector.present w d i ↔ sparse_vector.present w s i) ∧
    ∀ i : Nat, sparse_vector.present w s i →
      ∃ v : α, sparse_vector.operator_index_const w true d i = .ok d v ∧
        sparse_vector.operator_index_const w true s i = .ok s v

/-- Container `d` is a copy of `s`: it holds the mapping of `s`, and `d == s`
returns whether every stored value compares equal to itself. -/
def IsCopy {α : Type} [BEq α] (w : Nat) (d s : sparse_vector α) : Prop :=
  SameMapping w d s ∧ operator_eq w d s = some (s.data_.all (fun x => x == x))

/-- The values of a `double`, as far as `==` tells them apart: NaN, which
compares unequal to everything, itself included, and the numbers. -/
inductive double where
  | nan
  | number (n : Int)
  deriving DecidableEq, Repr

/-- `operator==` of `double`. -/
instance double.beq : BEq double where
  beq
    | .number a, .number b => a == b
    | _, _ => false

/-- The container `sample` held by vectors on the allocator of ledger `1`. -/
def sample_object : pmr_sparse_vector Int :=
  pmr_sparse_vector.on_allocator sample ⟨1⟩

/-- An empty container on the allocator of ledger `2`. -/
def sample_target : pmr_sparse_vector Int :=
  pmr_sparse_vector.allocator_ctor ⟨2⟩

/-- The container of `double` left by `insert(0, NaN)`, on the allocator of
ledger `1`. -/
def nan_object : pmr_sparse_vector double :=
  pmr_sparse_vector.on_allocator ⟨[0], [double.nan]⟩ ⟨1⟩

/-- The copy of `nan_object`, on the allocator of the default memory resource
`0`. -/
def nan_copy : pmr_sparse_vector double :=
  pmr_sparse_vector.on_allocator ⟨[0], [double.nan]⟩ ⟨0⟩

/-! ## Auxiliary facts about the position table -/

theorem InvalidPos_succ (w : Nat) : InvalidPos w + 1 = 2 ^ w := by
  have h : 0 < 2 ^ w := Nat.two_pow_pos w
  unfold InvalidPos
  omega

theorem find_eq_some {l : List Nat} {x k : Nat} (h : find l x = some k) : l[k]? = some x := by
  induction l generalizing k with
  | nil => simp [find] at h
  | cons p ps ih =>
    unfold find at h
    split at h
    · cases h; simp [*]
    · cases hf : find ps x with
      | none => simp [hf] at h
      | some j =>
        simp [hf] at h
        subst h
        simpa using ih hf

theorem find_isSome_of_mem {l : List Nat} {x : Nat} (h : x ∈ l) : ∃ k, find l x = some k := by
  induction l with
  | nil => simp at h
  | cons p ps ih =>
    unfold find
    by_cases hp : p = x
    · exact ⟨0, by simp [hp]⟩
    · have hx : x ∈ ps := by
        rcases List.mem_cons.1 h with h1 | h1
        · exact absurd h1.symm hp
        · exact h1
      obtain ⟨k, hk⟩ := ih hx
      exact ⟨k + 1, by simp [hp, hk]⟩

/-- Two slots holding the same value, when that value occurs at most once. -/
theorem index_unique_of_count_le_one {l : List Nat} {p i j : Nat} (hc : l.count p ≤ 1)
    (hi : l[i]? = some p) (hj : l[j]? = some p) : i = j := by
  induction l generalizing i j with
  | nil => simp at hi
  | cons a as ih =>
    cases i with
    | zero =>
      cases j with
      | zero => rfl
      | succ j =>
        simp at hi hj
        subst hi
        have : a ∈ as := List.mem_iff_getElem?.2 ⟨j, hj⟩
        have := List.count_pos_iff.2 this
        simp at hc
        omega
    | succ i =>
      cases j with
      | zero =>
        simp at hi hj
        subst hj
        have : a ∈ as := List.mem_iff_getElem?.2 ⟨i, hi⟩
        have := List.count_pos_iff.2 this
        simp at hc
        omega
      | succ j =>
        simp at hi hj
        have hc2 : as.count p ≤ 1 := by
          have := List.count_le_count_cons (a := p) (b := a) (l := as)
          omega
        rw [ih hc2 hi hj]

theorem perm_range_of_nodup {l : List Nat} {n : Nat} (hn : l.Nodup) (hlt : ∀ p ∈ l, p < n)
    (hlen : n = l.length) : l.Perm (List.range n) := by
  apply List.Subperm.perm_of_length_le
  · apply List.subperm_of_subset hn
    intro p hp
    exact List.mem_range.2 (hlt p hp)
  · simp [hlen]


theorem count_range_eq (p n : Nat) : (List.range n).count p = if p < n then 1 else 0 := by
  split
  · exact List.count_eq_one_of_mem (List.nodup_range n) (List.mem_range.2 ‹_›)
  · exact List.count_eq_zero_of_not_mem (fun h => ‹¬ p < n› (List.mem_range.1 h))

namespace sparse_vector

variable {α : Type} {w : Nat} {s : sparse_vector α}

theorem count_live_slots (w : Nat) (s : sparse_vector α) (p : Nat) :
    (live_slots w s).count p = if p = InvalidPos w then 0 else s.pos_.count p := by
  unfold live_slots
  split
  · apply List.count_eq_zero_of_not_mem
    simp [List.mem_filter]
    intro _; assumption
  · rw [List.count_filter]
    simpa using ‹¬ p = InvalidPos w›

theorem WF.live_perm (h : WF w s) : (live_slots w s).Perm (List.range s.data_.length) :=
  perm_range_of_nodup h.I3_unique h.I3_range h.I2

theorem WF.data_length_le (h : WF w s) : s.data_.length ≤ InvalidPos w := by
  have h1 : (live_slots w s).length ≤ s.pos_.length := List.length_filter_le _ _
  have h2 := h.I2
  have h3 := h.pos_length
  omega

theorem WF.counted (h : WF w s) : Counted w s := by
  refine ⟨h.pos_length, h.data_length_le, ?_⟩
  intro p hp
  have h1 := count_live_slots w s p
  rw [if_neg hp] at h1
  rw [← h1, h.live_perm.count_eq, count_range_eq]

theorem Counted.perm_range (h : Counted w s) :
    (live_slots w s).Perm (List.range s.data_.length) := by
  rw [List.perm_iff_count]
  intro p
  rw [count_live_slots, count_range_eq]
  split
  · have := h.data_length
    rw [if_neg]; omega
  · exact h.count_eq p ‹_›

theorem Counted.to_wf (h : Counted w s) : WF w s := by
  have hp := h.perm_range
  refine ⟨h.pos_length, ?_, ?_, ?_⟩
  · simpa using hp.length_eq.symm
  · intro p hm
    exact List.mem_range.1 (hp.mem_iff.1 hm)
  · exact hp.nodup_iff.2 (List.nodup_range _)

theorem wf_empty_vector (w : Nat) : WF w (empty_vector : sparse_vector α) := by
  refine ⟨?_, ?_, ?_, ?_⟩ <;> simp [empty_vector, live_slots]

end sparse_vector


theorem count_set_nat {l : List Nat} {i old : Nat} (a b : Nat) (h : l[i]? = some old) :
    (l.set i a).count b =
      l.count b - (if old = b then 1 else 0) + (if a = b then 1 else 0) := by
  obtain ⟨hi, hget⟩ := List.getElem?_eq_some.1 h
  rw [List.count_set a b l i hi, hget]
  simp

theorem index_succ_eq {w i : Nat} (hi : i < InvalidPos w) : index_succ w i = i + 1 := by
  have := InvalidPos_succ w
  unfold index_succ
  split
  · rfl
  · exact Nat.mod_eq_of_lt (by omega)

theorem resize_grow {w i mx : Nat} (pos : List Nat) (hi : i < InvalidPos w)
    (hge : i ≥ pos.length) (hmx : i + 1 ≤ mx) :
    resize mx true pos (index_succ w i) (InvalidPos w) = .ok (grown w pos i) := by
  rw [index_succ_eq hi]
  unfold resize grown
  rw [if_neg (by omega), if_neg (by omega), if_pos rfl, if_pos hge]

/-- The growth step of `prepare_insert` either yields the grown table or
throws. -/
theorem resized_cases {w i : Nat} (mem : Memory) (pos : List Nat) (hi : i < InvalidPos w) :
    (if i ≥ pos.length then
        resize mem.pos_max_size mem.pos_granted pos (index_succ w i) (InvalidPos w)
      else Except.ok pos) = .ok (grown w pos i) ∨
    (pos.length ≤ i ∧ ∃ e, (e = Error.LengthError ∨ e = Error.BadAlloc) ∧
      (if i ≥ pos.length then
        resize mem.pos_max_size mem.pos_granted pos (index_succ w i) (InvalidPos w)
      else Except.ok pos) = .error e) := by
  by_cases hge : i ≥ pos.length
  · rw [if_pos hge, index_succ_eq hi]
    unfold resize
    rw [if_neg (by omega)]
    by_cases hmx : mem.pos_max_size < i + 1
    · right
      exact ⟨hge, _, Or.inl rfl, by rw [if_pos hmx]⟩
    · rw [if_neg hmx]
      cases hg : mem.pos_granted
      · right
        exact ⟨hge, _, Or.inr rfl, by simp⟩
      · left
        simp [grown, hge]
  · left
    rw [if_neg hge]
    simp [grown, hge]

theorem resized_granted {w i : Nat} (mem : Memory) (pos : List Nat) (hi : i < InvalidPos w)
    (hg : pos.length ≤ i → i + 1 ≤ mem.pos_max_size ∧ mem.pos_granted = true) :
    (if i ≥ pos.length then
        resize mem.pos_max_size mem.pos_granted pos (index_succ w i) (InvalidPos w)
      else Except.ok pos) = .ok (grown w pos i) := by
  by_cases hge : i ≥ pos.length
  · obtain ⟨h1, h2⟩ := hg hge
    rw [if_pos hge, h2, resize_grow pos hi hge h1]
  · rw [if_neg hge]
    simp [grown, hge]

theorem length_grown (w : Nat) (pos : List Nat) (i : Nat) :
    (grown w pos i).length = max pos.length (i + 1) := by
  unfold grown
  split
  · simp; omega
  · omega

theorem getElem?_grown (w : Nat) (pos : List Nat) (i j : Nat) :
    (grown w pos i)[j]? =
      if j < pos.length then pos[j]? else if j ≤ i then some (InvalidPos w) else none := by
  unfold grown
  split
  · rw [List.getElem?_append]
    split
    · rfl
    · rw [List.getElem?_replicate]
      split <;> split <;> first | rfl | omega
  · split
    · rfl
    · rw [if_neg (by omega)]
      exact List.getElem?_eq_none (by omega)

theorem count_grown {w : Nat} (pos : List Nat) (i p : Nat) (hp : p ≠ InvalidPos w) :
    (grown w pos i).count p = pos.count p := by
  unfold grown
  split
  · rw [List.count_append, List.count_replicate]
    simp [Ne.symm hp]
  · rfl

namespace sparse_vector

variable {α : Type} {w : Nat} {s : sparse_vector α}

theorem grown_absent {i : Nat} (ha : absent w s i) :
    (grown w s.pos_ i)[i]? = some (InvalidPos w) := by
  rw [getElem?_grown]
  split
  · obtain ⟨p, hp⟩ : ∃ p, s.pos_[i]? = some p := ⟨_, List.getElem?_eq_getElem ‹_›⟩
    rw [hp, ha p hp]
  · simp

theorem mod_data_length (h : WF w s) : s.data_.length % 2 ^ w = s.data_.length := by
  have := h.data_length_le
  have := InvalidPos_succ w
  exact Nat.mod_eq_of_lt (by omega)

/-- `prepare_insert` at an absent index other than the sentinel, when the
position table gets its storage: the slot is written, in both
configurations. -/
theorem prepare_insert_absent_ok (Checked : Bool) (mem : Memory) {i : Nat}
    (hne : i ≠ InvalidPos w) (ha : absent w s i)
    (hres : (if i ≥ s.pos_.length then
        resize mem.pos_max_size mem.pos_granted s.pos_ (index_succ w i) (InvalidPos w)
      else Except.ok s.pos_) = .ok (grown w s.pos_ i)) :
    prepare_insert w Checked mem s i =
      .ok ⟨(grown w s.pos_ i).set i (s.data_.length % 2 ^ w), s.data_⟩ () := by
  unfold prepare_insert
  rw [if_neg (by simp [hne])]
  simp only [hres, grown_absent ha]
  simp

/-- `prepare_insert` at an index other than the sentinel, when `pos_.resize`
throws: the container is as it was, in both configurations. -/
theorem prepare_insert_resize_error (Checked : Bool) (mem : Memory) {i : Nat}
    (hne : i ≠ InvalidPos w) {e : Error}
    (hres : (if i ≥ s.pos_.length then
        resize mem.pos_max_size mem.pos_granted s.pos_ (index_succ w i) (InvalidPos w)
      else Except.ok s.pos_) = .error e) :
    prepare_insert w Checked mem s i = .throw s e := by
  unfold prepare_insert
  rw [if_neg (by simp [hne])]
  simp only [hres]

theorem prepare_insert_absent (hwf : WF w s) (mem : Memory) {i : Nat} (hi : i < 2 ^ w)
    (hne : i ≠ InvalidPos w) (ha : absent w s i)
    (hg : s.pos_.length ≤ i → i + 1 ≤ mem.pos_max_size ∧ mem.pos_granted = true) :
    prepare_insert w true mem s i =
      .ok ⟨(grown w s.pos_ i).set i s.data_.length, s.data_⟩ () := by
  have hsucc := InvalidPos_succ w
  have hlt : i < InvalidPos w := by omega
  rw [prepare_insert_absent_ok true mem hne ha (resized_granted mem s.pos_ hlt hg),
    mod_data_length hwf]

theorem push_back_granted {β : Type} {mx : Nat} (l : List β) (x : β) (h : l.length < mx) :
    push_back mx true l x = .ok (l ++ [x]) := by
  unfold push_back
  rw [if_neg (by omega), if_pos rfl]

/-- When `push_back` throws, the error is one of the two of the vector. -/
theorem push_back_cases {β : Type} (mx : Nat) (g : Bool) (l : List β) (x : β) :
    push_back mx g l x = .ok (l ++ [x]) ∨
      ∃ e, (e = Error.LengthError ∨ e = Error.BadAlloc) ∧ push_back mx g l x = .error e := by
  unfold push_back
  by_cases h : mx ≤ l.length
  · right; exact ⟨_, Or.inl rfl, by rw [if_pos h]⟩
  · rw [if_neg h]
    cases g
    · right; exact ⟨_, Or.inr rfl, by simp⟩
    · left; simp

theorem insert_absent (hwf : WF w s) {mem : Memory} {i : Nat} (hi : i < 2 ^ w)
    (hne : i ≠ InvalidPos w) (ha : absent w s i) (hg : mem.grants s i) (v : α) :
    insert w true mem s i v = .ok (inserted w s i v) s.data_.length := by
  unfold insert
  rw [prepare_insert_absent hwf mem hi hne ha hg.1]
  simp only [hg.2.2, push_back_granted _ _ hg.2.1]
  simp [inserted]

theorem emplace_absent {β : Type} (hwf : WF w s) {mem : Memory} {i : Nat} (hi : i < 2 ^ w)
    (hne : i ≠ InvalidPos w) (ha : absent w s i) (hg : mem.grants s i) (ctor : β → α)
    (args : β) :
    emplace w true mem ctor s i args = .ok (inserted w s i (ctor args)) s.data_.length := by
  unfold emplace
  rw [prepare_insert_absent hwf mem hi hne ha hg.1]
  simp only [hg.2.2, push_back_granted _ _ hg.2.1]
  simp [inserted]

theorem prepare_insert_present_of_le (hlen : s.pos_.length ≤ InvalidPos w) (mem : Memory)
    {i : Nat} (hp : present w s i) :
    prepare_insert w true mem s i = .throw s .DuplicateIndex := by
  obtain ⟨p, hget, hpne⟩ := hp
  have hlen : i < s.pos_.length := (List.getElem?_eq_some.1 hget).1
  unfold prepare_insert
  rw [if_neg (by simp; omega)]
  simp only [ge_iff_le, if_neg (Nat.not_le.2 hlen), hget]
  simp [hpne]

theorem prepare_insert_present (hwf : WF w s) (mem : Memory) {i : Nat} (hp : present w s i) :
    prepare_insert w true mem s i = .throw s .DuplicateIndex :=
  prepare_insert_present_of_le hwf.pos_length mem hp

theorem prepare_insert_sentinel (mem : Memory) (s : sparse_vector α) :
    prepare_insert w true mem s (InvalidPos w) = .throw s .InvalidIndex := by
  simp [prepare_insert]

theorem Counted.unique (h : Counted w s) {i j p : Nat} (hi : s.pos_[i]? = some p)
    (hj : s.pos_[j]? = some p) (hp : p ≠ InvalidPos w) : i = j := by
  apply index_unique_of_count_le_one _ hi hj
  rw [h.count_eq p hp]
  split <;> omega

theorem Counted.lt_of_getElem? (h : Counted w s) {i p : Nat} (hi : s.pos_[i]? = some p)
    (hp : p ≠ InvalidPos w) : p < s.data_.length := by
  have h1 := h.count_eq p hp
  have h2 : 0 < s.pos_.count p := List.count_pos_iff.2 (List.mem_iff_getElem?.2 ⟨i, hi⟩)
  by_contra hlt
  rw [if_neg hlt] at h1
  omega

theorem Counted.mem_of_lt (h : Counted w s) {p : Nat} (hp : p < s.data_.length) :
    p ∈ s.pos_ := by
  have hd := h.data_length
  have h1 := h.count_eq p (by omega)
  rw [if_pos hp] at h1
  exact List.count_pos_iff.1 (by omega)

/-- Before an insertion at an absent index below the sentinel the dense array
holds fewer than `InvalidPos` elements: the grown table has at most
`InvalidPos` slots and one of them is absent. -/
theorem data_length_lt_of_absent (hwf : WF w s) {i : Nat} (hi : i < 2 ^ w)
    (hne : i ≠ InvalidPos w) (ha : absent w s i) : s.data_.length < InvalidPos w := by
  have hsucc := InvalidPos_succ w
  have hc := hwf.counted
  have hgi := grown_absent ha
  have hlen := length_grown w s.pos_ i
  have hpl := hwf.pos_length
  have h1 : (live_slots w ⟨grown w s.pos_ i, s.data_⟩).length <
      (grown w s.pos_ i).length := by
    unfold live_slots
    rw [List.length_filter_lt_length_iff_exists]
    exact ⟨InvalidPos w, List.mem_iff_getElem?.2 ⟨i, hgi⟩, by simp⟩
  have h2 : (live_slots w ⟨grown w s.pos_ i, s.data_⟩).length = s.data_.length := by
    have hc2 : Counted w (⟨grown w s.pos_ i, s.data_⟩ : sparse_vector α) :=
      ⟨by simp only [hlen]; omega, hc.data_length, fun p hp => by
        simp only [count_grown _ _ _ hp]; exact hc.count_eq p hp⟩
    simpa using hc2.to_wf.I2.symm
  omega

theorem wf_inserted (hwf : WF w s) {i : Nat} (hi : i < 2 ^ w)
    (hne : i ≠ InvalidPos w) (ha : absent w s i) (v : α) : WF w (inserted w s i v) := by
  have hsucc := InvalidPos_succ w
  have hc := hwf.counted
  have hgi := grown_absent ha
  have hlen := length_grown w s.pos_ i
  have hpl := hwf.pos_length
  have hdl := data_length_lt_of_absent hwf hi hne ha
  apply Counted.to_wf
  refine ⟨?_, ?_, ?_⟩
  · simp only [inserted, List.length_set, hlen]; omega
  · simp only [inserted, List.length_append, List.length_singleton]; omega
  · intro p hp
    simp only [inserted, List.length_append, List.length_singleton]
    rw [count_set_nat _ _ hgi, count_grown _ _ _ hp, hc.count_eq p hp]
    rw [if_neg (Ne.symm hp)]
    split <;> split <;> split <;> omega

theorem lookup_inserted (hwf : WF w s) {i : Nat} (hi : i < 2 ^ w)
    (hne : i ≠ InvalidPos w) (ha : absent w s i) (v : α) (j : Nat) :
    lookup w (inserted w s i v) j = if j = i then some v else lookup w s j := by
  have hc := hwf.counted
  have hlen := length_grown w s.pos_ i
  have hdl := data_length_lt_of_absent hwf hi hne ha
  simp only [lookup, inserted, List.getElem?_set]
  by_cases hij : i = j
  · subst hij
    rw [if_pos rfl, if_pos (by omega), if_pos rfl]
    simp only [if_neg (Nat.ne_of_lt hdl)]
    simp
  · rw [if_neg hij, if_neg (Ne.symm hij), getElem?_grown]
    by_cases hjl : j < s.pos_.length
    · rw [if_pos hjl]
      cases hj : s.pos_[j]? with
      | none => rfl
      | some p =>
        simp only
        split
        · rfl
        · rename_i hpne
          have hpn := hc.lt_of_getElem? hj hpne
          rw [List.getElem?_append_left hpn]
    · rw [if_neg hjl, List.getElem?_eq_none (Nat.le_of_not_lt hjl)]
      by_cases hji : j ≤ i
      · simp [hji]
      · simp [hji]

theorem check_access_present {i : Nat} (hp : present w s i) :
    check_access w true s i = some (.ok ()) := by
  obtain ⟨p, hget, hpne⟩ := hp
  have hlen : i < s.pos_.length := (List.getElem?_eq_some.1 hget).1
  simp [check_access, hget, hpne, Nat.not_le.2 hlen]

theorem erase_last_ok (hwf : WF w s) {i t : Nat} (hget : s.pos_[i]? = some t)
    (hne : t ≠ InvalidPos w) (hlast : t = s.data_.length - 1) :
    ErasedFrom w s i ⟨s.pos_.set i (InvalidPos w), s.data_.dropLast⟩ := by
  have hc := hwf.counted
  have htn := hc.lt_of_getElem? hget hne
  have hdl := hc.data_length
  have hil : i < s.pos_.length := (List.getElem?_eq_some.1 hget).1
  refine ⟨Counted.to_wf ⟨?_, ?_, ?_⟩, ?_, ?_, ?_⟩
  · simpa using hc.pos_length
  · simp; omega
  · intro p hp
    simp only [List.length_dropLast]
    rw [count_set_nat _ _ hget, hc.count_eq p hp, if_neg (Ne.symm hp)]
    split <;> split <;> split <;> omega
  · simp
  · simp; omega
  · intro j
    simp only [lookup, List.getElem?_set]
    by_cases hij : i = j
    · subst hij
      simp [hil]
    · rw [if_neg hij, if_neg (Ne.symm hij)]
      cases hj : s.pos_[j]? with
      | none => rfl
      | some p =>
        simp only
        split
        · rfl
        · rename_i hpne
          have hpn := hc.lt_of_getElem? hj hpne
          have hpt : p ≠ t := fun h => hij (hc.unique hget (h ▸ hj) hne)
          rw [List.getElem?_dropLast, if_pos (by omega)]

theorem erase_swap_ok (hwf : WF w s) {i t k : Nat} (x : α) {y : α} (hget : s.pos_[i]? = some t)
    (hne : t ≠ InvalidPos w) (hlast : t ≠ s.data_.length - 1)
    (hk : s.pos_[k]? = some (s.data_.length - 1))
    (hy : s.data_[s.data_.length - 1]? = some y) :
    ErasedFrom w s i ⟨(s.pos_.set k t).set i (InvalidPos w),
      ((s.data_.set t y).set (s.data_.length - 1) x).dropLast⟩ := by
  have hc := hwf.counted
  have htn := hc.lt_of_getElem? hget hne
  have hdl := hc.data_length
  have hil : i < s.pos_.length := (List.getElem?_eq_some.1 hget).1
  have hkl : k < s.pos_.length := (List.getElem?_eq_some.1 hk).1
  have hki : k ≠ i := by
    intro h
    rw [h, hget] at hk
    exact hlast (Option.some.inj hk)
  have hlne : s.data_.length - 1 ≠ InvalidPos w := by omega
  have hget1 : (s.pos_.set k t)[i]? = some t := by
    rw [List.getElem?_set, if_neg hki, hget]
  refine ⟨Counted.to_wf ⟨?_, ?_, ?_⟩, ?_, ?_, ?_⟩
  · simpa using hc.pos_length
  · simp; omega
  · intro p hp
    simp only [List.length_dropLast, List.length_set]
    rw [count_set_nat _ _ hget1, count_set_nat _ _ hk, hc.count_eq p hp,
      if_neg (Ne.symm hp)]
    split <;> split <;> split <;> split <;> omega
  · simp
  · simp; omega
  · intro j
    simp only [lookup, List.getElem?_set, List.length_set]
    by_cases hij : i = j
    · subst hij
      simp [hil]
    · rw [if_neg hij, if_neg (Ne.symm hij)]
      by_cases hkj : k = j
      · subst hkj
        rw [if_pos rfl, if_pos hkl, hk]
        simp only [if_neg hne, if_neg hlne, hy]
        rw [List.getElem?_dropLast]
        simp only [List.length_set]
        rw [if_pos (by omega), List.getElem?_set, if_neg (Ne.symm hlast), List.getElem?_set,
          if_pos rfl, if_pos htn]
      · rw [if_neg hkj]
        cases hj : s.pos_[j]? with
        | none => rfl
        | some p =>
          simp only
          split
          · rfl
          · rename_i hpne
            have hpn := hc.lt_of_getElem? hj hpne
            have hpt : p ≠ t := fun h => hij (hc.unique hget (h ▸ hj) hne)
            have hpl : p ≠ s.data_.length - 1 :=
              fun h => hkj (hc.unique hk (h ▸ hj) hlne)
            rw [List.getElem?_dropLast]
            simp only [List.length_set]
            rw [if_pos (by omega), List.getElem?_set, if_neg (Ne.symm hpl), List.getElem?_set,
              if_neg (Ne.symm hpt)]

theorem erase_present (hwf : WF w s) {i : Nat} (hp : present w s i) :
    ∃ s1, erase w true s i = .ok s1 () ∧ ErasedFrom w s i s1 := by
  have hc := hwf.counted
  have hchk := check_access_present hp
  obtain ⟨t, hget, hne⟩ := hp
  have htn := hc.lt_of_getElem? hget hne
  have hn0 : s.data_.length ≠ 0 := by omega
  by_cases hlast : t = s.data_.length - 1
  · refine ⟨_, ?_, erase_last_ok hwf hget hne hlast⟩
    simp [erase, hchk, hget, hn0, hlast]
  · obtain ⟨k, hfind⟩ := find_isSome_of_mem (hc.mem_of_lt (show s.data_.length - 1 < _ by omega))
    have hk := find_eq_some hfind
    have hl : s.data_.length - 1 < s.data_.length := by omega
    have hy : s.data_[s.data_.length - 1]? = some s.data_[s.data_.length - 1] :=
      List.getElem?_eq_getElem hl
    refine ⟨_, ?_, erase_swap_ok hwf s.data_[t] hget hne hlast hk hy⟩
    simp [erase, hchk, hget, hn0, hlast, hfind, htn, hl]

theorem present_or_absent (w : Nat) (s : sparse_vector α) (i : Nat) :
    present w s i ∨ absent w s i := by
  cases h : s.pos_[i]? with
  | none => exact Or.inr (fun p hp => by simp [h] at hp)
  | some p =>
    by_cases hp : p = InvalidPos w
    · exact Or.inr (fun q hq => by rw [h] at hq; cases hq; exact hp)
    · exact Or.inl ⟨p, h, hp⟩

theorem not_present_of_absent {i : Nat} (ha : absent w s i) : ¬ present w s i := by
  rintro ⟨p, hp, hne⟩
  exact hne (ha p hp)

theorem absent_of_not_present {i : Nat} (h : ¬ present w s i) : absent w s i :=
  (present_or_absent w s i).resolve_left h

theorem check_access_absent {i : Nat} (ha : absent w s i) :
    check_access w true s i = some (.error (access_error s i)) := by
  unfold check_access access_error
  by_cases hl : s.pos_.length ≤ i
  · simp [hl]
  · have hlt : i < s.pos_.length := Nat.lt_of_not_le hl
    have hget : s.pos_[i]? = some s.pos_[i] := List.getElem?_eq_getElem hlt
    have hinv := ha _ hget
    rw [hinv] at hget
    simp [hl, hget]

theorem lookup_absent {i : Nat} (ha : absent w s i) : lookup w s i = none := by
  unfold lookup
  cases h : s.pos_[i]? with
  | none => rfl
  | some p => simp [ha p h]

theorem lookup_present (hwf : WF w s) {i : Nat} (hp : present w s i) :
    ∃ p v, s.pos_[i]? = some p ∧ p ≠ InvalidPos w ∧ p < s.data_.length ∧
      s.data_[p]? = some v ∧ lookup w s i = some v := by
  obtain ⟨p, hget, hne⟩ := hp
  have hlt := hwf.counted.lt_of_getElem? hget hne
  refine ⟨p, s.data_[p], hget, hne, hlt, List.getElem?_eq_getElem hlt, ?_⟩
  simp [lookup, hget, hne, hlt]

theorem operator_index_const_absent {i : Nat} (ha : absent w s i) :
    operator_index_const w true s i = .throw s (access_error s i) := by
  simp [operator_index_const, check_access_absent ha]

theorem operator_index_absent {i : Nat} (ha : absent w s i) :
    operator_index w true s i = .throw s (access_error s i) := by
  simp [operator_index, check_access_absent ha]

theorem erase_absent {i : Nat} (ha : absent w s i) :
    erase w true s i = .throw s (access_error s i) := by
  simp [erase, check_access_absent ha]

theorem operator_index_const_present (hwf : WF w s) {i : Nat} (hp : present w s i) :
    ∃ v, lookup w s i = some v ∧ operator_index_const w true s i = .ok s v := by
  obtain ⟨p, v, hget, hne, hlt, hv, hl⟩ := lookup_present hwf hp
  refine ⟨v, hl, ?_⟩
  simp [operator_index_const, check_access_present hp, hget, hv]

theorem operator_index_present (hwf : WF w s) {i : Nat} (hp : present w s i) :
    ∃ p, s.pos_[i]? = some p ∧ deref s p = lookup w s i ∧
      operator_index w true s i = .ok s p := by
  obtain ⟨p, v, hget, hne, hlt, hv, hl⟩ := lookup_present hwf hp
  refine ⟨p, hget, by rw [deref, hv, hl], ?_⟩
  simp [operator_index, check_access_present hp, hget, hlt]

/-- On a well-formed container `operator[] const` returns the associated
value exactly at the present indices. -/
theorem operator_index_const_ret (hwf : WF w s) (i : Nat) :
    (operator_index_const w true s i).ret? = lookup w s i := by
  rcases present_or_absent w s i with hp | ha
  · obtain ⟨v, hl, hop⟩ := operator_index_const_present hwf hp
    rw [hop, hl]; rfl
  · rw [operator_index_const_absent ha, lookup_absent ha]; rfl

theorem present_iff_lookup (hwf : WF w s) (i : Nat) :
    present w s i ↔ (lookup w s i).isSome := by
  constructor
  · intro hp
    obtain ⟨_, v, _, _, _, _, hl⟩ := lookup_present hwf hp
    simp [hl]
  · intro h
    by_contra hn
    rw [lookup_absent (absent_of_not_present hn)] at h
    simp at h

end sparse_vector

/-! ## Every reachable state is well-formed -/

variable {α : Type} {w : Nat} {s : sparse_vector α}

/-- The three ways a checked `insert`/`emplace`/`erase` call can go on a
well-formed container when its storage requests are met. -/
theorem Call.apply_cases (hwf : sparse_vector.WF w s) (c : Call α) (hc : c.index < 2 ^ w)
    (hg : c.granted s) :
    (∃ e, c.apply w s = .throw s e) ∨
    (∃ i v mem, (c = .insert i v mem ∨ c = .emplace i v mem) ∧ i ≠ InvalidPos w ∧
      sparse_vector.absent w s i ∧ c.apply w s = .ok (sparse_vector.inserted w s i v) ()) ∨
    (∃ i s1, c = .erase i ∧ sparse_vector.present w s i ∧
      sparse_vector.ErasedFrom w s i s1 ∧ c.apply w s = .ok s1 ()) := by
  cases c with
  | insert i v mem =>
    simp only [Call.index] at hc
    simp only [Call.granted] at hg
    by_cases hs : i = InvalidPos w
    · left
      exact ⟨.InvalidIndex, by
        simp [Call.apply, sparse_vector.insert, hs, sparse_vector.prepare_insert_sentinel]⟩
    · rcases sparse_vector.present_or_absent w s i with hp | ha
      · left
        exact ⟨.DuplicateIndex, by
          simp [Call.apply, sparse_vector.insert,
            sparse_vector.prepare_insert_present hwf mem hp]⟩
      · right; left
        exact ⟨i, v, mem, Or.inl rfl, hs, ha, by
          simp [Call.apply, sparse_vector.insert_absent hwf hc hs ha hg]⟩
  | emplace i v mem =>
    simp only [Call.index] at hc
    simp only [Call.granted] at hg
    by_cases hs : i = InvalidPos w
    · left
      exact ⟨.InvalidIndex, by
        simp [Call.apply, sparse_vector.emplace, hs, sparse_vector.prepare_insert_sentinel]⟩
    · rcases sparse_vector.present_or_absent w s i with hp | ha
      · left
        exact ⟨.DuplicateIndex, by
          simp [Call.apply, sparse_vector.emplace,
            sparse_vector.prepare_insert_present hwf mem hp]⟩
      · right; left
        exact ⟨i, v, mem, Or.inr rfl, hs, ha, by
          simp [Call.apply, sparse_vector.emplace_absent hwf hc hs ha hg]⟩
  | erase i =>
    rcases sparse_vector.present_or_absent w s i with hp | ha
    · right; right
      obtain ⟨s1, he, hs1⟩ := sparse_vector.erase_present hwf hp
      exact ⟨i, s1, rfl, hp, hs1, by simp [Call.apply, he]⟩
    · left
      exact ⟨sparse_vector.access_error s i, by
        simp [Call.apply, sparse_vector.erase_absent ha]⟩

theorem Call.apply_wf (hwf : sparse_vector.WF w s) (c : Call α) (hc : c.index < 2 ^ w)
    (hg : c.granted s) :
    ∃ s1, (c.apply w s).state? = some s1 ∧ sparse_vector.WF w s1 := by
  rcases Call.apply_cases hwf c hc hg with
    ⟨e, h⟩ | ⟨i, v, mem, hcv, hs, ha, h⟩ | ⟨i, s1, _, _, hs1, h⟩
  · exact ⟨s, by rw [h]; rfl, hwf⟩
  · have hi : i < 2 ^ w := by
      rcases hcv with rfl | rfl <;> exact hc
    exact ⟨_, by rw [h]; rfl, sparse_vector.wf_inserted hwf hi hs ha v⟩
  · exact ⟨s1, by rw [h]; rfl, hs1.wf⟩

/-- A run in which every storage request is met is defined and keeps the
container well formed. -/
theorem run_wf (hwf : sparse_vector.WF w s) (calls : List (Call α))
    (hc : ∀ c ∈ calls, c.index < 2 ^ w) (hg : Granted w s calls) :
    ∃ s1, run w s calls = some s1 ∧ sparse_vector.WF w s1 := by
  induction calls generalizing s with
  | nil => exact ⟨s, rfl, hwf⟩
  | cons c cs ih =>
    obtain ⟨s1, h1, hwf1⟩ := Call.apply_wf hwf c (hc c (List.mem_cons_self _ _)) hg.1
    have hg1 : Granted w s1 cs := by
      have := hg.2
      rw [h1] at this
      exact this
    obtain ⟨s2, h2, hwf2⟩ := ih hwf1 (fun d hd => hc d (List.mem_cons_of_mem _ hd)) hg1
    exact ⟨s2, by simp [run, h1, h2], hwf2⟩

/-! ## The claims -/

open sparse_vector

theorem sample_reachable : Reachable 8 sample :=
  ⟨[.insert 2 8 (Memory.granting 16), .insert 4 9 (Memory.granting 16)], by decide, by decide⟩

theorem sample_wf : WF 8 sample := ⟨by decide, by decide, by decide, by decide⟩

theorem sample_present : present 8 sample 2 := ⟨0, by decide, by decide⟩

theorem keys_insert_card {m : RefMap α} {i : Nat} (v : α) (h : i ∉ m) :
    (m.insert i v).keys.card = m.keys.card + 1 := by
  have hk : (m.insert i v).keys = insert i m.keys := by
    ext k
    simp [Finmap.mem_keys, Finmap.mem_insert]
  rw [hk, Finset.card_insert_of_not_mem (by simpa [Finmap.mem_keys] using h)]

theorem Agrees.apply_agrees {m : RefMap α} (h : Agrees w s m) (c : Call α) (hc : c.index < 2 ^ w)
    (hg : c.granted s) :
    (∃ e, c.apply w s = .throw s e) ∨
      ∃ s1, c.apply w s = .ok s1 () ∧ Agrees w s1 (c.apply_ref m) := by
  rcases Call.apply_cases h.wf c hc hg with
    ⟨e, he⟩ | ⟨i, v, mem, hcv, hs, ha, he⟩ | ⟨i, s1, hci, hp, hs1, he⟩
  · exact Or.inl ⟨e, he⟩
  · right
    have hi : i < 2 ^ w := by
      rcases hcv with rfl | rfl <;> exact hc
    have href : c.apply_ref m = m.insert i v := by
      rcases hcv with rfl | rfl <;> rfl
    have hnot : i ∉ m := by
      rw [← Finmap.lookup_eq_none, ← h.lookup_eq, lookup_absent ha]
    refine ⟨_, he, wf_inserted h.wf hi hs ha v, ?_, ?_⟩
    · intro k
      rw [lookup_inserted h.wf hi hs ha, href]
      split
      · subst_vars; rw [Finmap.lookup_insert]
      · rw [Finmap.lookup_insert_of_ne _ ‹_›, h.lookup_eq]
    · rw [href, keys_insert_card v hnot, ← h.card_eq]
      simp [inserted]
  · right
    subst hci
    have hmem : i ∈ m := by
      rw [← Finmap.lookup_isSome, ← h.lookup_eq]
      exact (present_iff_lookup h.wf i).1 hp
    refine ⟨s1, he, hs1.wf, ?_, ?_⟩
    · intro k
      rw [hs1.lookup_eq]
      show _ = Finmap.lookup k (m.erase i)
      split
      · subst_vars; rw [Finmap.lookup_erase]
      · rw [Finmap.lookup_erase_ne ‹_›, h.lookup_eq]
    · show _ = (m.erase i).keys.card
      rw [Finmap.keys_erase, Finset.card_erase_of_mem (Finmap.mem_keys.2 hmem), ← h.card_eq]
      have := hs1.data_length
      omega

theorem Agrees.lockstep_agrees {m : RefMap α} (h : Agrees w s m) (calls : List (Call α))
    (hc : ∀ c ∈ calls, c.index < 2 ^ w) (hg : Granted w s calls) :
    ∃ s1 m1, lockstep w (s, m) calls = some (s1, m1) ∧ Agrees w s1 m1 := by
  induction calls generalizing s m with
  | nil => exact ⟨s, m, rfl, h⟩
  | cons c cs ih =>
    have hcs : ∀ d ∈ cs, d.index < 2 ^ w := fun d hd => hc d (List.mem_cons_of_mem _ hd)
    rcases h.apply_agrees c (hc c (List.mem_cons_self _ _)) hg.1 with ⟨e, he⟩ | ⟨s1, he, h1⟩
    · have hg1 : Granted w s cs := by
        have := hg.2
        rw [he] at this
        exact this
      obtain ⟨s2, m2, h2, ha2⟩ := ih h hcs hg1
      exact ⟨s2, m2, by simp [ARo.lockstep, he, h2], ha2⟩
    · have hg1 : Granted w s1 cs := by
        have := hg.2
        rw [he] at this
        exact this
      obtain ⟨s2, m2, h2, ha2⟩ := ih h1 hcs hg1
      exact ⟨s2, m2, by simp [ARo.lockstep, he, h2], ha2⟩

theorem agrees_empty (w : Nat) : Agrees w (empty_vector : sparse_vector α) ∅ :=
  ⟨wf_empty_vector w, fun k => by simp [lookup, empty_vector], by simp [empty_vector]⟩

theorem size_eq_data_length (hwf : WF w s) : size w s = s.data_.length :=
  mod_data_length hwf

theorem operator_index_ret (hwf : WF w s) (i : Nat) :
    (operator_index w true s i).ret?.bind (deref s) = lookup w s i := by
  rcases present_or_absent w s i with hp | ha
  · obtain ⟨p, _, hd, hop⟩ := operator_index_present hwf hp
    rw [hop, ← hd]; rfl
  · rw [operator_index_absent ha, lookup_absent ha]; rfl

theorem operator_index_const_defined (hwf : WF w s) (i : Nat) :
    (operator_index_const w true s i).state? = some s := by
  rcases present_or_absent w s i with hp | ha
  · obtain ⟨v, _, hop⟩ := operator_index_const_present hwf hp
    rw [hop]; rfl
  · rw [operator_index_const_absent ha]; rfl

/-- For every sequence of insert/emplace/erase calls (with `size_type`
arguments) whose storage requests are all met, applied to an empty checked
container and in lockstep to a reference finite map, the run is defined and
afterwards `size()` is the number of keys of the map and, for every index `k`,
`operator[](k)` (read-only, and mutable read through the returned reference)
returns the map's value at `k` exactly when `k` is a key, and otherwise
fails. -/
theorem lockstep_refinement (w : Nat) (calls : List (Call α))
    (hc : ∀ c ∈ calls, c.index < 2 ^ w) (hg : Granted w empty_vector calls) :
    ∃ s m, lockstep w (empty_vector, (∅ : RefMap α)) calls = some (s, m) ∧
      size w s = m.keys.card ∧
      ∀ k, (operator_index_const w true s k).ret? = Finmap.lookup k m ∧
        (operator_index w true s k).ret?.bind (deref s) = Finmap.lookup k m ∧
        (operator_index_const w true s k).state? = some s := by
  obtain ⟨s, m, hrun, hag⟩ := (agrees_empty w).lockstep_agrees calls hc hg
  refine ⟨s, m, hrun, ?_, fun k => ⟨?_, ?_, ?_⟩⟩
  · rw [size_eq_data_length hag.wf, hag.card_eq]
  · rw [operator_index_const_ret hag.wf, hag.lookup_eq]
  · rw [operator_index_ret hag.wf, hag.lookup_eq]
  · exact operator_index_const_defined hag.wf k

/-- C1 (failing run): on the empty checked container with an 8-bit
`size_type`, `insert(0, 5)` throws out of `data_.push_back` when the memory
resource refuses the storage.  The call failed and the reference map is still
empty, but the container is not as it was: slot `0` of the position table
holds offset `0`.  Afterwards `operator[](0)` does not fail: `check_access`
passes and `data_[pos_[0]]` reads an element of the empty `data_`; and
`insert(0, 5)` with all the memory it asks for fails with `DuplicateIndex`,
although `0` is not a key of the map. -/
theorem C1_failed_insert_breaks_lockstep :
    sparse_vector.insert 8 true (Memory.refusing_data 16) empty_vector 0 (5 : Int) =
        .throw dangling_sample .BadAlloc ∧
      lockstep 8 (empty_vector, (∅ : RefMap Int)) failed_insert_calls =
        some (dangling_sample, ∅) ∧
      dangling_sample ≠ empty_vector ∧
      Finmap.lookup 0 (∅ : RefMap Int) = none ∧
      operator_index_const 8 true dangling_sample 0 = .undefined ∧
      operator_index 8 true dangling_sample 0 = .undefined ∧
      sparse_vector.insert 8 true (Memory.granting 16) dangling_sample 0 5 =
        .throw dangling_sample .DuplicateIndex :=
  ⟨by decide, rfl, by decide, rfl, by decide, by decide, by decide⟩

theorem present_iff_slot (w : Nat) (s : sparse_vector α) (i : Nat) :
    present w s i ↔ i < s.pos_.length ∧ s.pos_[i]? ≠ some (InvalidPos w) := by
  constructor
  · rintro ⟨p, hget, hne⟩
    refine ⟨(List.getElem?_eq_some.1 hget).1, ?_⟩
    rw [hget]
    intro h
    exact hne (Option.some.inj h)
  · rintro ⟨hlt, hne⟩
    refine ⟨s.pos_[i], List.getElem?_eq_getElem hlt, ?_⟩
    intro h
    apply hne
    rw [List.getElem?_eq_getElem hlt, h]

theorem accessContract_throw {ρ : Type} {i : Nat} (ha : absent w s i) :
    AccessContract w s i (.throw s (access_error s i) : Outcome (sparse_vector α) ρ) := by
  have hnp := not_present_of_absent ha
  rw [present_iff_slot] at hnp
  unfold AccessContract access_error
  by_cases hl : s.pos_.length ≤ i
  · have : ¬ i < s.pos_.length := Nat.not_lt.2 hl
    simp [Outcome.error?, hl, this]
  · have hlt : i < s.pos_.length := Nat.lt_of_not_le hl
    have hinv : s.pos_[i]? = some (InvalidPos w) := by
      by_contra h
      exact hnp ⟨hlt, h⟩
    simp only [Outcome.error?, if_neg hl]
    refine ⟨by simp [hl], by simp [hlt, hinv], by simp [hinv], ?_⟩
    intro s1 e h
    cases h
    rfl

theorem accessContract_ok {ρ : Type} {i : Nat} (hp : present w s i) (s1 : sparse_vector α)
    (v : ρ) : AccessContract w s i (.ok s1 v) := by
  have hs := (present_iff_slot w s i).1 hp
  unfold AccessContract
  refine ⟨?_, ?_, ?_, ?_⟩
  · simp [Outcome.error?, hs.1]
  · simp [Outcome.error?, hs.2]
  · exact ⟨fun _ => hs, fun _ => ⟨s1, v, rfl⟩⟩
  · intro s2 e h
    cases h

/-- C3: on a well-formed container, `insert` and `emplace` at a present index
fail with `DuplicateIndex` for every value, whatever the memory would answer,
and overwrite nothing: the position table, the dense array, `size()` and the
result of `operator[](i)` are what they were before the call. -/
theorem C3_insert_duplicate {β : Type} (hwf : WF w s) (i : Nat) (hp : present w s i) (v : α)
    (ctor : β → α) (args : β) (mem : Memory) :
    ∃ s1 s2, sparse_vector.insert w true mem s i v = .throw s1 .DuplicateIndex ∧
      emplace w true mem ctor s i args = .throw s2 .DuplicateIndex ∧
      s1.pos_ = s.pos_ ∧ s1.data_ = s.data_ ∧ size w s1 = size w s ∧
      (operator_index_const w true s1 i).ret? = (operator_index_const w true s i).ret? ∧
      s2.pos_ = s.pos_ ∧ s2.data_ = s.data_ ∧ size w s2 = size w s ∧
      (operator_index_const w true s2 i).ret? = (operator_index_const w true s i).ret? := by
  refine ⟨s, s, ?_, ?_, rfl, rfl, rfl, rfl, rfl, rfl, rfl, rfl⟩
  · simp [sparse_vector.insert, prepare_insert_present hwf mem hp]
  · simp [emplace, prepare_insert_present hwf mem hp]

theorem C3_insert_duplicate_witness :
    WF 8 sample ∧ present 8 sample 2 ∧
    ∃ s1 s2, sparse_vector.insert 8 true (Memory.granting 16) sample 2 3 =
        .throw s1 .DuplicateIndex ∧
      emplace 8 true (Memory.granting 16) (fun n : Nat => (n : Int)) sample 2 3 =
        .throw s2 .DuplicateIndex ∧
      s1.pos_ = sample.pos_ ∧ s1.data_ = sample.data_ ∧ size 8 s1 = size 8 sample ∧
      (operator_index_const 8 true s1 2).ret? = (operator_index_const 8 true sample 2).ret? ∧
      s2.pos_ = sample.pos_ ∧ s2.data_ = sample.data_ ∧ size 8 s2 = size 8 sample ∧
      (operator_index_const 8 true s2 2).ret? = (operator_index_const 8 true sample 2).ret? :=
  ⟨sample_wf, sample_present,
    C3_insert_duplicate sample_wf 2 sample_present 3 (fun n : Nat => (n : Int)) 3
      (Memory.granting 16)⟩

/-- C4: in every container state, `insert` and `emplace` at the sentinel index
`InvalidPos`, the largest value of the `size_type` (255 for 8 bits), are
rejected with `InvalidIndex`, whatever the memory would answer, and leave the
container unchanged; the position table is not grown. -/
theorem C4_insert_sentinel {β : Type} (w : Nat) (s : sparse_vector α) (v : α)
    (ctor : β → α) (args : β) (mem : Memory) :
    sparse_vector.insert w true mem s (InvalidPos w) v = .throw s .InvalidIndex ∧
      emplace w true mem ctor s (InvalidPos w) args = .throw s .InvalidIndex ∧
      InvalidPos w + 1 = 2 ^ w ∧ InvalidPos 8 = 255 := by
  refine ⟨?_, ?_, InvalidPos_succ w, by decide⟩
  · simp [sparse_vector.insert, prepare_insert_sentinel]
  · simp [emplace, prepare_insert_sentinel]

/-- C5: on a well-formed container, `erase(i)` at a present index succeeds and
invalidates no index but `i`: `size()` drops by exactly one, `operator[](i)`
then fails with `NotFound`, and for every other index the result of
`operator[]` (the value or the error) is the same as before. -/
theorem C5_erase_present (hwf : WF w s) (i : Nat) (hp : present w s i) :
    ∃ s1, erase w true s i = .ok s1 () ∧ size w s1 + 1 = size w s ∧
      operator_index_const w true s1 i = .throw s1 .NotFound ∧
      operator_index w true s1 i = .throw s1 .NotFound ∧
      ∀ j, j ≠ i → (operator_index_const w true s1 j).result? =
        (operator_index_const w true s j).result? := by
  obtain ⟨s1, he, h1⟩ := erase_present hwf hp
  have hil : i < s.pos_.length := ((present_iff_slot w s i).1 hp).1
  have hai : absent w s1 i := by
    apply absent_of_not_present
    rw [present_iff_lookup h1.wf, h1.lookup_eq, if_pos rfl]
    simp
  have herr : access_error s1 i = .NotFound := by
    unfold access_error
    rw [h1.pos_length, if_neg (Nat.not_le.2 hil)]
  refine ⟨s1, he, ?_, ?_, ?_, ?_⟩
  · rw [size_eq_data_length h1.wf, size_eq_data_length hwf, h1.data_length]
  · rw [operator_index_const_absent hai, herr]
  · rw [operator_index_absent hai, herr]
  · intro j hj
    have hlj : lookup w s1 j = lookup w s j := by rw [h1.lookup_eq, if_neg hj]
    rcases present_or_absent w s j with hpj | haj
    · have hpj1 : present w s1 j := by
        rw [present_iff_lookup h1.wf, hlj, ← present_iff_lookup hwf]; exact hpj
      obtain ⟨v, hv, hop⟩ := operator_index_const_present hwf hpj
      obtain ⟨v1, hv1, hop1⟩ := operator_index_const_present h1.wf hpj1
      rw [hlj, hv] at hv1
      cases hv1
      rw [hop, hop1]; rfl
    · have haj1 : absent w s1 j := by
        apply absent_of_not_present
        rw [present_iff_lookup h1.wf, hlj, ← present_iff_lookup hwf]
        exact not_present_of_absent haj
      rw [operator_index_const_absent haj, operator_index_const_absent haj1]
      simp [Outcome.result?, access_error, h1.pos_length]

theorem C5_erase_present_witness :
    WF 8 sample ∧ present 8 sample 2 ∧
    ∃ s1, erase 8 true sample 2 = .ok s1 () ∧ size 8 s1 + 1 = size 8 sample ∧
      operator_index_const 8 true s1 2 = .throw s1 .NotFound ∧
      operator_index 8 true s1 2 = .throw s1 .NotFound ∧
      ∀ j, j ≠ 2 → (operator_index_const 8 true s1 j).result? =
        (operator_index_const 8 true sample j).result? :=
  ⟨sample_wf, sample_present, C5_erase_present sample_wf 2 sample_present⟩

/-- For every well-formed checked container and every index `i`,
`operator[](i)`, mutable and read-only, and `erase(i)` fail with `OutOfRange`
exactly when `i` is at or beyond the length of the position table, fail with
`NotFound` exactly when `i` is inside the table and its slot is absent, and
succeed otherwise; a failing call leaves the container unchanged. -/
theorem access_contract_of_wf (hwf : WF w s) (i : Nat) :
    AccessContract w s i (operator_index w true s i) ∧
      AccessContract w s i (operator_index_const w true s i) ∧
      AccessContract w s i (erase w true s i) := by
  rcases present_or_absent w s i with hp | ha
  · obtain ⟨p, _, _, h1⟩ := operator_index_present hwf hp
    obtain ⟨v, _, h2⟩ := operator_index_const_present hwf hp
    obtain ⟨s1, h3, _⟩ := erase_present hwf hp
    rw [h1, h2, h3]
    exact ⟨accessContract_ok hp _ _, accessContract_ok hp _ _, accessContract_ok hp _ _⟩
  · rw [operator_index_absent ha, operator_index_const_absent ha, erase_absent ha]
    exact ⟨accessContract_throw ha, accessContract_throw ha, accessContract_throw ha⟩

theorem dangling_sample_reachable : Reachable 8 dangling_sample :=
  ⟨failed_insert_calls, by decide, by decide⟩

theorem shared_offset_sample_reachable : Reachable 8 shared_offset_sample :=
  ⟨shared_offset_calls, by decide, by decide⟩

/-- C6 (failing call): the checked container left by the failed `insert(0, 5)`
has index `0` inside its position table with a slot that is not absent, yet
`operator[](0)`, mutable and read-only, and `erase(0)` do not succeed: they
pass `check_access` and access an element of the empty `data_`, which is
undefined. -/
theorem C6_access_after_failed_insert :
    Reachable 8 dangling_sample ∧
      0 < dangling_sample.pos_.length ∧
      dangling_sample.pos_[0]? ≠ some (InvalidPos 8) ∧
      operator_index 8 true dangling_sample 0 = .undefined ∧
      operator_index_const 8 true dangling_sample 0 = .undefined ∧
      erase 8 true dangling_sample 0 = .undefined ∧
      ¬ AccessContract 8 dangling_sample 0 (operator_index_const 8 true dangling_sample 0) := by
  refine ⟨dangling_sample_reachable, by decide, by decide, by decide, by decide, by decide, ?_⟩
  intro h
  obtain ⟨s1, v, hv⟩ := h.2.2.1.2 ⟨by decide, by decide⟩
  have hu : operator_index_const 8 true dangling_sample 0 = .undefined := by decide
  rw [hu] at hv
  cases hv

/-- C7 (failing state): after the failed `insert(0, 5)` on the empty container
`size()` is `0` and `empty()` is true, while the position table has one slot
that is not absent. -/
theorem C7_size_after_failed_insert :
    Reachable 8 dangling_sample ∧
      size 8 dangling_sample = 0 ∧
      sparse_vector.empty dangling_sample = true ∧
      (live_slots 8 dangling_sample).length = 1 :=
  ⟨dangling_sample_reachable, by decide, by decide, by decide⟩

/-- C8 (failing state): after the failed `insert(0, 5)` slot `0` holds offset
`0`, which is not below `size() = 0`; and after `insert(0, 1)`, a failed
`insert(1, 2)` and `insert(2, 3)` the slots of the indices `1` and `2` hold
the same offset `1`. -/
theorem C8_offsets_after_failed_insert :
    Reachable 8 dangling_sample ∧
      dangling_sample.pos_[0]? = some 0 ∧ 0 ≠ InvalidPos 8 ∧
      ¬ (0 < size 8 dangling_sample) ∧
      Reachable 8 shared_offset_sample ∧
      shared_offset_sample.pos_[1]? = some 1 ∧
      shared_offset_sample.pos_[2]? = some 1 ∧ 1 ≠ InvalidPos 8 :=
  ⟨dangling_sample_reachable, by decide, by decide, by decide,
    shared_offset_sample_reachable, by decide, by decide, by decide⟩

/-- C9 (failing state): after `insert(0, 1)`, a failed `insert(1, 2)` and
`insert(2, 3)` the indices `0`, `1` and `2` are present and `operator[]`
returns `1`, `3` and `3` at them, while a traversal visits the two elements
`1` and `3`: `size()` is `2` with three present indices, and the value `3` is
the value of two indices. -/
theorem C9_traversal_after_failed_insert :
    Reachable 8 shared_offset_sample ∧
      present_indices 8 shared_offset_sample = [0, 1, 2] ∧
      (present_indices 8 shared_offset_sample).filterMap
        (fun i => (operator_index_const 8 true shared_offset_sample i).ret?) = [1, 3, 3] ∧
      traverse shared_offset_sample = [1, 3] ∧
      size 8 shared_offset_sample = 2 ∧
      ¬ (traverse shared_offset_sample).Perm
        ((present_indices 8 shared_offset_sample).filterMap
          (fun i => (operator_index_const 8 true shared_offset_sample i).ret?)) := by
  refine ⟨shared_offset_sample_reachable, by decide, by decide, by decide, by decide, ?_⟩
  intro h
  have := h.length_eq
  revert this
  decide

/-- In every well-formed state `size()` is the number of non-absent slots of
the position table, and `empty()` holds exactly when that number is zero. -/
theorem size_counts_live_slots_of_wf (hwf : WF w s) :
    size w s = (live_slots w s).length ∧
      (sparse_vector.empty s = true ↔ (live_slots w s).length = 0) := by
  refine ⟨by rw [size_eq_data_length hwf, hwf.I2], ?_⟩
  rw [← hwf.I2]
  simp [sparse_vector.empty, List.isEmpty_iff_length_eq_zero]

theorem erase_ok_present {i : Nat} {s1 : sparse_vector α} (h : erase w true s i = .ok s1 ()) :
    present w s i := by
  by_contra hn
  rw [erase_absent (absent_of_not_present hn)] at h
  cases h

/-- In every well-formed state the offsets in the non-absent slots of the
position table are pairwise distinct and each lies in `[0, size())`; in
particular after an erase no slot holds the offset of the removed last dense
element. -/
theorem offsets_unique_in_range_of_wf (hwf : WF w s) :
    (∀ i j p q : Nat, s.pos_[i]? = some p → s.pos_[j]? = some q → p ≠ InvalidPos w →
        q ≠ InvalidPos w → i ≠ j → p ≠ q) ∧
      (∀ i p : Nat, s.pos_[i]? = some p → p ≠ InvalidPos w → p < size w s) ∧
      (∀ (i : Nat) (s1 : sparse_vector α), erase w true s i = .ok s1 () →
        ∀ j : Nat, s1.pos_[j]? ≠ some (s.data_.length - 1)) := by
  have hc := hwf.counted
  refine ⟨?_, ?_, ?_⟩
  · intro i j p q hi hj hp _ hij hpq
    subst hpq
    exact hij (hc.unique hi hj hp)
  · intro i p hi hp
    rw [size_eq_data_length hwf]
    exact hc.lt_of_getElem? hi hp
  · intro i s1 he j hj
    obtain ⟨s2, he2, h2⟩ := erase_present hwf (erase_ok_present he)
    rw [he] at he2
    cases he2
    have hd := hc.data_length
    have hlen := h2.data_length
    have := h2.wf.counted.lt_of_getElem? hj (by omega)
    omega

theorem range_filterMap_getElem? {β γ : Type} (l : List β) (f : β → Option γ) :
    (List.range l.length).filterMap (fun i => l[i]?.bind f) = l.filterMap f := by
  induction l using List.reverseRecOn with
  | nil => rfl
  | append_singleton l a ih =>
    rw [List.length_append, List.length_singleton, List.range_succ, List.filterMap_append,
      List.filterMap_append, ← ih]
    congr 1
    · apply List.filterMap_congr
      intro i hi
      rw [List.getElem?_append_left (List.mem_range.1 hi)]
    · have h : (l ++ [a])[l.length]? = some a := by simp
      simp only [List.filterMap_cons, List.filterMap_nil, h, Option.some_bind]

/-- The values stored in the container, in the order of their indices. -/
theorem values_by_index_perm (hwf : WF w s) :
    ((List.range s.pos_.length).filterMap (lookup w s)).Perm s.data_ := by
  have h1 : (List.range s.pos_.length).filterMap (lookup w s) =
      s.pos_.filterMap (fun p => if p = InvalidPos w then none else s.data_[p]?) := by
    rw [← range_filterMap_getElem? s.pos_]
    apply List.filterMap_congr
    intro i _
    unfold lookup
    cases s.pos_[i]? <;> rfl
  have h2 : s.pos_.filterMap (fun p => if p = InvalidPos w then none else s.data_[p]?) =
      (live_slots w s).filterMap (fun p => s.data_[p]?) := by
    unfold live_slots
    rw [List.filterMap_filter]
    apply List.filterMap_congr
    intro p _
    by_cases hp : p = InvalidPos w <;> simp [hp]
  have h3 : (List.range s.data_.length).filterMap (fun p => s.data_[p]?) = s.data_ := by
    have := range_filterMap_getElem? s.data_ some
    simpa using this
  rw [h1, h2]
  exact (hwf.live_perm.filterMap _).trans (by rw [h3])

/-- In every well-formed state a traversal from `begin()` to `end()` (equally
`cbegin()` to `cend()`) visits exactly the multiset of the values `operator[]`
returns at the present indices, each once, and exactly `size()` elements. -/
theorem traversal_multiset_of_wf (hwf : WF w s) :
    (traverse s).Perm
        ((present_indices w s).filterMap (fun i => (operator_index_const w true s i).ret?)) ∧
      (traverse s).length = size w s := by
  refine ⟨?_, by rw [size_eq_data_length hwf]; rfl⟩
  have h : (present_indices w s).filterMap (fun i => (operator_index_const w true s i).ret?) =
      (List.range s.pos_.length).filterMap (lookup w s) := by
    unfold present_indices
    rw [List.filterMap_filter]
    apply List.filterMap_congr
    intro i hi
    rw [operator_index_const_ret hwf]
    split
    · rfl
    · rename_i hn
      have : s.pos_[i]? = some (InvalidPos w) := by simpa using hn
      simp [lookup, this]
  rw [h]
  exact (values_by_index_perm hwf).symm

/-! ## `operator<=>` -/

theorem getElem?_view (s : sparse_vector α) (i : Nat) :
    (view w s)[i]? = (s.pos_[i]?).map (fun p => if p = InvalidPos w then none else s.data_[p]?) := by
  simp [view]

theorem length_view (s : sparse_vector α) : (view w s).length = s.pos_.length := by
  simp [view]

theorem join_view (s : sparse_vector α) (i : Nat) : ((view w s)[i]?).join = lookup w s i := by
  rw [getElem?_view]
  unfold lookup
  cases s.pos_[i]? <;> rfl

theorem live_count_view {s : sparse_vector α} (hwf : WF w s) :
    live_count (view w s) = s.data_.length := by
  have hc := hwf.counted
  unfold live_count view
  rw [List.countP_map, hwf.I2]
  unfold live_slots
  rw [← List.countP_eq_length_filter]
  apply List.countP_congr
  intro p hp
  obtain ⟨i, hi⟩ := List.mem_iff_getElem?.1 hp
  by_cases hinv : p = InvalidPos w
  · simp [hinv]
  · have hlt := hc.lt_of_getElem? hi hinv
    simp [hinv, hlt]

theorem size_tiebreak_eq_compare (a b : sparse_vector α) :
    size_tiebreak a b = compare a.data_.length b.data_.length := by
  unfold size_tiebreak
  rw [Nat.compare_def_lt]

theorem drop_eq_cons_of_getElem? {β : Type} {l : List β} {i : Nat} {x : β}
    (h : l[i]? = some x) : l.drop i = x :: l.drop (i + 1) := by
  obtain ⟨hi, hx⟩ := List.getElem?_eq_some.1 h
  rw [← hx]
  exact List.drop_eq_getElem_cons hi

theorem three_way_loop_eq [Ord α] {a b : sparse_vector α} (hwa : WF w a) (hwb : WF w b) :
    ∀ (rem i : Nat), i + rem = min a.pos_.length b.pos_.length →
      three_way_loop w a b rem i =
        some (match scan_compare ((view w a).drop i) ((view w b).drop i) with
          | some o => o
          | none => size_tiebreak a b) := by
  have hsucc := InvalidPos_succ w
  have hla := hwa.pos_length
  have hlb := hwb.pos_length
  intro rem
  induction rem with
  | zero =>
    intro i hi
    have : (view w a).drop i = [] ∨ (view w b).drop i = [] := by
      rcases Nat.le_total a.pos_.length b.pos_.length with h | h
      · left
        apply List.drop_eq_nil_of_le
        rw [length_view]; omega
      · right
        apply List.drop_eq_nil_of_le
        rw [length_view]; omega
    rcases this with h | h
    · rw [h]; simp [three_way_loop, scan_compare]
    · rw [h]
      cases (view w a).drop i <;> simp [three_way_loop, scan_compare]
  | succ rem ih =>
    intro i hi
    have hia : i < a.pos_.length := by omega
    have hib : i < b.pos_.length := by omega
    have hpa : a.pos_[i]? = some a.pos_[i] := List.getElem?_eq_getElem hia
    have hpb : b.pos_[i]? = some b.pos_[i] := List.getElem?_eq_getElem hib
    have hva := drop_eq_cons_of_getElem? (by rw [getElem?_view, hpa]; rfl :
      (view w a)[i]? = some (if a.pos_[i] = InvalidPos w then none else a.data_[a.pos_[i]]?))
    have hvb := drop_eq_cons_of_getElem? (by rw [getElem?_view, hpb]; rfl :
      (view w b)[i]? = some (if b.pos_[i] = InvalidPos w then none else b.data_[b.pos_[i]]?))
    have hwrap : (i + 1) % 2 ^ w = i + 1 := Nat.mod_eq_of_lt (by omega)
    have hnext := ih (i + 1) (by omega)
    rw [hva, hvb]
    unfold three_way_loop
    simp only [hpa, hpb, hwrap, if_true, hnext]
    by_cases ha : a.pos_[i] = InvalidPos w
    · by_cases hb : b.pos_[i] = InvalidPos w
      · simp [ha, hb, scan_compare, slot_compare]
      · have hlt := hwb.counted.lt_of_getElem? hpb hb
        have hy : b.data_[b.pos_[i]]? = some b.data_[b.pos_[i]] := List.getElem?_eq_getElem hlt
        simp [ha, hb, hy, scan_compare, slot_compare]
    · have hlta := hwa.counted.lt_of_getElem? hpa ha
      have hx : a.data_[a.pos_[i]]? = some a.data_[a.pos_[i]] := List.getElem?_eq_getElem hlta
      by_cases hb : b.pos_[i] = InvalidPos w
      · simp [ha, hb, hx, scan_compare, slot_compare]
      · have hlt := hwb.counted.lt_of_getElem? hpb hb
        have hy : b.data_[b.pos_[i]]? = some b.data_[b.pos_[i]] := List.getElem?_eq_getElem hlt
        simp only [ha, hb, hx, hy, scan_compare, slot_compare, false_and, if_false]
        by_cases hc : compare a.data_[a.pos_[i]] b.data_[b.pos_[i]] = .eq
        · simp [hc]
        · simp [hc]

/-- On well-formed containers `operator<=>` is defined and is the comparison
of the two views. -/
theorem three_way_eq_view_compare [Ord α] {a b : sparse_vector α} (hwa : WF w a)
    (hwb : WF w b) : three_way w a b = some (view_compare (view w a) (view w b)) := by
  unfold three_way
  rw [three_way_loop_eq hwa hwb _ 0 (by simp)]
  simp only [List.drop_zero, view_compare, size_tiebreak_eq_compare, live_count_view hwa,
    live_count_view hwb]

theorem live_count_cons (x : Option α) (xs : List (Option α)) :
    live_count (x :: xs) = live_count xs + if x.isSome then 1 else 0 := by
  unfold live_count
  rw [List.countP_cons]

theorem nat_compare_add (n m k : Nat) : compare (n + k) (m + k) = compare n m := by
  have e1 : (n + k < m + k) = (n < m) := by simp
  have e2 : (m + k < n + k) = (m < n) := by simp
  simp only [Nat.compare_def_lt, e1, e2]

theorem live_count_eq_zero_iff (v : List (Option α)) :
    live_count v = 0 ↔ ∀ i : Nat, (v[i]?).join = none := by
  induction v with
  | nil => simp [live_count]
  | cons x xs ih =>
    rw [live_count_cons]
    constructor
    · intro h i
      have h1 : live_count xs = 0 := by omega
      cases i with
      | zero =>
        cases x with
        | none => simp
        | some x => simp at h
      | succ i => simpa using (ih.1 h1) i
    · intro h
      have h0 := h 0
      have h1 : live_count xs = 0 := ih.2 (fun i => by simpa using h (i + 1))
      cases x with
      | none => simp [h1]
      | some x => simp at h0

section order

variable [LinearOrder α]

theorem slot_compare_eq_iff (x y : Option α) : slot_compare x y = .eq ↔ x = y := by
  cases x <;> cases y <;> simp [slot_compare, compare_eq_iff_eq]

theorem slot_compare_swap (x y : Option α) : (slot_compare x y).swap = slot_compare y x := by
  cases x with
  | none => cases y <;> rfl
  | some x =>
    cases y with
    | none => rfl
    | some y =>
      simp only [slot_compare]
      rcases lt_trichotomy x y with h | h | h
      · rw [compare_lt_iff_lt.2 h, compare_gt_iff_gt.2 h]; rfl
      · rw [compare_eq_iff_eq.2 h, compare_eq_iff_eq.2 h.symm]; rfl
      · rw [compare_gt_iff_gt.2 h, compare_lt_iff_lt.2 h]; rfl

theorem slot_compare_lt_trans {x y z : Option α} (h1 : slot_compare x y = .lt)
    (h2 : slot_compare y z = .lt) : slot_compare x z = .lt := by
  cases x <;> cases y <;> cases z <;> simp_all [slot_compare, compare_lt_iff_lt]
  exact lt_trans h1 h2

theorem scan_compare_self (v : List (Option α)) : scan_compare v v = none := by
  induction v with
  | nil => rfl
  | cons x xs ih => simp [scan_compare, (slot_compare_eq_iff x x).2 rfl, ih]

theorem scan_compare_swap (va vb : List (Option α)) :
    scan_compare vb va = (scan_compare va vb).map Ordering.swap := by
  induction va generalizing vb with
  | nil => cases vb <;> rfl
  | cons x xs ih =>
    cases vb with
    | nil => rfl
    | cons y ys =>
      simp only [scan_compare]
      by_cases h : slot_compare x y = .eq
      · have h2 : slot_compare y x = .eq := by
          rw [← slot_compare_swap, h]; rfl
        rw [if_pos h, if_pos h2, ih]
      · have h2 : slot_compare y x ≠ .eq := by
          intro h3
          apply h
          rw [← slot_compare_swap, h3]; rfl
        rw [if_neg h, if_neg h2, ← slot_compare_swap]; rfl

theorem view_compare_self (v : List (Option α)) : view_compare v v = .eq := by
  unfold view_compare
  rw [scan_compare_self]
  exact Nat.compare_eq_eq.2 rfl

theorem view_compare_swap (va vb : List (Option α)) :
    view_compare vb va = (view_compare va vb).swap := by
  unfold view_compare
  rw [scan_compare_swap va vb]
  cases scan_compare va vb with
  | none => exact (Nat.compare_swap _ _).symm
  | some o => rfl

theorem view_compare_cons_eq {x y : Option α} (xs ys : List (Option α))
    (h : slot_compare x y = .eq) : view_compare (x :: xs) (y :: ys) = view_compare xs ys := by
  have hxy := (slot_compare_eq_iff x y).1 h
  subst hxy
  simp only [view_compare, scan_compare, if_pos h, live_count_cons, nat_compare_add]

theorem view_compare_cons_ne {x y : Option α} (xs ys : List (Option α))
    (h : slot_compare x y ≠ .eq) : view_compare (x :: xs) (y :: ys) = slot_compare x y := by
  simp only [view_compare, scan_compare, if_neg h]

/-- `operator<=>` on views returns `equal` exactly when the views associate
the same value with every index. -/
theorem view_compare_eq_iff (va vb : List (Option α)) :
    view_compare va vb = .eq ↔ ∀ i : Nat, (va[i]?).join = (vb[i]?).join := by
  induction va generalizing vb with
  | nil =>
    have h : view_compare [] vb = compare 0 (live_count vb) := by
      cases vb <;> simp [view_compare, scan_compare, live_count]
    rw [h, Nat.compare_eq_eq, eq_comm, live_count_eq_zero_iff]
    simp [eq_comm]
  | cons x xs ih =>
    cases vb with
    | nil =>
      have h : view_compare (x :: xs) [] = compare (live_count (x :: xs)) 0 := by
        simp [view_compare, scan_compare, live_count]
      rw [h, Nat.compare_eq_eq, live_count_eq_zero_iff]
      simp
    | cons y ys =>
      by_cases h : slot_compare x y = .eq
      · rw [view_compare_cons_eq xs ys h, ih]
        have hxy := (slot_compare_eq_iff x y).1 h
        constructor
        · intro h1 i
          cases i with
          | zero => simp [hxy]
          | succ i => simpa using h1 i
        · intro h1 i
          simpa using h1 (i + 1)
      · rw [view_compare_cons_ne xs ys h]
        constructor
        · intro h1; exact absurd h1 h
        · intro h1
          have h0 := h1 0
          simp at h0
          exact absurd ((slot_compare_eq_iff x y).2 h0) h

end order

theorem getLast?_cons_cons {β : Type} (x y : β) (ys : List β) :
    (x :: y :: ys).getLast? = (y :: ys).getLast? := by
  simp [List.getLast?_cons_cons]

theorem Trimmed.tail {x : Option α} {xs : List (Option α)} (h : Trimmed (x :: xs)) :
    Trimmed xs := by
  cases xs with
  | nil => simp [Trimmed]
  | cons y ys =>
    unfold Trimmed at h ⊢
    rwa [getLast?_cons_cons] at h

theorem Trimmed.live_count_pos {x : Option α} {xs : List (Option α)}
    (h : Trimmed (x :: xs)) : 0 < live_count (x :: xs) := by
  induction xs generalizing x with
  | nil =>
    cases x with
    | none => simp [Trimmed] at h
    | some x => simp [live_count]
  | cons y ys ih =>
    have := ih h.tail
    rw [live_count_cons]
    omega

theorem trimmed_view {s : sparse_vector α} (hwf : WF w s) (h : no_trailing_absent w s) :
    Trimmed (view w s) := by
  unfold Trimmed view
  rw [List.getLast?_map]
  cases hl : s.pos_.getLast? with
  | none => simp
  | some p =>
    have hp : p ≠ InvalidPos w := by
      intro hp
      apply h
      rw [hl, hp]
    have hmem : p ∈ s.pos_ := List.mem_of_getLast?_eq_some hl
    obtain ⟨i, hi⟩ := List.mem_iff_getElem?.1 hmem
    have hlt := hwf.counted.lt_of_getElem? hi hp
    simp [hp, hlt]

section order

variable [LinearOrder α]

theorem view_compare_eq_lex_compare {va vb : List (Option α)} (ha : Trimmed va)
    (hb : Trimmed vb) : view_compare va vb = lex_compare va vb := by
  induction va generalizing vb with
  | nil =>
    cases vb with
    | nil => exact view_compare_self []
    | cons y ys =>
      have := hb.live_count_pos
      have h0 : live_count ([] : List (Option α)) = 0 := rfl
      simp only [view_compare, scan_compare, lex_compare, h0]
      exact Nat.compare_eq_lt.2 this
  | cons x xs ih =>
    cases vb with
    | nil =>
      have := ha.live_count_pos
      have h0 : live_count ([] : List (Option α)) = 0 := rfl
      simp only [view_compare, scan_compare, lex_compare, h0]
      exact Nat.compare_eq_gt.2 this
    | cons y ys =>
      by_cases h : slot_compare x y = .eq
      · rw [view_compare_cons_eq xs ys h, ih ha.tail hb.tail]
        simp [lex_compare, h]
      · rw [view_compare_cons_ne xs ys h]
        simp [lex_compare, h]

theorem lex_compare_lt_trans {va vb vc : List (Option α)} (h1 : lex_compare va vb = .lt)
    (h2 : lex_compare vb vc = .lt) : lex_compare va vc = .lt := by
  induction va generalizing vb vc with
  | nil =>
    cases vb with
    | nil => simp [lex_compare] at h1
    | cons y ys =>
      cases vc with
      | nil => simp [lex_compare] at h2
      | cons z zs => rfl
  | cons x xs ih =>
    cases vb with
    | nil => simp [lex_compare] at h1
    | cons y ys =>
      cases vc with
      | nil => simp [lex_compare] at h2
      | cons z zs =>
        simp only [lex_compare] at h1 h2 ⊢
        by_cases hxy : slot_compare x y = .eq
        · have exy := (slot_compare_eq_iff x y).1 hxy
          subst exy
          rw [if_pos hxy] at h1
          by_cases hyz : slot_compare x z = .eq
          · rw [if_pos hyz] at h2 ⊢
            exact ih h1 h2
          · rw [if_neg hyz] at h2 ⊢
            exact h2
        · rw [if_neg hxy] at h1
          by_cases hyz : slot_compare y z = .eq
          · have eyz := (slot_compare_eq_iff y z).1 hyz
            subst eyz
            rw [if_neg hxy]
            exact h1
          · rw [if_neg hyz] at h2
            have hxz := slot_compare_lt_trans h1 h2
            rw [if_neg (by rw [hxz]; decide), hxz]

end order

theorem eq_of_join_eq {va vb : List (Option α)} (ha : Trimmed va) (hb : Trimmed vb)
    (h : ∀ i : Nat, (va[i]?).join = (vb[i]?).join) : va = vb := by
  induction va generalizing vb with
  | nil =>
    cases vb with
    | nil => rfl
    | cons y ys =>
      have h1 := hb.live_count_pos
      have h2 := (live_count_eq_zero_iff (y :: ys)).2 (fun i => by simpa using (h i).symm)
      omega
  | cons x xs ih =>
    cases vb with
    | nil =>
      have h1 := ha.live_count_pos
      have h2 := (live_count_eq_zero_iff (x :: xs)).2 (fun i => by simpa using h i)
      omega
    | cons y ys =>
      have h0 := h 0
      simp at h0
      rw [h0, ih ha.tail hb.tail (fun i => by simpa using h (i + 1))]

theorem order_a_reachable : Reachable 8 order_a :=
  ⟨[.insert 0 1 (Memory.granting 16)], by decide, by decide⟩

theorem order_a1_reachable : Reachable 8 order_a1 :=
  ⟨[.insert 0 1 (Memory.granting 16), .insert 1 9 (Memory.granting 16), .erase 1],
    by decide, by decide⟩

theorem order_b_reachable : Reachable 8 order_b :=
  ⟨[.insert 0 1 (Memory.granting 16), .insert 1 2 (Memory.granting 16)], by decide, by decide⟩

theorem order_a1_wf : WF 8 order_a1 := ⟨by decide, by decide, by decide, by decide⟩

theorem order_b_wf : WF 8 order_b := ⟨by decide, by decide, by decide, by decide⟩

/-- C10 (failing comparison): with an 8-bit `size_type` and `int` values, the
containers `a = {0 ↦ 1}`, `a1 = {0 ↦ 1}` with a trailing absent slot left by an
erase, and `b = {0 ↦ 1, 1 ↦ 2}` are reachable with all storage granted,
`a == a1` is true and `a <=> a1` is equal and `a <=> b` is less, yet
`a1 <=> b` is greater: equivalence is not compatible with the order; and
`a < b`, `b < a1` while `a <=> a1` is equal, not less: 'less' is not
transitive. -/
theorem C10_not_strict_weak_order :
    Reachable 8 order_a ∧ Reachable 8 order_a1 ∧ Reachable 8 order_b ∧
      operator_eq 8 order_a order_a1 = some true ∧
      three_way 8 order_a order_a1 = some .eq ∧
      three_way 8 order_a order_b = some .lt ∧
      three_way 8 order_a1 order_b = some .gt ∧
      three_way 8 order_b order_a1 = some .lt ∧
      ¬ (three_way 8 order_a1 order_b = some .lt) ∧
      ¬ (three_way 8 order_a order_a1 = some .lt) :=
  ⟨order_a_reachable, order_a1_reachable, order_b_reachable, by decide, by decide, by decide,
    by decide, by decide, by decide, by decide⟩

/-- What does hold of `operator<=>` over well-formed containers with a totally
ordered value type: it is defined, `a <=> a` is equal, `a <=> b` is less
exactly when `b <=> a` is greater, and equivalence (`a <=> b` equal) is
transitive.  Among containers whose position table does not end in an absent
slot, 'less' is transitive, and equivalence is compatible with the order. -/
theorem three_way_order_of_wf [LinearOrder α] (w : Nat) (a a1 b c : sparse_vector α)
    (wa : WF w a) (wa1 : WF w a1) (wb : WF w b) (wc : WF w c) :
    (∃ o, three_way w a b = some o) ∧
    three_way w a a = some .eq ∧
    (three_way w a b = some .lt ↔ three_way w b a = some .gt) ∧
    (three_way w a b = some .eq → three_way w b c = some .eq → three_way w a c = some .eq) ∧
    (no_trailing_absent w a → no_trailing_absent w b → no_trailing_absent w c →
      three_way w a b = some .lt → three_way w b c = some .lt → three_way w a c = some .lt) ∧
    (no_trailing_absent w a → no_trailing_absent w a1 →
      three_way w a a1 = some .eq → three_way w a b = some .lt →
        three_way w a1 b = some .lt) := by
  simp only [three_way_eq_view_compare wa wb, three_way_eq_view_compare wa wa,
    three_way_eq_view_compare wb wa, three_way_eq_view_compare wb wc,
    three_way_eq_view_compare wa wc, three_way_eq_view_compare wa wa1,
    three_way_eq_view_compare wa1 wb, Option.some.injEq]
  refine ⟨⟨_, rfl⟩, view_compare_self _, ?_, ?_, ?_, ?_⟩
  · rw [view_compare_swap (view w a) (view w b)]
    cases view_compare (view w a) (view w b) <;> decide
  · intro h1 h2
    rw [view_compare_eq_iff] at h1 h2 ⊢
    intro i
    rw [h1 i, h2 i]
  · intro na nb nc h1 h2
    have ta := trimmed_view wa na
    have tb := trimmed_view wb nb
    have tc := trimmed_view wc nc
    rw [view_compare_eq_lex_compare ta tb] at h1
    rw [view_compare_eq_lex_compare tb tc] at h2
    rw [view_compare_eq_lex_compare ta tc]
    exact lex_compare_lt_trans h1 h2
  · intro na na1 h1 h2
    have ta := trimmed_view wa na
    have ta1 := trimmed_view wa1 na1
    rw [view_compare_eq_iff] at h1
    rw [← eq_of_join_eq ta ta1 h1]
    exact h2

/-! ## `operator==` and the reference comparison -/

theorem scan_compare_ne_eq [Ord α] (va vb : List (Option α)) :
    scan_compare va vb ≠ some .eq := by
  induction va generalizing vb with
  | nil => cases vb <;> simp [scan_compare]
  | cons x xs ih =>
    cases vb with
    | nil => simp [scan_compare]
    | cons y ys =>
      simp only [scan_compare]
      split
      · exact ih ys
      · rename_i hne
        intro h
        exact hne (Option.some.inj h)

theorem view_compare_eq_eq_iff [Ord α] (va vb : List (Option α)) :
    view_compare va vb = .eq ↔ scan_compare va vb = none ∧ live_count va = live_count vb := by
  unfold view_compare
  cases h : scan_compare va vb with
  | none => simp [Nat.compare_eq_eq]
  | some o =>
    have := scan_compare_ne_eq va vb
    rw [h] at this
    simp only [false_and, iff_false, reduceCtorEq]
    intro ho
    exact this (by rw [ho])

theorem operator_eq_loop_eq [Ord α] [BEq α]
    (hcons : ∀ x y : α, (x == y) = true ↔ compare x y = .eq)
    {a b : sparse_vector α} (hwa : WF w a) (hwb : WF w b) :
    ∀ (rem i : Nat), i + rem = min a.pos_.length b.pos_.length →
      operator_eq_loop w a b rem i =
        some (scan_compare ((view w a).drop i) ((view w b).drop i)).isNone := by
  have hsucc := InvalidPos_succ w
  have hla := hwa.pos_length
  have hlb := hwb.pos_length
  intro rem
  induction rem with
  | zero =>
    intro i hi
    have : (view w a).drop i = [] ∨ (view w b).drop i = [] := by
      rcases Nat.le_total a.pos_.length b.pos_.length with h | h
      · left
        apply List.drop_eq_nil_of_le
        rw [length_view]; omega
      · right
        apply List.drop_eq_nil_of_le
        rw [length_view]; omega
    rcases this with h | h
    · rw [h]; simp [operator_eq_loop, scan_compare]
    · rw [h]
      cases (view w a).drop i <;> simp [operator_eq_loop, scan_compare]
  | succ rem ih =>
    intro i hi
    have hia : i < a.pos_.length := by omega
    have hib : i < b.pos_.length := by omega
    have hpa : a.pos_[i]? = some a.pos_[i] := List.getElem?_eq_getElem hia
    have hpb : b.pos_[i]? = some b.pos_[i] := List.getElem?_eq_getElem hib
    have hva := drop_eq_cons_of_getElem? (by rw [getElem?_view, hpa]; rfl :
      (view w a)[i]? = some (if a.pos_[i] = InvalidPos w then none else a.data_[a.pos_[i]]?))
    have hvb := drop_eq_cons_of_getElem? (by rw [getElem?_view, hpb]; rfl :
      (view w b)[i]? = some (if b.pos_[i] = InvalidPos w then none else b.data_[b.pos_[i]]?))
    have hwrap : (i + 1) % 2 ^ w = i + 1 := Nat.mod_eq_of_lt (by omega)
    have hnext := ih (i + 1) (by omega)
    rw [hva, hvb]
    unfold operator_eq_loop
    simp only [hpa, hpb, hwrap, if_true, hnext]
    by_cases ha : a.pos_[i] = InvalidPos w
    · by_cases hb : b.pos_[i] = InvalidPos w
      · simp [ha, hb, scan_compare, slot_compare]
      · have hlt := hwb.counted.lt_of_getElem? hpb hb
        have hy : b.data_[b.pos_[i]]? = some b.data_[b.pos_[i]] := List.getElem?_eq_getElem hlt
        simp [ha, hb, hy, scan_compare, slot_compare]
    · have hlta := hwa.counted.lt_of_getElem? hpa ha
      have hx : a.data_[a.pos_[i]]? = some a.data_[a.pos_[i]] := List.getElem?_eq_getElem hlta
      by_cases hb : b.pos_[i] = InvalidPos w
      · simp [ha, hb, hx, scan_compare, slot_compare]
      · have hlt := hwb.counted.lt_of_getElem? hpb hb
        have hy : b.data_[b.pos_[i]]? = some b.data_[b.pos_[i]] := List.getElem?_eq_getElem hlt
        simp only [ha, hb, hx, hy, scan_compare, slot_compare, false_and, false_or, if_false]
        by_cases hc : compare a.data_[a.pos_[i]] b.data_[b.pos_[i]] = .eq
        · have hbeq := (hcons _ _).2 hc
          simp [hc, bne, hbeq]
        · have hbeq : (a.data_[a.pos_[i]] == b.data_[b.pos_[i]]) = false := by
            cases hq : (a.data_[a.pos_[i]] == b.data_[b.pos_[i]]) with
            | false => rfl
            | true => exact absurd ((hcons _ _).1 hq) hc
          simp [hc, bne, hbeq]

/-- On well-formed containers `operator==` is defined: it is true exactly when
the sizes agree and the scan of the views finds no difference. -/
theorem operator_eq_eq_scan [Ord α] [BEq α]
    (hcons : ∀ x y : α, (x == y) = true ↔ compare x y = .eq)
    {a b : sparse_vector α} (hwa : WF w a) (hwb : WF w b) :
    operator_eq w a b = some (decide (a.data_.length = b.data_.length) &&
      (scan_compare (view w a) (view w b)).isNone) := by
  unfold operator_eq
  by_cases h : a.data_.length = b.data_.length
  · rw [if_neg (by simpa using h), operator_eq_loop_eq hcons hwa hwb _ 0 (by simp)]
    simp [h]
  · rw [if_pos h]
    simp [h]

theorem scan_compare_eq_findSome [Ord α] (va vb : List (Option α)) :
    scan_compare va vb =
      (List.range (min va.length vb.length)).findSome?
        (fun i => slot_find ((va[i]?).join) ((vb[i]?).join)) := by
  induction va generalizing vb with
  | nil => simp [scan_compare]
  | cons x xs ih =>
    cases vb with
    | nil => simp [scan_compare]
    | cons y ys =>
      have hmin : min (x :: xs).length (y :: ys).length = min xs.length ys.length + 1 := by
        simp only [List.length_cons]; omega
      rw [hmin, List.range_succ_eq_map, List.findSome?_cons, List.findSome?_map]
      have h0 : slot_find (((x :: xs)[0]?).join) (((y :: ys)[0]?).join) = slot_find x y := by
        simp
      have hcomp : ((fun i => slot_find (((x :: xs)[i]?).join) (((y :: ys)[i]?).join)) ∘
          Nat.succ) = fun i => slot_find ((xs[i]?).join) ((ys[i]?).join) := by
        funext i
        simp
      rw [h0, hcomp, ← ih ys]
      by_cases h : slot_compare x y = .eq
      · simp [scan_compare, slot_find, h]
      · simp [scan_compare, slot_find, h]

theorem reference_slot_eq [Ord α] (a b : sparse_vector α) (i : Nat) :
    reference_slot w a b i = slot_find (((view w a)[i]?).join) (((view w b)[i]?).join) := by
  rw [join_view, join_view]
  unfold reference_slot slot_find
  cases lookup w a i <;> cases lookup w b i <;> simp [slot_compare]

/-- C12: for every two well-formed containers, `a <=> b` is defined and equals
the reference definition: the first finding of the scan of the indices below
the shorter position-table length (both absent: nothing; only `a` absent:
greater; only `b` absent: less; two values that do not compare equal: their
comparison), and otherwise the comparison of `a.size()` with `b.size()`. -/
theorem C12_three_way_reference [Ord α] {a b : sparse_vector α} (hwa : WF w a)
    (hwb : WF w b) : three_way w a b = some (reference_three_way w a b) := by
  rw [three_way_eq_view_compare hwa hwb]
  congr 1
  unfold view_compare reference_three_way
  rw [scan_compare_eq_findSome, length_view, length_view, size_eq_data_length hwa,
    size_eq_data_length hwb, live_count_view hwa, live_count_view hwb]
  have : (fun i => slot_find (((view w a)[i]?).join) (((view w b)[i]?).join)) =
      reference_slot w a b := by
    funext i
    rw [reference_slot_eq]
  rw [this]

theorem C12_three_way_reference_witness :
    WF 8 order_a1 ∧ WF 8 order_b ∧
      three_way 8 order_a1 order_b = some (reference_three_way 8 order_a1 order_b) :=
  have h1 : WF 8 order_a1 := order_a1_wf
  have h2 : WF 8 order_b := order_b_wf
  ⟨h1, h2, C12_three_way_reference h1 h2⟩

/-- C14: for every two well-formed containers, with a value type whose `==`
agrees with its `<=>`, `operator==` and `operator<=>` are defined and agree:
`a == b` is true exactly when `a <=> b` is equal. -/
theorem C14_eq_agrees_with_three_way [Ord α] [BEq α]
    (hcons : ∀ x y : α, (x == y) = true ↔ compare x y = .eq)
    {a b : sparse_vector α} (hwa : WF w a) (hwb : WF w b) :
    ∃ r o, operator_eq w a b = some r ∧ three_way w a b = some o ∧ (r = true ↔ o = .eq) := by
  refine ⟨_, _, operator_eq_eq_scan hcons hwa hwb, three_way_eq_view_compare hwa hwb, ?_⟩
  rw [view_compare_eq_eq_iff, live_count_view hwa, live_count_view hwb]
  simp only [Bool.and_eq_true, decide_eq_true_eq, Option.isNone_iff_eq_none]
  exact And.comm

theorem C14_eq_agrees_with_three_way_witness :
    (∀ x y : Int, (x == y) = true ↔ compare x y = .eq) ∧ WF 8 order_a1 ∧ WF 8 order_b ∧
    ∃ r o, operator_eq 8 order_a1 order_b = some r ∧ three_way 8 order_a1 order_b = some o ∧
      (r = true ↔ o = .eq) :=
  have hcons : ∀ x y : Int, (x == y) = true ↔ compare x y = .eq := fun x y => by
    rw [compare_eq_iff_eq]; exact beq_iff_eq
  have h1 : WF 8 order_a1 := order_a1_wf
  have h2 : WF 8 order_b := order_b_wf
  ⟨hcons, h1, h2, C14_eq_agrees_with_three_way hcons h1 h2⟩

theorem emptied_reachable : Reachable 8 emptied :=
  ⟨[.insert 0 5 (Memory.granting 16), .erase 0], by decide, by decide⟩

/-- C13 (failing comparison): with an 8-bit `size_type` and `int` values, the
container emptied by `insert(0, 5)`, `erase(0)` and the container `{0 ↦ 1}`
are reachable with all storage granted, the first is empty and the second is
not, yet the non-empty one compares less than the empty one and the empty one
greater; while the emptied container is equal to the container that never held
an element, which the non-empty one is greater than. -/
theorem C13_nonempty_less_than_emptied :
    Reachable 8 emptied ∧ Reachable 8 order_a ∧
      sparse_vector.empty emptied = true ∧ sparse_vector.empty order_a = false ∧
      three_way 8 order_a emptied = some .lt ∧ three_way 8 emptied order_a = some .gt ∧
      operator_eq 8 emptied empty_vector = some true ∧
      three_way 8 emptied empty_vector = some .eq ∧
      three_way 8 order_a empty_vector = some .gt :=
  ⟨emptied_reachable, order_a_reachable, by decide, by decide, by decide, by decide,
    by decide, by decide, by decide⟩

theorem scan_compare_nones_left [Ord α] {ve : List (Option α)} (hve : ∀ x ∈ ve, x = none)
    (vc : List (Option α)) :
    ((∀ i, i < ve.length → (vc[i]?).join = none) → scan_compare ve vc = none) ∧
    ((∃ i, i < ve.length ∧ (vc[i]?).join ≠ none) → scan_compare ve vc = some .gt) := by
  induction ve generalizing vc with
  | nil => simp [scan_compare]
  | cons x xs ih =>
    have hx : x = none := hve x (List.mem_cons_self _ _)
    subst hx
    have hxs : ∀ y ∈ xs, y = none := fun y hy => hve y (List.mem_cons_of_mem _ hy)
    cases vc with
    | nil => simp [scan_compare]
    | cons y ys =>
      cases y with
      | none =>
        simp only [scan_compare, slot_compare, if_true]
        constructor
        · intro h
          apply (ih hxs ys).1
          intro i hi
          simpa using h (i + 1) (by simpa using hi)
        · rintro ⟨i, hi, hne⟩
          apply (ih hxs ys).2
          cases i with
          | zero => simp at hne
          | succ i => exact ⟨i, by simpa using hi, by simpa using hne⟩
      | some y =>
        simp only [scan_compare, slot_compare]
        constructor
        · intro h
          have := h 0 (by simp)
          simp at this
        · intro _
          simp

theorem scan_compare_nones_right [Ord α] {ve : List (Option α)} (hve : ∀ x ∈ ve, x = none)
    (vc : List (Option α)) :
    ((∀ i, i < ve.length → (vc[i]?).join = none) → scan_compare vc ve = none) ∧
    ((∃ i, i < ve.length ∧ (vc[i]?).join ≠ none) → scan_compare vc ve = some .lt) := by
  induction ve generalizing vc with
  | nil => cases vc <;> simp [scan_compare]
  | cons x xs ih =>
    have hx : x = none := hve x (List.mem_cons_self _ _)
    subst hx
    have hxs : ∀ y ∈ xs, y = none := fun y hy => hve y (List.mem_cons_of_mem _ hy)
    cases vc with
    | nil => simp [scan_compare]
    | cons y ys =>
      cases y with
      | none =>
        simp only [scan_compare, slot_compare, if_true]
        constructor
        · intro h
          apply (ih hxs ys).1
          intro i hi
          simpa using h (i + 1) (by simpa using hi)
        · rintro ⟨i, hi, hne⟩
          apply (ih hxs ys).2
          cases i with
          | zero => simp at hne
          | succ i => exact ⟨i, by simpa using hi, by simpa using hne⟩
      | some y =>
        simp only [scan_compare, slot_compare]
        constructor
        · intro h
          have := h 0 (by simp)
          simp at this
        · intro _
          simp

theorem view_of_empty {e : sparse_vector α} (hwe : WF w e) (hee : sparse_vector.empty e = true) :
    ∀ x ∈ view w e, x = none := by
  have hlen : e.data_.length = 0 := by
    simpa [sparse_vector.empty, List.isEmpty_iff_length_eq_zero] using hee
  intro x hx
  obtain ⟨i, hi⟩ := List.mem_iff_getElem?.1 hx
  have hj := join_view (w := w) e i
  rw [hi] at hj
  have hl : lookup w e i = none := by
    cases h : lookup w e i with
    | none => rfl
    | some v =>
      have hp := (present_iff_lookup hwe i).2 (by rw [h]; rfl)
      obtain ⟨p, _, _, _, hlt, _, _⟩ := lookup_present hwe hp
      omega
  rw [hl] at hj
  simpa using hj

/-- What does hold of an empty container `e` against a non-empty container
`c`, both well formed: `c == e` and `e == c` are false; `c <=> e` is greater
and `e <=> c` is less exactly when no index inside the position table of `e`
is present in `c` (so always when `e` never held an element); when such an
index exists, `c <=> e` is less and `e <=> c` is greater. -/
theorem empty_against_nonempty_of_wf [Ord α] [BEq α] {e c : sparse_vector α}
    (hwe : WF w e) (hwc : WF w c) (hee : sparse_vector.empty e = true)
    (hce : sparse_vector.empty c = false) :
    operator_eq w c e = some false ∧ operator_eq w e c = some false ∧
    ((∀ i, i < e.pos_.length → ¬ present w c i) →
      three_way w c e = some .gt ∧ three_way w e c = some .lt) ∧
    ((∃ i, i < e.pos_.length ∧ present w c i) →
      three_way w c e = some .lt ∧ three_way w e c = some .gt) := by
  have hle : e.data_.length = 0 := by
    simpa [sparse_vector.empty, List.isEmpty_iff_length_eq_zero] using hee
  have hlc : 0 < c.data_.length := by
    have : c.data_.length ≠ 0 := by
      simpa [sparse_vector.empty, List.isEmpty_iff_length_eq_zero] using hce
    omega
  have hve := view_of_empty hwe hee
  have hpres : ∀ i, present w c i ↔ ((view w c)[i]?).join ≠ none := by
    intro i
    rw [join_view, present_iff_lookup hwc, ne_eq, ← Option.not_isSome_iff_eq_none, not_not]
  have hlt : compare e.data_.length c.data_.length = .lt := Nat.compare_eq_lt.2 (by omega)
  have hgt : compare c.data_.length e.data_.length = .gt := Nat.compare_eq_gt.2 (by omega)
  refine ⟨?_, ?_, ?_, ?_⟩
  · unfold operator_eq
    rw [if_pos (by omega)]
  · unfold operator_eq
    rw [if_pos (by omega)]
  · intro h
    have h1 : ∀ i, i < (view w e).length → ((view w c)[i]?).join = none := by
      intro i hi
      rw [length_view] at hi
      by_contra hn
      exact h i hi ((hpres i).2 hn)
    rw [three_way_eq_view_compare hwc hwe, three_way_eq_view_compare hwe hwc]
    simp only [view_compare, (scan_compare_nones_left hve _).1 h1,
      (scan_compare_nones_right hve _).1 h1, live_count_view hwe, live_count_view hwc, hlt, hgt]
    exact ⟨trivial, trivial⟩
  · rintro ⟨i, hi, hp⟩
    have h1 : ∃ i, i < (view w e).length ∧ ((view w c)[i]?).join ≠ none :=
      ⟨i, by rw [length_view]; exact hi, (hpres i).1 hp⟩
    rw [three_way_eq_view_compare hwc hwe, three_way_eq_view_compare hwe hwc]
    simp only [view_compare, (scan_compare_nones_left hve _).2 h1,
      (scan_compare_nones_right hve _).2 h1]
    exact ⟨trivial, trivial⟩

open bookkeeping_memory_resource

/-! ## The allocation ledger -/

theorem find_first_eq_none {β : Type} {p : β → Bool} {l : List β} :
    find_first p l = none ↔ ∀ y ∈ l, p y = false := by
  induction l with
  | nil => simp [find_first]
  | cons x xs ih =>
    unfold find_first
    by_cases hx : p x = true
    · simp [hx]
    · simp only [hx, Bool.false_eq_true, if_false, Option.map_eq_none', ih, List.mem_cons,
        forall_eq_or_imp]
      simp [hx]

/-- The element `std::ranges::find` returns: the list splits at it, and no
earlier element satisfies the predicate. -/
theorem find_first_eq_some {β : Type} {p : β → Bool} {l : List β} {k : Nat} {x : β}
    (h : find_first p l = some (k, x)) :
    ∃ l1 l2, l = l1 ++ x :: l2 ∧ l1.length = k ∧ p x = true ∧ (∀ y ∈ l1, p y = false) ∧
      l.eraseIdx k = l1 ++ l2 := by
  induction l generalizing k with
  | nil => simp [find_first] at h
  | cons a as ih =>
    unfold find_first at h
    by_cases ha : p a = true
    · rw [if_pos ha] at h
      cases h
      exact ⟨[], as, rfl, rfl, ha, by simp, rfl⟩
    · rw [if_neg ha] at h
      cases hf : find_first p as with
      | none => simp [hf] at h
      | some r =>
        obtain ⟨j, y⟩ := r
        simp only [hf, Option.map_some', Option.some.injEq, Prod.mk.injEq] at h
        obtain ⟨hj, hy⟩ := h
        subst hj hy
        obtain ⟨l1, l2, hl, hlen, hp, hno, her⟩ := ih hf
        refine ⟨a :: l1, l2, by rw [hl]; rfl, by simp [hlen], hp, ?_, ?_⟩
        · intro z hz
          rcases List.mem_cons.1 hz with rfl | hz
          · simpa using ha
          · exact hno z hz
        · simp [List.eraseIdx_cons_succ, her]

theorem find_first_of_mem {β : Type} {p : β → Bool} {l : List β} {x : β} (hx : x ∈ l)
    (hp : p x = true) : ∃ k y, find_first p l = some (k, y) := by
  cases h : find_first p l with
  | none =>
    have := find_first_eq_none.1 h x hx
    rw [hp] at this
    cases this
  | some r => exact ⟨r.1, r.2, rfl⟩

/-- What `do_deallocate` does when a live record matches all three fields. -/
theorem do_deallocate_match (w : Nat) (m : bookkeeping_memory_resource)
    (address byteCount alignment : Nat)
    (h : (⟨byteCount, alignment, address⟩ : Allocation) ∈ m.liveAllocations_) :
    ∃ l1 l2, m.liveAllocations_ = l1 ++ ⟨byteCount, alignment, address⟩ :: l2 ∧
      (⟨byteCount, alignment, address⟩ : Allocation) ∉ l1 ∧
      m.do_deallocate w address byteCount alignment =
        .ok { liveAllocations_ := l1 ++ l2
              deadAllocations_ := m.deadAllocations_ ++ [⟨byteCount, alignment, address⟩]
              numAllocatedBytes_ :=
                (m.numAllocatedBytes_ + (2 ^ w - byteCount % 2 ^ w)) % 2 ^ w
              upstream_log :=
                m.upstream_log ++ [UpstreamCall.deallocate address byteCount alignment] } () := by
  obtain ⟨k, y, hf⟩ := @find_first_of_mem Allocation
    (fun r => decide (r = (⟨byteCount, alignment, address⟩ : Allocation))) _ _ h (by simp)
  obtain ⟨l1, l2, hl, _, hp, hno, her⟩ := find_first_eq_some hf
  have hy : y = ⟨byteCount, alignment, address⟩ := by simpa using hp
  subst hy
  refine ⟨l1, l2, hl, ?_, ?_⟩
  · intro hmem
    have := hno _ hmem
    simp at this
  · simp only [do_deallocate, hf, her]

/-- What `do_deallocate` does when no live record matches all three fields. -/
theorem do_deallocate_no_match (w : Nat) (m : bookkeeping_memory_resource)
    (address byteCount alignment : Nat)
    (h : (⟨byteCount, alignment, address⟩ : Allocation) ∉ m.liveAllocations_) :
    m.do_deallocate w address byteCount alignment =
      match find_first (fun r => decide (r.address = address)) m.liveAllocations_ with
      | some it =>
        .throw m (.MismatchedDeallocation byteCount alignment address it.2.byteCount
          it.2.alignment)
      | none =>
        match find_first (fun r => decide (r.address = address)) m.deadAllocations_ with
        | some _ => .throw m (.DoubleFree address)
        | none => .throw m .ForeignPointer := by
  have hf : find_first (fun r => decide (r = (⟨byteCount, alignment, address⟩ : Allocation)))
      m.liveAllocations_ = none := by
    rw [find_first_eq_none]
    intro y hy
    simp only [decide_eq_false_iff_not]
    rintro rfl
    exact h hy
  cases h1 : find_first (fun r => decide (r.address = address)) m.liveAllocations_ with
  | some it => simp only [do_deallocate, hf, h1]
  | none =>
    cases h2 : find_first (fun r => decide (r.address = address)) m.deadAllocations_ with
    | some it => simp only [do_deallocate, hf, h1, h2]
    | none => simp only [do_deallocate, hf, h1, h2]

theorem do_deallocate_ok_mem {w : Nat} {m m1 : bookkeeping_memory_resource}
    {address byteCount alignment : Nat}
    (h : m.do_deallocate w address byteCount alignment = .ok m1 ()) :
    (⟨byteCount, alignment, address⟩ : Allocation) ∈ m.liveAllocations_ := by
  by_contra hn
  rw [do_deallocate_no_match w m address byteCount alignment hn] at h
  split at h
  · cases h
  · split at h <;> cases h

theorem do_deallocate_no_match_throw (w : Nat) (m : bookkeeping_memory_resource)
    (address byteCount alignment : Nat)
    (h : (⟨byteCount, alignment, address⟩ : Allocation) ∉ m.liveAllocations_) :
    ∃ e, m.do_deallocate w address byteCount alignment = .throw m e := by
  rw [do_deallocate_no_match w m address byteCount alignment h]
  split
  · exact ⟨_, rfl⟩
  · split <;> exact ⟨_, rfl⟩

theorem do_deallocate_double_free (w : Nat) (m : bookkeeping_memory_resource)
    (address byteCount alignment : Nat)
    (h : (⟨byteCount, alignment, address⟩ : Allocation) ∉ m.liveAllocations_)
    (hlive : ∀ r ∈ m.liveAllocations_, r.address ≠ address)
    (hdead : ∃ r ∈ m.deadAllocations_, r.address = address) :
    m.do_deallocate w address byteCount alignment = .throw m (.DoubleFree address) := by
  obtain ⟨r, hr, hra⟩ := hdead
  have h1 : find_first (fun r => decide (r.address = address)) m.liveAllocations_ = none := by
    rw [find_first_eq_none]
    intro y hy
    simpa using hlive y hy
  obtain ⟨k, y, hf⟩ := @find_first_of_mem Allocation
    (fun r => decide (r.address = address)) _ _ hr (by simpa using hra)
  rw [do_deallocate_no_match w m address byteCount alignment h, h1, hf]

/-- C18: when no live record matches all three fields,
`deallocate(address, size, alignment)` fails, with `MismatchedDeallocation`
(reporting the requested size and alignment and those of the first live record
with this address) if a live record has this address, otherwise with
`DoubleFree` if a dead record has this address, otherwise with
`ForeignPointer`; the live records, the dead records and the live byte total
are unchanged and nothing is forwarded upstream. -/
theorem C18_deallocate_failure (w : Nat) (m : bookkeeping_memory_resource)
    (address byteCount alignment : Nat)
    (h : (⟨byteCount, alignment, address⟩ : Allocation) ∉ m.liveAllocations_) :
    (∃ e, m.do_deallocate w address byteCount alignment = .throw m e) ∧
    ((∃ r ∈ m.liveAllocations_, r.address = address) →
      ∃ l1 r l2, m.liveAllocations_ = l1 ++ r :: l2 ∧ (∀ y ∈ l1, y.address ≠ address) ∧
        r.address = address ∧
        m.do_deallocate w address byteCount alignment =
          .throw m (.MismatchedDeallocation byteCount alignment address r.byteCount
            r.alignment)) ∧
    ((∀ r ∈ m.liveAllocations_, r.address ≠ address) →
      (∃ r ∈ m.deadAllocations_, r.address = address) →
      m.do_deallocate w address byteCount alignment = .throw m (.DoubleFree address)) ∧
    ((∀ r ∈ m.liveAllocations_, r.address ≠ address) →
      (∀ r ∈ m.deadAllocations_, r.address ≠ address) →
      m.do_deallocate w address byteCount alignment = .throw m .ForeignPointer) := by
  have hd := do_deallocate_no_match w m address byteCount alignment h
  refine ⟨?_, ?_, ?_, ?_⟩
  · exact do_deallocate_no_match_throw w m address byteCount alignment h
  · rintro ⟨r, hr, hra⟩
    obtain ⟨k, y, hf⟩ := @find_first_of_mem Allocation
      (fun r => decide (r.address = address)) _ _ hr (by simpa using hra)
    obtain ⟨l1, l2, hl, _, hp, hno, _⟩ := find_first_eq_some hf
    refine ⟨l1, y, l2, hl, ?_, by simpa using hp, ?_⟩
    · intro z hz
      simpa using hno z hz
    · rw [hd, hf]
  · intro hlive ⟨r, hr, hra⟩
    have h1 : find_first (fun r => decide (r.address = address)) m.liveAllocations_ = none := by
      rw [find_first_eq_none]
      intro y hy
      simpa using hlive y hy
    obtain ⟨k, y, hf⟩ := @find_first_of_mem Allocation
      (fun r => decide (r.address = address)) _ _ hr (by simpa using hra)
    rw [hd, h1, hf]
  · intro hlive hdead
    have h1 : find_first (fun r => decide (r.address = address)) m.liveAllocations_ = none := by
      rw [find_first_eq_none]
      intro y hy
      simpa using hlive y hy
    have h2 : find_first (fun r => decide (r.address = address)) m.deadAllocations_ = none := by
      rw [find_first_eq_none]
      intro y hy
      simpa using hdead y hy
    rw [hd, h1, h2]

theorem C18_deallocate_failure_witness :
    (⟨1, 2, 4096⟩ : Allocation) ∉ sample_ledger.liveAllocations_ ∧
    ((∃ e, sample_ledger.do_deallocate 64 4096 1 2 = .throw sample_ledger e) ∧
    ((∃ r ∈ sample_ledger.liveAllocations_, r.address = 4096) →
      ∃ l1 r l2, sample_ledger.liveAllocations_ = l1 ++ r :: l2 ∧
        (∀ y ∈ l1, y.address ≠ 4096) ∧ r.address = 4096 ∧
        sample_ledger.do_deallocate 64 4096 1 2 =
          .throw sample_ledger (.MismatchedDeallocation 1 2 4096 r.byteCount r.alignment)) ∧
    ((∀ r ∈ sample_ledger.liveAllocations_, r.address ≠ 4096) →
      (∃ r ∈ sample_ledger.deadAllocations_, r.address = 4096) →
      sample_ledger.do_deallocate 64 4096 1 2 = .throw sample_ledger (.DoubleFree 4096)) ∧
    ((∀ r ∈ sample_ledger.liveAllocations_, r.address ≠ 4096) →
      (∀ r ∈ sample_ledger.deadAllocations_, r.address ≠ 4096) →
      sample_ledger.do_deallocate 64 4096 1 2 = .throw sample_ledger .ForeignPointer)) :=
  ⟨by decide, C18_deallocate_failure 64 sample_ledger 4096 1 2 (by decide)⟩

/-- C19: after a successful `deallocate(address, size, alignment)`, when no
other live record had that address, the same call repeated at once fails with
`DoubleFree` and changes no count. -/
theorem C19_double_free (w : Nat) (m m1 : bookkeeping_memory_resource)
    (address byteCount alignment : Nat)
    (h1 : m.do_deallocate w address byteCount alignment = .ok m1 ())
    (hother : m.liveAllocations_.countP (fun r => decide (r.address = address)) ≤ 1) :
    ∃ m2, m1.do_deallocate w address byteCount alignment = .throw m2 (.DoubleFree address) ∧
      m2.get_num_live_allocations = m1.get_num_live_allocations ∧
      m2.get_num_live_allocated_bytes = m1.get_num_live_allocated_bytes ∧
      m2.get_num_deallocations = m1.get_num_deallocations := by
  obtain ⟨l1, l2, hl, _, hd⟩ :=
    do_deallocate_match w m address byteCount alignment (do_deallocate_ok_mem h1)
  rw [h1] at hd
  cases hd
  rw [hl] at hother
  simp only [List.countP_append, List.countP_cons, decide_True, if_true] at hother
  have hnone : ∀ r ∈ l1 ++ l2, r.address ≠ address := by
    intro r hr
    rcases List.mem_append.1 hr with hr | hr
    · have h0 : l1.countP (fun r => decide (r.address = address)) = 0 := by omega
      have := (List.countP_eq_zero.1 h0) r hr
      simpa using this
    · have h0 : l2.countP (fun r => decide (r.address = address)) = 0 := by omega
      have := (List.countP_eq_zero.1 h0) r hr
      simpa using this
  refine ⟨_, ?_, rfl, rfl, rfl⟩
  have hnot : (⟨byteCount, alignment, address⟩ : Allocation) ∉ l1 ++ l2 :=
    fun hmem => hnone _ hmem rfl
  exact do_deallocate_double_free w _ address byteCount alignment hnot hnone
    ⟨⟨byteCount, alignment, address⟩, by simp, rfl⟩

theorem C19_double_free_witness :
    sample_ledger.do_deallocate 64 8192 10 2 = .ok sample_ledger_freed () ∧
    sample_ledger.liveAllocations_.countP (fun r => decide (r.address = 8192)) ≤ 1 ∧
    ∃ m2, sample_ledger_freed.do_deallocate 64 8192 10 2 = .throw m2 (.DoubleFree 8192) ∧
      m2.get_num_live_allocations = sample_ledger_freed.get_num_live_allocations ∧
      m2.get_num_live_allocated_bytes = sample_ledger_freed.get_num_live_allocated_bytes ∧
      m2.get_num_deallocations = sample_ledger_freed.get_num_deallocations :=
  ⟨by decide, by decide,
    C19_double_free 64 sample_ledger sample_ledger_freed 8192 10 2 (by decide) (by decide)⟩

/-- C20 (counterexample): with a 64-bit `size_t`, the upstream answers
`allocate(10, 2)` with `4096`, the block is freed, and the upstream answers the
next `allocate(10, 2)` with the freed address `4096`, which is not live at that
time.  Afterwards `4096` is the address of a live record and of a dead
record. -/
theorem C20_reused_address_live_and_dead :
    UpstreamAvoids (fun m => addresses m.liveAllocations_) 64 fresh reuse_calls ∧
      4096 ∈ addresses (run_ledger 64 fresh reuse_calls).liveAllocations_ ∧
      4096 ∈ addresses (run_ledger 64 fresh reuse_calls).deadAllocations_ := by
  refine ⟨⟨?_, ?_, ?_, trivial⟩, by decide, by decide⟩
  · intro b al a h
    cases h
    decide
  · intro b al a h
    cases h
  · intro b al a h
    cases h
    decide

theorem LedgerInv.apply_call {d : Bool} {w : Nat} {m : bookkeeping_memory_resource}
    (hinv : LedgerInv d m) (c : LedgerCall)
    (hlive : ∀ byteCount alignment address, c = .allocate byteCount alignment (some address) →
      address ∉ addresses m.liveAllocations_)
    (hdead : d = true → ∀ byteCount alignment address,
      c = .allocate byteCount alignment (some address) →
      address ∉ addresses m.deadAllocations_) :
    LedgerInv d (c.apply w m) := by
  cases c with
  | allocate byteCount alignment upstream =>
    cases upstream with
    | none => exact ⟨hinv.nodup, hinv.live_not_dead⟩
    | some address =>
      have h1 := hlive byteCount alignment address rfl
      refine ⟨?_, ?_⟩
      · simp only [LedgerCall.apply, do_allocate, addresses, List.map_append, List.map_cons,
          List.map_nil]
        rw [List.nodup_append]
        refine ⟨hinv.nodup, by simp, ?_⟩
        intro a ha hb
        rw [List.mem_singleton] at hb
        subst hb
        exact h1 ha
      · intro hd a ha
        simp only [LedgerCall.apply, do_allocate, addresses, List.map_append, List.map_cons,
          List.map_nil, List.mem_append, List.mem_singleton] at ha ⊢
        rcases ha with ha | ha
        · exact hinv.live_not_dead hd a ha
        · subst ha
          exact hdead hd byteCount alignment a rfl
  | deallocate address byteCount alignment =>
    by_cases hmem : (⟨byteCount, alignment, address⟩ : Allocation) ∈ m.liveAllocations_
    · obtain ⟨l1, l2, hl, _, hdo⟩ := do_deallocate_match w m address byteCount alignment hmem
      have hnd := hinv.nodup
      rw [hl] at hnd
      simp only [addresses, List.map_append, List.map_cons] at hnd
      have hnd2 : (List.map Allocation.address l1 ++ List.map Allocation.address l2).Nodup :=
        hnd.sublist (List.Sublist.append_left (List.sublist_cons_self _ _) _)
      have hnotin : address ∉ List.map Allocation.address l1 ++ List.map Allocation.address l2 := by
        intro hin
        rw [List.nodup_append] at hnd
        rcases List.mem_append.1 hin with hin | hin
        · exact hnd.2.2 hin (List.mem_cons_self _ _)
        · exact (List.nodup_cons.1 hnd.2.1).1 hin
      refine ⟨?_, ?_⟩
      · simp only [LedgerCall.apply, hdo, addresses, List.map_append]
        exact hnd2
      · intro hd a ha
        simp only [LedgerCall.apply, hdo, addresses, List.map_append, List.map_cons,
          List.map_nil, List.mem_append, List.mem_singleton] at ha ⊢
        have hold := hinv.live_not_dead hd a (by
          rw [hl]
          simp only [addresses, List.map_append, List.map_cons, List.mem_append, List.mem_cons]
          tauto)
        rintro (h | h)
        · exact hold h
        · subst h
          exact hnotin (List.mem_append.2 ha)
    · obtain ⟨e, hdo⟩ := do_deallocate_no_match_throw w m address byteCount alignment hmem
      have : (LedgerCall.deallocate address byteCount alignment).apply w m = m := by
        simp only [LedgerCall.apply, hdo]
      rw [this]
      exact hinv

theorem LedgerInv.run {d : Bool} {w : Nat} {m : bookkeeping_memory_resource}
    (hinv : LedgerInv d m) (calls : List LedgerCall)
    (hlive : UpstreamAvoids (fun m => addresses m.liveAllocations_) w m calls)
    (hdead : d = true → UpstreamAvoids (fun m => addresses m.deadAllocations_) w m calls) :
    LedgerInv d (run_ledger w m calls) := by
  induction calls generalizing m with
  | nil => exact hinv
  | cons c cs ih =>
    exact ih (hinv.apply_call c hlive.1 (fun hd => (hdead hd).1)) hlive.2
      (fun hd => (hdead hd).2)

/-- C20 (amended): in every ledger state reachable from a fresh ledger by
allocate and deallocate calls, if the upstream never returns an address that
is currently live, the live records have pairwise distinct addresses; if
moreover it never returns an address recorded as freed, no address appears in
both the live and the dead records. -/
theorem C20_live_dead_disjoint (w : Nat) (calls : List LedgerCall)
    (hlive : UpstreamAvoids (fun m => addresses m.liveAllocations_) w fresh calls) :
    (addresses (run_ledger w fresh calls).liveAllocations_).Nodup ∧
    (UpstreamAvoids (fun m => addresses m.deadAllocations_) w fresh calls →
      ∀ a, ¬ (a ∈ addresses (run_ledger w fresh calls).liveAllocations_ ∧
        a ∈ addresses (run_ledger w fresh calls).deadAllocations_)) := by
  refine ⟨?_, ?_⟩
  · have h0 : LedgerInv false fresh := ⟨by simp [fresh, addresses], by simp⟩
    exact (h0.run calls hlive (by simp)).nodup
  · intro hdead a ⟨h1, h2⟩
    have h0 : LedgerInv true fresh := ⟨by simp [fresh, addresses], by simp [fresh, addresses]⟩
    exact (h0.run calls hlive (fun _ => hdead)).live_not_dead rfl a h1 h2

theorem distinct_calls_avoid_live :
    UpstreamAvoids (fun m => addresses m.liveAllocations_) 64 fresh distinct_calls := by
  refine ⟨?_, ?_, ?_, trivial⟩
  · intro b al a h
    cases h
    decide
  · intro b al a h
    cases h
    decide
  · intro b al a h
    cases h

theorem C20_live_dead_disjoint_witness :
    UpstreamAvoids (fun m => addresses m.liveAllocations_) 64 fresh distinct_calls ∧
    (addresses (run_ledger 64 fresh distinct_calls).liveAllocations_).Nodup ∧
    (UpstreamAvoids (fun m => addresses m.deadAllocations_) 64 fresh distinct_calls →
      ∀ a, ¬ (a ∈ addresses (run_ledger 64 fresh distinct_calls).liveAllocations_ ∧
        a ∈ addresses (run_ledger 64 fresh distinct_calls).deadAllocations_)) :=
  ⟨distinct_calls_avoid_live, C20_live_dead_disjoint 64 distinct_calls distinct_calls_avoid_live⟩

/-! ## Invariants of the reachable ledger states -/

/-- C22 (counterexample): the destructor of a ledger with two live records
terminates the process and writes the one line `"Leaking memory resource!"` to
`std::cerr`; no line of the live-allocation dump is written, neither its header
nor the line of either record. -/
theorem C22_teardown_prints_no_dump :
    sample_ledger.liveAllocations_ = [⟨10, 2, 4096⟩, ⟨10, 2, 8192⟩] ∧
      (destructor sample_ledger).terminates = true ∧
      (destructor sample_ledger).cerr = [OutputLine.leaking_memory_resource] ∧
      OutputLine.live_allocation 4096 10 2 ∉ (destructor sample_ledger).cerr ∧
      OutputLine.live_allocation 8192 10 2 ∉ (destructor sample_ledger).cerr ∧
      ¬ (∀ line ∈ print_live_allocations sample_ledger,
        line ∈ (destructor sample_ledger).cerr) := by
  refine ⟨rfl, by decide, by decide, by decide, by decide, by decide⟩

/-- C22 (amended): teardown of a ledger terminates the process exactly when at
least one live record remains, and in that case it writes the single line
`"Leaking memory resource!"` to the error stream, not the live-allocation dump;
teardown with no live record completes normally and writes nothing.  The dump,
a header and one line per live record with its address, size and alignment, is
written only by `print_live_allocations`. -/
theorem C22_teardown (m : bookkeeping_memory_resource) :
    ((destructor m).terminates = true ↔ m.liveAllocations_ ≠ []) ∧
    (m.liveAllocations_ ≠ [] →
      (destructor m).cerr = [OutputLine.leaking_memory_resource]) ∧
    (m.liveAllocations_ = [] →
      (destructor m).terminates = false ∧ (destructor m).cerr = []) ∧
    (∀ r ∈ m.liveAllocations_, OutputLine.live_allocation r.address r.byteCount r.alignment ∈
      print_live_allocations m) ∧
    (print_live_allocations m).length = m.liveAllocations_.length + 1 := by
  cases hl : m.liveAllocations_ with
  | nil => simp [destructor, has_no_leak, hl, print_live_allocations]
  | cons r rs =>
    simp only [destructor, has_no_leak, hl, print_live_allocations]
    refine ⟨by simp, by simp, by simp, ?_, by simp⟩
    intro x hx
    apply List.mem_cons_of_mem
    exact List.mem_map_of_mem _ hx

/-! ## The unchecked configuration -/

theorem prepare_insert_unchecked (mem : Memory) {i : Nat} (hi : i < 2 ^ w)
    (hne : i ≠ InvalidPos w) (ha : absent w s i) :
    prepare_insert w false mem s i = prepare_insert w true mem s i := by
  have hsucc := InvalidPos_succ w
  have hlt : i < InvalidPos w := by omega
  rcases resized_cases mem s.pos_ hlt with hok | ⟨_, e, _, herr⟩
  · rw [prepare_insert_absent_ok false mem hne ha hok,
      prepare_insert_absent_ok true mem hne ha hok]
  · rw [prepare_insert_resize_error false mem hne herr,
      prepare_insert_resize_error true mem hne herr]

theorem check_access_unchecked {i : Nat} (hp : present w s i) :
    check_access w false s i = check_access w true s i := by
  rw [check_access_present hp]
  simp [check_access]

/-- C23: on a call that satisfies its precondition the unchecked configuration
(`Checked = false`) does what the checked one does from the same state and
with the same answers of the memory: `insert` and `emplace` at an absent index
other than the sentinel, and `erase` and both `operator[]` at a present index,
have the same outcome, that is the same returned value, the same position
table and the same dense array; on a well-formed container that outcome is a
normal return, for `insert` and `emplace` when their storage requests are
met. -/
theorem C23_unchecked_agrees {β : Type} (hwf : WF w s) (i : Nat) (hi : i < 2 ^ w)
    (v : α) (ctor : β → α) (args : β) (mem : Memory) :
    (i ≠ InvalidPos w → absent w s i →
      sparse_vector.insert w false mem s i v = sparse_vector.insert w true mem s i v ∧
      emplace w false mem ctor s i args = emplace w true mem ctor s i args ∧
      (mem.grants s i →
        sparse_vector.insert w false mem s i v = .ok (inserted w s i v) s.data_.length ∧
        emplace w false mem ctor s i args =
          .ok (inserted w s i (ctor args)) s.data_.length)) ∧
    (present w s i →
      erase w false s i = erase w true s i ∧
      operator_index w false s i = operator_index w true s i ∧
      operator_index_const w false s i = operator_index_const w true s i ∧
      (∃ s1, erase w false s i = .ok s1 ()) ∧
      (∃ ref, operator_index w false s i = .ok s ref) ∧
      (∃ val, operator_index_const w false s i = .ok s val)) := by
  constructor
  · intro hne ha
    have h1 : sparse_vector.insert w false mem s i v =
        sparse_vector.insert w true mem s i v := by
      unfold sparse_vector.insert
      rw [prepare_insert_unchecked mem hi hne ha]
    have h2 : emplace w false mem ctor s i args = emplace w true mem ctor s i args := by
      unfold emplace
      rw [prepare_insert_unchecked mem hi hne ha]
    refine ⟨h1, h2, fun hg => ⟨?_, ?_⟩⟩
    · rw [h1, insert_absent hwf hi hne ha hg]
    · rw [h2, emplace_absent hwf hi hne ha hg]
  · intro hp
    have h1 : erase w false s i = erase w true s i := by
      unfold erase
      rw [check_access_unchecked hp]
    have h2 : operator_index w false s i = operator_index w true s i := by
      unfold operator_index
      rw [check_access_unchecked hp]
    have h3 : operator_index_const w false s i = operator_index_const w true s i := by
      unfold operator_index_const
      rw [check_access_unchecked hp]
    refine ⟨h1, h2, h3, ?_, ?_, ?_⟩
    · obtain ⟨s1, he, _⟩ := erase_present hwf hp
      exact ⟨s1, by rw [h1, he]⟩
    · obtain ⟨p, _, _, hop⟩ := operator_index_present hwf hp
      exact ⟨p, by rw [h2, hop]⟩
    · obtain ⟨x, _, hop⟩ := operator_index_const_present hwf hp
      exact ⟨x, by rw [h3, hop]⟩

theorem sample_absent : absent 8 sample 0 := by
  intro p hp
  have : p = 255 := by
    have h : sample.pos_[0]? = some 255 := by decide
    rw [h] at hp
    exact (Option.some.inj hp).symm
  rw [this]; decide

theorem C23_unchecked_agrees_witness :
    (sparse_vector.insert 8 false (Memory.granting 16) sample 0 (7 : Int) =
        sparse_vector.insert 8 true (Memory.granting 16) sample 0 7 ∧
      emplace 8 false (Memory.granting 16) (fun n : Nat => (n : Int)) sample 0 7 =
        emplace 8 true (Memory.granting 16) (fun n : Nat => (n : Int)) sample 0 7 ∧
      sparse_vector.insert 8 false (Memory.granting 16) sample 0 (7 : Int) =
        .ok (inserted 8 sample 0 7) 2 ∧
      emplace 8 false (Memory.granting 16) (fun n : Nat => (n : Int)) sample 0 7 =
        .ok (inserted 8 sample 0 7) 2) ∧
    (sparse_vector.insert 8 false (Memory.refusing_data 16) sample 0 (7 : Int) =
        sparse_vector.insert 8 true (Memory.refusing_data 16) sample 0 7) ∧
    (erase 8 false sample 2 = erase 8 true sample 2 ∧
      operator_index 8 false sample 2 = operator_index 8 true sample 2 ∧
      operator_index_const 8 false sample 2 = operator_index_const 8 true sample 2 ∧
      (∃ s1, erase 8 false sample 2 = .ok s1 ()) ∧
      (∃ ref, operator_index 8 false sample 2 = .ok sample ref) ∧
      (∃ val, operator_index_const 8 false sample 2 = .ok sample val)) :=
  have h := (C23_unchecked_agrees sample_wf 0 (by decide) (7 : Int)
    (fun n : Nat => (n : Int)) 7 (Memory.granting 16)).1 (by decide) sample_absent
  ⟨⟨h.1, h.2.1, (h.2.2 (by decide)).1, (h.2.2 (by decide)).2⟩,
    ((C23_unchecked_agrees sample_wf 0 (by decide) (7 : Int)
      (fun n : Nat => (n : Int)) 7 (Memory.refusing_data 16)).1 (by decide) sample_absent).1,
    (C23_unchecked_agrees sample_wf 2 (by decide) (7 : Int) (fun n : Nat => (n : Int)) 7
      (Memory.granting 16)).2 sample_present⟩

/-! ## No collision with the sentinel -/

theorem live_slots_length (w : Nat) (s : sparse_vector α) :
    (live_slots w s).length = s.pos_.countP (fun p => decide (p ≠ InvalidPos w)) := by
  unfold live_slots
  rw [List.countP_eq_length_filter]

theorem countP_grown (w : Nat) (pos : List Nat) (i : Nat) :
    (grown w pos i).countP (fun p => decide (p ≠ InvalidPos w)) =
      pos.countP (fun p => decide (p ≠ InvalidPos w)) := by
  unfold grown
  split
  · rw [List.countP_append]
    have : (List.replicate (i + 1 - pos.length) (InvalidPos w)).countP
        (fun p => decide (p ≠ InvalidPos w)) = 0 := by
      rw [List.countP_eq_zero]
      intro a ha
      simp [(List.mem_replicate.1 ha).2]
    omega
  · rfl

theorem bounded_empty_vector (w : Nat) : Bounded w (empty_vector : sparse_vector α) :=
  ⟨by simp [empty_vector], by simp [empty_vector]⟩

/-- In a bounded state with an absent index below the sentinel there is room:
the number of stored elements is below the sentinel. -/
theorem sparse_vector.Bounded.data_length_lt (hb : Bounded w s) {i : Nat} (hlt : i < InvalidPos w)
    (ha : absent w s i) : s.data_.length < InvalidPos w := by
  have hg := grown_absent ha
  have hlen := length_grown w s.pos_ i
  have hpl := hb.pos_length
  have h1 : (grown w s.pos_ i).countP (fun p => decide (p ≠ InvalidPos w)) <
      (grown w s.pos_ i).length := by
    rw [List.countP_eq_length_filter, List.length_filter_lt_length_iff_exists]
    exact ⟨InvalidPos w, List.mem_iff_getElem?.2 ⟨i, hg⟩, by simp⟩
  have h2 := hb.data_le_live
  rw [live_slots_length, ← countP_grown w s.pos_ i] at h2
  omega

/-- The state `prepare_insert` leaves at an absent index: bounded, with one
more non-absent slot than stored elements allow for. -/
theorem sparse_vector.Bounded.prepared (hb : Bounded w s) {i : Nat} (hlt : i < InvalidPos w)
    (ha : absent w s i) :
    ((grown w s.pos_ i).set i (s.data_.length % 2 ^ w)).length ≤ InvalidPos w ∧
    s.data_.length + 1 ≤ ((grown w s.pos_ i).set i (s.data_.length % 2 ^ w)).countP
      (fun p => decide (p ≠ InvalidPos w)) := by
  have hsucc := InvalidPos_succ w
  have hg := grown_absent ha
  have hlen := length_grown w s.pos_ i
  have hpl := hb.pos_length
  have hdl := hb.data_length_lt hlt ha
  have hmod : s.data_.length % 2 ^ w = s.data_.length := Nat.mod_eq_of_lt (by omega)
  have hil : i < (grown w s.pos_ i).length := (List.getElem?_eq_some.1 hg).1
  have hgi : (grown w s.pos_ i)[i] = InvalidPos w := by
    have := List.getElem?_eq_getElem hil
    rw [hg] at this
    exact (Option.some.inj this).symm
  refine ⟨by rw [List.length_set]; omega, ?_⟩
  have hset := List.countP_set (fun p => decide (p ≠ InvalidPos w)) (grown w s.pos_ i) i
    (s.data_.length % 2 ^ w) hil
  have h2 := hb.data_le_live
  rw [live_slots_length] at h2
  have hne : s.data_.length ≠ InvalidPos w := by omega
  simp only [hgi, hmod, countP_grown] at hset
  rw [if_neg (by simp), if_pos (by simp [hne])] at hset
  rw [hmod, hset]
  omega

theorem insert_bounded (hb : Bounded w s) (mem : Memory) {i : Nat} (hi : i < 2 ^ w) (v : α)
    {s1 : sparse_vector α} (h : (sparse_vector.insert w true mem s i v).state? = some s1) :
    Bounded w s1 := by
  have hsucc := InvalidPos_succ w
  by_cases hs : i = InvalidPos w
  · subst hs
    simp only [sparse_vector.insert, prepare_insert_sentinel, Outcome.state?] at h
    cases h
    exact hb
  · have hlt : i < InvalidPos w := by omega
    rcases present_or_absent w s i with hp | ha
    · simp only [sparse_vector.insert, prepare_insert_present_of_le hb.pos_length mem hp,
        Outcome.state?] at h
      cases h
      exact hb
    · rcases resized_cases mem s.pos_ hlt with hok | ⟨_, e, _, herr⟩
      · have hprep := prepare_insert_absent_ok true mem hs ha hok
        have hP := hb.prepared hlt ha
        unfold sparse_vector.insert at h
        rw [prepare_insert_absent_ok true mem hs ha hok] at h
        rcases push_back_cases mem.data_max_size mem.data_granted s.data_ v with
          hpb | ⟨e, _, hpb⟩
        · simp only [hpb, Outcome.state?] at h
          cases h
          refine ⟨hP.1, ?_⟩
          rw [live_slots_length]
          simpa using hP.2
        · simp only [hpb, Outcome.state?] at h
          cases h
          refine ⟨hP.1, ?_⟩
          rw [live_slots_length]
          have := hP.2
          simp only at this ⊢
          omega
      · simp only [sparse_vector.insert, prepare_insert_resize_error true mem hs herr,
          Outcome.state?] at h
        cases h
        exact hb

theorem emplace_eq_insert {β : Type} (Checked : Bool) (mem : Memory) (ctor : β → α)
    (s : sparse_vector α) (i : Nat) (args : β) :
    emplace w Checked mem ctor s i args = sparse_vector.insert w Checked mem s i (ctor args) :=
  rfl

theorem countP_set_live {l : List Nat} {i old : Nat} (a : Nat) (h : l[i]? = some old) :
    (l.set i a).countP (fun p => decide (p ≠ InvalidPos w)) +
        (if old ≠ InvalidPos w then 1 else 0) =
      l.countP (fun p => decide (p ≠ InvalidPos w)) + (if a ≠ InvalidPos w then 1 else 0) := by
  have hil : i < l.length := (List.getElem?_eq_some.1 h).1
  have hi : l[i] = old := by
    have := List.getElem?_eq_getElem hil
    rw [h] at this
    exact (Option.some.inj this).symm
  have hset := List.countP_set (fun p => decide (p ≠ InvalidPos w)) l i a hil
  have hpos : (if old ≠ InvalidPos w then 1 else 0) ≤
      l.countP (fun p => decide (p ≠ InvalidPos w)) := by
    split
    · apply List.countP_pos_iff.2
      exact ⟨old, List.mem_iff_getElem?.2 ⟨i, h⟩, by simpa using ‹old ≠ InvalidPos w›⟩
    · omega
  simp only [hi, decide_eq_true_eq] at hset
  rw [hset]
  omega

theorem erase_bounded (hb : Bounded w s) {i : Nat} {s1 : sparse_vector α}
    (h : (erase w true s i).state? = some s1) : Bounded w s1 := by
  have hsucc := InvalidPos_succ w
  have hpl := hb.pos_length
  have hdl := hb.data_le_live
  rw [live_slots_length] at hdl
  have hcl : s.pos_.countP (fun p => decide (p ≠ InvalidPos w)) ≤ s.pos_.length :=
    List.countP_le_length _
  rcases present_or_absent w s i with hp | ha
  · have hchk := check_access_present hp
    obtain ⟨p, hget, hpne⟩ := hp
    unfold erase at h
    simp only [hchk, hget] at h
    by_cases hlen0 : s.data_.length = 0
    · simp [hlen0, Outcome.state?] at h
    · rw [if_neg hlen0] at h
      by_cases hlast : p = s.data_.length - 1
      · rw [if_neg (by simpa using hlast)] at h
        simp only [Outcome.state?, Option.some.injEq] at h
        subst h
        have hc := countP_set_live (w := w) (InvalidPos w) hget
        rw [if_pos hpne, if_neg (by simp)] at hc
        refine ⟨by simpa using hpl, ?_⟩
        rw [live_slots_length]
        simp only [List.length_dropLast]
        omega
      · rw [if_pos (by simpa using hlast)] at h
        cases hx : s.data_[p]? with
        | none => simp [hx, Outcome.state?] at h
        | some x =>
          cases hy : s.data_[s.data_.length - 1]? with
          | none => simp [hx, hy, Outcome.state?] at h
          | some y =>
            cases hf : find s.pos_ (s.data_.length - 1) with
            | none => simp [hx, hy, hf, Outcome.state?] at h
            | some it =>
              simp only [hx, hy, hf, Outcome.state?, Option.some.injEq] at h
              subst h
              have hit := find_eq_some hf
              have hne_it : it ≠ i := by
                intro e
                rw [e, hget] at hit
                exact hlast (Option.some.inj hit)
              have hlastne : s.data_.length - 1 ≠ InvalidPos w := by omega
              have hc1 := countP_set_live (w := w) p hit
              rw [if_pos hlastne, if_pos hpne] at hc1
              have hget1 : (s.pos_.set it p)[i]? = some p := by
                rw [List.getElem?_set_ne hne_it]
                exact hget
              have hc2 := countP_set_live (w := w) (InvalidPos w) hget1
              rw [if_pos hpne, if_neg (by simp)] at hc2
              refine ⟨by simpa using hpl, ?_⟩
              rw [live_slots_length]
              simp only [List.length_dropLast, List.length_set]
              omega
  · rw [erase_absent ha] at h
    simp only [Outcome.state?, Option.some.injEq] at h
    subst h
    exact hb

theorem Call.apply_bounded (hb : Bounded w s) (c : Call α) (hc : c.index < 2 ^ w)
    {s1 : sparse_vector α} (h : (c.apply w s).state? = some s1) : Bounded w s1 := by
  cases c with
  | insert i v mem =>
    have hi : i < 2 ^ w := hc
    have hst : (sparse_vector.insert w true mem s i v).state? = some s1 := by
      simp only [Call.apply] at h
      cases hr : sparse_vector.insert w true mem s i v with
      | ok s2 r => rw [hr] at h; simpa [Outcome.state?] using h
      | throw s2 e => rw [hr] at h; simpa [Outcome.state?] using h
      | undefined => rw [hr] at h; simp [Outcome.state?] at h
    exact insert_bounded hb mem hi v hst
  | emplace i v mem =>
    have hi : i < 2 ^ w := hc
    have hst : (sparse_vector.insert w true mem s i (id v)).state? = some s1 := by
      simp only [Call.apply, emplace_eq_insert] at h
      cases hr : sparse_vector.insert w true mem s i (id v) with
      | ok s2 r => rw [hr] at h; simpa [Outcome.state?] using h
      | throw s2 e => rw [hr] at h; simpa [Outcome.state?] using h
      | undefined => rw [hr] at h; simp [Outcome.state?] at h
    exact insert_bounded hb mem hi (id v) hst
  | erase i => exact erase_bounded hb h

theorem run_bounded (hb : Bounded w s) (calls : List (Call α))
    (hc : ∀ c ∈ calls, c.index < 2 ^ w) {s1 : sparse_vector α}
    (h : run w s calls = some s1) : Bounded w s1 := by
  induction calls generalizing s with
  | nil =>
    simp only [run, Option.some.injEq] at h
    subst h
    exact hb
  | cons c cs ih =>
    simp only [run] at h
    cases hs : (c.apply w s).state? with
    | none => simp [hs] at h
    | some s2 =>
      simp only [hs] at h
      exact ih (Call.apply_bounded hb c (hc c (List.mem_cons_self _ _)) hs)
        (fun d hd => hc d (List.mem_cons_of_mem _ hd)) h

/-- Every reachable state is bounded, whatever calls failed on the way. -/
theorem Reachable.bounded (h : Reachable w s) : Bounded w s := by
  obtain ⟨calls, hc, hrun⟩ := h
  exact run_bounded (bounded_empty_vector w) calls hc hrun

/-- C28: in every container reachable by checked inserts and erases, also by
calls that failed, for every width `w` of the size type, the number of
elements is at most the sentinel, so the narrowing in `size()` loses nothing;
a checked insert that succeeds found the dense length below the sentinel, so
the offset it writes is the dense length itself, not truncated and not the
sentinel, and the `index + 1` of the growth of the position table does not
wrap. -/
theorem C28_no_sentinel_collision (hr : Reachable w s) :
    s.data_.length ≤ InvalidPos w ∧
    size w s = s.data_.length ∧
    size w s ≤ InvalidPos w ∧
    (∀ (i : Nat) (v : α) (mem : Memory) (s1 : sparse_vector α) (ref : Nat), i < 2 ^ w →
      sparse_vector.insert w true mem s i v = .ok s1 ref →
        s.data_.length % 2 ^ w = s.data_.length ∧
        s.data_.length ≠ InvalidPos w ∧
        s1.pos_[i]? = some s.data_.length ∧
        index_succ w i = i + 1 ∧
        i + 1 < 2 ^ w + 1 ∧
        size w s1 = s.data_.length + 1) := by
  have hb := hr.bounded
  have hsucc := InvalidPos_succ w
  have hdl := hb.data_le_live
  rw [live_slots_length] at hdl
  have hcl : s.pos_.countP (fun p => decide (p ≠ InvalidPos w)) ≤ s.pos_.length :=
    List.countP_le_length _
  have hpl := hb.pos_length
  have hle : s.data_.length ≤ InvalidPos w := by omega
  have hsz : size w s = s.data_.length := Nat.mod_eq_of_lt (by omega)
  refine ⟨hle, hsz, by rw [hsz]; exact hle, ?_⟩
  intro i v mem s1 ref hi hins
  have hne : i ≠ InvalidPos w := by
    rintro rfl
    simp [sparse_vector.insert, prepare_insert_sentinel] at hins
  have hlt : i < InvalidPos w := by omega
  have ha : absent w s i := by
    apply absent_of_not_present
    intro hp
    simp [sparse_vector.insert, prepare_insert_present_of_le hpl mem hp] at hins
  have hdlt := hb.data_length_lt hlt ha
  have hmod : s.data_.length % 2 ^ w = s.data_.length := Nat.mod_eq_of_lt (by omega)
  have hs1 : s1 = ⟨(grown w s.pos_ i).set i s.data_.length, s.data_ ++ [v]⟩ := by
    rcases resized_cases mem s.pos_ hlt with hok | ⟨_, e, _, herr⟩
    · unfold sparse_vector.insert at hins
      rw [prepare_insert_absent_ok true mem hne ha hok] at hins
      rcases push_back_cases mem.data_max_size mem.data_granted s.data_ v with
        hpb | ⟨e, _, hpb⟩
      · simp only [hpb, hmod] at hins
        injection hins with h1 h2
        exact h1.symm
      · simp [hpb] at hins
    · simp [sparse_vector.insert, prepare_insert_resize_error true mem hne herr] at hins
  have hg := grown_absent ha
  have hil : i < (grown w s.pos_ i).length := (List.getElem?_eq_some.1 hg).1
  refine ⟨hmod, by omega, ?_, index_succ_eq hlt, by omega, ?_⟩
  · rw [hs1]
    simp [List.getElem?_set, hil]
  · rw [hs1]
    simp only [size, List.length_append, List.length_singleton]
    exact Nat.mod_eq_of_lt (by omega)

theorem C28_no_sentinel_collision_witness :
    dangling_sample.data_.length ≤ InvalidPos 8 ∧
    size 8 dangling_sample = dangling_sample.data_.length ∧
    (dangling_sample.data_.length ≠ InvalidPos 8 ∧
      (inserted 8 dangling_sample 1 7).pos_[1]? = some dangling_sample.data_.length ∧
      index_succ 8 1 = 1 + 1 ∧
      size 8 (inserted 8 dangling_sample 1 7) = dangling_sample.data_.length + 1) :=
  ⟨(C28_no_sentinel_collision dangling_sample_reachable).1,
    (C28_no_sentinel_collision dangling_sample_reachable).2.1,
    ((C28_no_sentinel_collision dangling_sample_reachable).2.2.2 1 7 (Memory.granting 16)
      (inserted 8 dangling_sample 1 7) 0 (by decide) (by decide)).2.1,
    ((C28_no_sentinel_collision dangling_sample_reachable).2.2.2 1 7 (Memory.granting 16)
      (inserted 8 dangling_sample 1 7) 0 (by decide) (by decide)).2.2.1,
    ((C28_no_sentinel_collision dangling_sample_reachable).2.2.2 1 7 (Memory.granting 16)
      (inserted 8 dangling_sample 1 7) 0 (by decide) (by decide)).2.2.2.1,
    ((C28_no_sentinel_collision dangling_sample_reachable).2.2.2 1 7 (Memory.granting 16)
      (inserted 8 dangling_sample 1 7) 0 (by decide) (by decide)).2.2.2.2.2⟩

/-! ## Equality and the index-to-value mapping -/

theorem slot_compare_eq_iff_of [Ord α] (hc : ∀ x y : α, compare x y = .eq ↔ x = y)
    (x y : Option α) : slot_compare x y = .eq ↔ x = y := by
  cases x <;> cases y <;> simp [slot_compare, hc]

/-- For a comparison of values that returns `equal` exactly on equal values,
`operator<=>` on views returns `equal` exactly when the views associate the
same value with every index. -/
theorem view_compare_eq_iff_of [Ord α] (hc : ∀ x y : α, compare x y = .eq ↔ x = y)
    (va vb : List (Option α)) :
    view_compare va vb = .eq ↔ ∀ i : Nat, (va[i]?).join = (vb[i]?).join := by
  induction va generalizing vb with
  | nil =>
    have h : view_compare [] vb = compare 0 (live_count vb) := by
      cases vb <;> simp [view_compare, scan_compare, live_count]
    rw [h, Nat.compare_eq_eq, eq_comm, live_count_eq_zero_iff]
    simp [eq_comm]
  | cons x xs ih =>
    cases vb with
    | nil =>
      have h : view_compare (x :: xs) [] = compare (live_count (x :: xs)) 0 := by
        simp [view_compare, scan_compare, live_count]
      rw [h, Nat.compare_eq_eq, live_count_eq_zero_iff]
      simp
    | cons y ys =>
      by_cases h : slot_compare x y = .eq
      · have hxy := (slot_compare_eq_iff_of hc x y).1 h
        have hstep : view_compare (x :: xs) (y :: ys) = view_compare xs ys := by
          subst hxy
          simp only [view_compare, scan_compare, if_pos h, live_count_cons, nat_compare_add]
        rw [hstep, ih]
        constructor
        · intro h1 i
          cases i with
          | zero => simp [hxy]
          | succ i => simpa using h1 i
        · intro h1 i
          simpa using h1 (i + 1)
      · have hstep : view_compare (x :: xs) (y :: ys) = slot_compare x y := by
          simp only [view_compare, scan_compare, if_neg h]
        rw [hstep]
        constructor
        · intro h1; exact absurd h1 h
        · intro h1
          have h0 := h1 0
          simp at h0
          exact absurd ((slot_compare_eq_iff_of hc x y).2 h0) h

theorem same_mapping_iff {a b : sparse_vector α} (hwa : WF w a) (hwb : WF w b) :
    (∀ i : Nat, lookup w a i = lookup w b i) ↔
      (∀ i : Nat, present w a i ↔ present w b i) ∧
        (∀ i : Nat, present w a i → lookup w a i = lookup w b i) := by
  constructor
  · intro h
    refine ⟨fun i => ?_, fun i _ => h i⟩
    rw [present_iff_lookup hwa, present_iff_lookup hwb, h i]
  · rintro ⟨h1, h2⟩ i
    by_cases hp : present w a i
    · exact h2 i hp
    · have hq : ¬ present w b i := fun hb => hp ((h1 i).2 hb)
      rw [lookup_absent (absent_of_not_present hp), lookup_absent (absent_of_not_present hq)]

theorem operator_eq_iff_lookup [BEq α] [LawfulBEq α] {a b : sparse_vector α}
    (hwa : WF w a) (hwb : WF w b) :
    ∃ r : Bool, operator_eq w a b = some r ∧
      (r = true ↔ ∀ i : Nat, lookup w a i = lookup w b i) := by
  letI ord : Ord α := ⟨fun x y => if x == y then .eq else .lt⟩
  have hc : ∀ x y : α, compare x y = .eq ↔ x = y := by
    intro x y
    show (if x == y then Ordering.eq else Ordering.lt) = Ordering.eq ↔ x = y
    by_cases h : x = y <;> simp [h]
  have hcons : ∀ x y : α, (x == y) = true ↔ compare x y = .eq := by
    intro x y
    rw [hc]
    simp
  refine ⟨_, operator_eq_eq_scan hcons hwa hwb, ?_⟩
  have hv := view_compare_eq_eq_iff (view w a) (view w b)
  rw [view_compare_eq_iff_of hc, live_count_view hwa, live_count_view hwb] at hv
  simp only [join_view] at hv
  rw [hv]
  simp [and_comm]

/-- For two well-formed containers and a value type whose `==` is equality,
`a == b` returns, and it returns `true` exactly when the two hold the same
index-to-value mapping: the same present indices, with equal values at each.
The lengths of the position tables and the order of the dense arrays play no
part. -/
theorem eq_iff_same_mapping_of_wf [BEq α] [LawfulBEq α] {a b : sparse_vector α}
    (hwa : WF w a) (hwb : WF w b) :
    ∃ r : Bool, operator_eq w a b = some r ∧
      (r = true ↔ (∀ i : Nat, present w a i ↔ present w b i) ∧
        (∀ i : Nat, present w a i → lookup w a i = lookup w b i)) := by
  obtain ⟨r, hr, hiff⟩ := operator_eq_iff_lookup (w := w) hwa hwb
  exact ⟨r, hr, hiff.trans (same_mapping_iff hwa hwb)⟩

theorem empty_vector_reachable (w : Nat) : Reachable w (empty_vector : sparse_vector α) :=
  ⟨[], by simp, rfl⟩

/-- C27 (failing comparison): the container left by the failed `insert(0, 5)`
and the container that never held an element are both reachable and compare
equal with `==`, in both directions, although index `0` is present (its slot
is not absent) in the first and not in the second. -/
theorem C27_eq_after_failed_insert :
    Reachable 8 dangling_sample ∧ Reachable 8 (empty_vector : sparse_vector Int) ∧
      operator_eq 8 dangling_sample empty_vector = some true ∧
      operator_eq 8 empty_vector dangling_sample = some true ∧
      present 8 dangling_sample 0 ∧ ¬ present 8 (empty_vector : sparse_vector Int) 0 := by
  refine ⟨dangling_sample_reachable, empty_vector_reachable 8, by decide, by decide,
    ⟨0, by decide, by decide⟩, ?_⟩
  rintro ⟨p, hp, _⟩
  simp [empty_vector] at hp

/-! ## Copy, move and the allocator: claims -/

theorem scan_compare_self_iff [Ord α] (v : List (Option α)) :
    scan_compare v v = none ↔ ∀ x : α, some x ∈ v → compare x x = .eq := by
  induction v with
  | nil => simp [scan_compare]
  | cons y ys ih =>
    cases y with
    | none =>
      simp only [scan_compare, slot_compare, if_true, ih]
      simp
    | some y =>
      simp only [scan_compare, slot_compare]
      by_cases hy : compare y y = .eq
      · simp only [hy, if_true, ih]
        constructor
        · intro h x hx
          rcases List.mem_cons.1 hx with h1 | h1
          · cases h1; exact hy
          · exact h x h1
        · intro h x hx
          exact h x (List.mem_cons_of_mem _ hx)
      · simp only [hy, if_false]
        constructor
        · intro h; cases h
        · intro h
          exact absurd (h y (List.mem_cons_self _ _)) hy

/-- The values of the view of a well-formed container are its stored
elements. -/
theorem mem_view_iff (hwf : WF w s) (x : α) : some x ∈ view w s ↔ x ∈ s.data_ := by
  rw [← (values_by_index_perm hwf).mem_iff, List.mem_filterMap]
  constructor
  · intro h
    obtain ⟨i, hi⟩ := List.mem_iff_getElem?.1 h
    have hlen : i < (view w s).length := (List.getElem?_eq_some.1 hi).1
    rw [length_view] at hlen
    refine ⟨i, List.mem_range.2 hlen, ?_⟩
    rw [← join_view, hi]
    rfl
  · rintro ⟨i, _, hi⟩
    rw [← join_view] at hi
    cases hv : (view w s)[i]? with
    | none => rw [hv] at hi; cases hi
    | some o =>
      rw [hv] at hi
      have : o = some x := hi
      rw [this] at hv
      exact List.mem_iff_getElem?.2 ⟨i, hv⟩

/-- `s == s` on a well-formed container returns whether every stored value
compares equal to itself. -/
theorem operator_eq_self [BEq α] (hwf : WF w s) :
    operator_eq w s s = some (s.data_.all (fun x => x == x)) := by
  letI ord : Ord α := ⟨fun x y => if x == y then .eq else .lt⟩
  have hcmp : ∀ x y : α, compare x y = .eq ↔ (x == y) = true := by
    intro x y
    show (if x == y then Ordering.eq else Ordering.lt) = Ordering.eq ↔ _
    cases h : x == y <;> simp
  have hcons : ∀ x y : α, (x == y) = true ↔ compare x y = .eq := fun x y => (hcmp x y).symm
  rw [operator_eq_eq_scan hcons hwf hwf]
  congr 1
  rw [Bool.eq_iff_iff]
  simp only [decide_True, Bool.true_and, Option.isNone_iff_eq_none, List.all_eq_true]
  rw [scan_compare_self_iff]
  constructor
  · intro h x hx
    exact (hcmp x x).1 (h x ((mem_view_iff hwf x).2 hx))
  · intro h x hx
    exact (hcmp x x).2 (h x ((mem_view_iff hwf x).1 hx))

theorem same_mapping_self (hwf : WF w s) : SameMapping w s s := by
  refine ⟨rfl, fun _ => Iff.rfl, ?_⟩
  intro i hp
  obtain ⟨v, _, hop⟩ := operator_index_const_present hwf hp
  exact ⟨v, hop, hop⟩

theorem isCopy_of_eq [BEq α] {d : sparse_vector α} (hwf : WF w s) (h : d = s) :
    IsCopy w d s := by
  subst h
  exact ⟨same_mapping_self hwf, operator_eq_self hwf⟩

theorem storage_granted {n mx : Nat} (a : polymorphic_allocator) (h : n ≤ mx) :
    ∃ rs, pmr_vector.storage mx true n a = .ok rs := by
  unfold pmr_vector.storage
  by_cases h0 : n = 0
  · exact ⟨[], by rw [if_pos h0]⟩
  · exact ⟨[a], by rw [if_neg h0, if_neg (by omega), if_pos rfl]⟩

theorem copy_ctor_ok {d : Nat} {mem : Memory} {src : pmr_sparse_vector α}
    {r : Constructed α} (h : pmr_sparse_vector.copy_ctor d mem src = .ok r) :
    r.object = ⟨⟨src.pos_.elems, ⟨d⟩⟩, ⟨src.data_.elems, ⟨d⟩⟩⟩ ∧ r.other = src := by
  unfold pmr_sparse_vector.copy_ctor pmr_vector.copy at h
  cases h1 : pmr_vector.storage mem.pos_max_size mem.pos_granted src.pos_.elems.length
      ⟨d⟩ with
  | error e => simp [h1] at h
  | ok r1 =>
    cases h2 : pmr_vector.storage mem.data_max_size mem.data_granted src.data_.elems.length
        ⟨d⟩ with
    | error e => simp [h1, h2] at h
    | ok r2 =>
      simp only [h1, h2] at h
      injection h with h
      subst h
      exact ⟨rfl, rfl⟩

theorem copy_ctor_with_ok {mem : Memory} {src : pmr_sparse_vector α}
    {a : polymorphic_allocator} {r : Constructed α}
    (h : pmr_sparse_vector.copy_ctor_with mem src a = .ok r) :
    r.object = ⟨⟨src.pos_.elems, a⟩, ⟨src.data_.elems, a⟩⟩ ∧ r.other = src := by
  unfold pmr_sparse_vector.copy_ctor_with pmr_vector.copy_with at h
  cases h1 : pmr_vector.storage mem.pos_max_size mem.pos_granted src.pos_.elems.length a with
  | error e => simp [h1] at h
  | ok r1 =>
    cases h2 : pmr_vector.storage mem.data_max_size mem.data_granted src.data_.elems.length
        a with
    | error e => simp [h1, h2] at h
    | ok r2 =>
      simp only [h1, h2] at h
      injection h with h
      subst h
      exact ⟨rfl, rfl⟩

theorem operator_assign_ok {mem : Memory} {dst src : pmr_sparse_vector α} {r : Assigned α}
    (h : pmr_sparse_vector.operator_assign mem dst (some src) = .ok r ()) :
    r.self = ⟨⟨src.pos_.elems, dst.pos_.allocator⟩, ⟨src.data_.elems, dst.data_.allocator⟩⟩ ∧
      r.other = some src := by
  unfold pmr_sparse_vector.operator_assign pmr_vector.copy_assign at h
  cases h1 : pmr_vector.storage mem.pos_max_size mem.pos_granted src.pos_.elems.length
      dst.pos_.allocator with
  | error e => simp [h1] at h
  | ok r1 =>
    cases h2 : pmr_vector.storage mem.data_max_size mem.data_granted src.data_.elems.length
        dst.data_.allocator with
    | error e => simp [h1, h2] at h
    | ok r2 =>
      simp only [h1, h2] at h
      injection h with h
      subst h
      exact ⟨rfl, rfl⟩

theorem move_with_ok {β : Type} {mx : Nat} {g : Bool} {other : pmr_vector β}
    {a : polymorphic_allocator} {r : Transfer β}
    (h : pmr_vector.move_with mx g other a = .ok r) :
    r.vector = ⟨other.elems, a⟩ ∧ r.other = ⟨[], other.allocator⟩ := by
  unfold pmr_vector.move_with at h
  split at h
  · injection h with h
    subst h
    exact ⟨rfl, rfl⟩
  · cases h1 : pmr_vector.storage mx g other.elems.length a with
    | error e => simp [h1] at h
    | ok r1 =>
      simp only [h1] at h
      injection h with h
      subst h
      exact ⟨rfl, rfl⟩

theorem move_ctor_with_ok {mem : Memory} {src : pmr_sparse_vector α}
    {a : polymorphic_allocator} {r : Constructed α}
    (h : pmr_sparse_vector.move_ctor_with mem src a = .ok r) :
    r.object = ⟨⟨src.pos_.elems, a⟩, ⟨src.data_.elems, a⟩⟩ ∧
      r.other = ⟨⟨[], src.pos_.allocator⟩, ⟨[], src.data_.allocator⟩⟩ := by
  unfold pmr_sparse_vector.move_ctor_with at h
  cases h1 : pmr_vector.move_with mem.pos_max_size mem.pos_granted src.pos_ a with
  | error e => simp [h1] at h
  | ok p =>
    cases h2 : pmr_vector.move_with mem.data_max_size mem.data_granted src.data_ a with
    | error e => simp [h1, h2] at h
    | ok d =>
      simp only [h1, h2] at h
      injection h with h
      subst h
      obtain ⟨a1, a2⟩ := move_with_ok h1
      obtain ⟨b1, b2⟩ := move_with_ok h2
      constructor
      · show (⟨p.vector, d.vector⟩ : pmr_sparse_vector α) = _
        rw [a1, b1]
      · show (⟨p.other, d.other⟩ : pmr_sparse_vector α) = _
        rw [a2, b2]

/-- With room in the memory for the two arrays, the operations that copy or
move a container into new storage complete. -/
theorem transfers_complete {mem : Memory} (src dst : pmr_sparse_vector α)
    (a : polymorphic_allocator) (d : Nat) (hm : mem.holds src.contents) :
    (∃ r, pmr_sparse_vector.copy_ctor d mem src = .ok r) ∧
    (∃ r, pmr_sparse_vector.copy_ctor_with mem src a = .ok r) ∧
    (∃ r, pmr_sparse_vector.operator_assign mem dst (some src) = .ok r ()) ∧
    (∃ r, pmr_sparse_vector.move_ctor_with mem src a = .ok r) ∧
    (∃ r, pmr_sparse_vector.operator_assign_move mem dst (some src) = .ok r) := by
  obtain ⟨h1, h2, h3, h4⟩ := hm
  have hp : ∀ b, ∃ rs, pmr_vector.storage mem.pos_max_size mem.pos_granted
      src.pos_.elems.length b = .ok rs := fun b => by
    rw [h3]; exact storage_granted b h1
  have hd : ∀ b, ∃ rs, pmr_vector.storage mem.data_max_size mem.data_granted
      src.data_.elems.length b = .ok rs := fun b => by
    rw [h4]; exact storage_granted b h2
  refine ⟨?_, ?_, ?_, ?_, ?_⟩
  · obtain ⟨r1, e1⟩ := hp ⟨d⟩
    obtain ⟨r2, e2⟩ := hd ⟨d⟩
    cases h : pmr_sparse_vector.copy_ctor d mem src with
    | ok r => exact ⟨r, rfl⟩
    | error e => simp [pmr_sparse_vector.copy_ctor, pmr_vector.copy, e1, e2] at h
  · obtain ⟨r1, e1⟩ := hp a
    obtain ⟨r2, e2⟩ := hd a
    cases h : pmr_sparse_vector.copy_ctor_with mem src a with
    | ok r => exact ⟨r, rfl⟩
    | error e => simp [pmr_sparse_vector.copy_ctor_with, pmr_vector.copy_with, e1, e2] at h
  · obtain ⟨r1, e1⟩ := hp dst.pos_.allocator
    obtain ⟨r2, e2⟩ := hd dst.data_.allocator
    cases h : pmr_sparse_vector.operator_assign mem dst (some src) with
    | ok r u => exact ⟨r, rfl⟩
    | throw r e =>
      simp [pmr_sparse_vector.operator_assign, pmr_vector.copy_assign, e1, e2] at h
    | undefined =>
      simp [pmr_sparse_vector.operator_assign, pmr_vector.copy_assign, e1, e2] at h
  · obtain ⟨r1, e1⟩ := hp a
    obtain ⟨r2, e2⟩ := hd a
    have m1 : ∃ p, pmr_vector.move_with mem.pos_max_size mem.pos_granted src.pos_ a = .ok p := by
      unfold pmr_vector.move_with
      split
      · exact ⟨_, rfl⟩
      · rw [e1]; exact ⟨_, rfl⟩
    have m2 : ∃ p, pmr_vector.move_with mem.data_max_size mem.data_granted src.data_ a =
        .ok p := by
      unfold pmr_vector.move_with
      split
      · exact ⟨_, rfl⟩
      · rw [e2]; exact ⟨_, rfl⟩
    obtain ⟨p1, f1⟩ := m1
    obtain ⟨p2, f2⟩ := m2
    cases h : pmr_sparse_vector.move_ctor_with mem src a with
    | ok r => exact ⟨r, rfl⟩
    | error e => simp [pmr_sparse_vector.move_ctor_with, f1, f2] at h
  · obtain ⟨r1, e1⟩ := hp dst.pos_.allocator
    obtain ⟨r2, e2⟩ := hd dst.data_.allocator
    have m1 : ∃ p, pmr_vector.move_assign mem.pos_max_size mem.pos_granted dst.pos_
        src.pos_ = .ok p := by
      unfold pmr_vector.move_assign
      split
      · exact ⟨_, rfl⟩
      · rw [e1]; exact ⟨_, rfl⟩
    have m2 : ∃ p, pmr_vector.move_assign mem.data_max_size mem.data_granted dst.data_
        src.data_ = .ok p := by
      unfold pmr_vector.move_assign
      split
      · exact ⟨_, rfl⟩
      · rw [e2]; exact ⟨_, rfl⟩
    obtain ⟨p1, f1⟩ := m1
    obtain ⟨p2, f2⟩ := m2
    cases h : pmr_sparse_vector.operator_assign_move mem dst (some src) with
    | ok r => exact ⟨r, rfl⟩
    | error e => simp [pmr_sparse_vector.operator_assign_move, f1, f2] at h

/-- C24 (counterexample): the container of `double` that holds NaN at index
`0` is well formed; its copy, constructed with all the storage it asks for,
has the same arrays, and `operator[](0)` returns NaN in both, but `d == s` is
false, as NaN compares unequal to itself. -/
theorem C24_copy_of_nan_not_equal :
    WF 8 nan_object.contents ∧
      pmr_sparse_vector.copy_ctor 0 (Memory.granting 16) nan_object =
        .ok ⟨nan_copy, nan_object, [⟨0⟩, ⟨0⟩]⟩ ∧
      nan_copy.contents = nan_object.contents ∧
      operator_index_const 8 true nan_copy.contents 0 = .ok nan_copy.contents double.nan ∧
      operator_index_const 8 true nan_object.contents 0 =
        .ok nan_object.contents double.nan ∧
      operator_eq 8 nan_copy.contents nan_object.contents = some false ∧
      (double.nan == double.nan) = false :=
  ⟨⟨by decide, by decide, by decide, by decide⟩, rfl, rfl, by decide, by decide, by decide,
    rfl⟩

/-- C24 (amended): for a source whose arrays are well formed, copy
construction, copy construction with an allocator and copy assignment, when
they complete, give a destination that is a copy of the source: it holds the
mapping of the source (`d.size() == s.size()`, the same indices are present,
and `d[i]` returns the value `s[i]` returns), and `d == s` returns whether
every stored value compares equal to itself, so `true` when they all do.  The
source is as it was.  The three complete when the memory has room for the two
arrays.  Copy assignment of a container to itself leaves it as it was. -/
theorem C24_copy_preserves_mapping [BEq α] (src dst : pmr_sparse_vector α)
    (allocator : polymorphic_allocator) (default_resource : Nat) (mem : Memory)
    (hwf : WF w src.contents) :
    (∀ r, pmr_sparse_vector.copy_ctor default_resource mem src = .ok r →
      IsCopy w r.object.contents src.contents ∧ r.other = src) ∧
    (∀ r, pmr_sparse_vector.copy_ctor_with mem src allocator = .ok r →
      IsCopy w r.object.contents src.contents ∧ r.other = src) ∧
    (∀ r, pmr_sparse_vector.operator_assign mem dst (some src) = .ok r () →
      IsCopy w r.self.contents src.contents ∧ r.other = some src) ∧
    (mem.holds src.contents →
      (∃ r, pmr_sparse_vector.copy_ctor default_resource mem src = .ok r) ∧
      (∃ r, pmr_sparse_vector.copy_ctor_with mem src allocator = .ok r) ∧
      (∃ r, pmr_sparse_vector.operator_assign mem dst (some src) = .ok r ())) ∧
    pmr_sparse_vector.operator_assign mem dst none = .ok ⟨dst, none⟩ () ∧
    ((∀ x ∈ src.contents.data_, (x == x) = true) →
      ∀ d : sparse_vector α, IsCopy w d src.contents →
        operator_eq w d src.contents = some true) := by
  refine ⟨?_, ?_, ?_, ?_, rfl, ?_⟩
  · intro r h
    obtain ⟨h1, h2⟩ := copy_ctor_ok h
    exact ⟨isCopy_of_eq hwf (by rw [h1]; rfl), h2⟩
  · intro r h
    obtain ⟨h1, h2⟩ := copy_ctor_with_ok h
    exact ⟨isCopy_of_eq hwf (by rw [h1]; rfl), h2⟩
  · intro r h
    obtain ⟨h1, h2⟩ := operator_assign_ok h
    exact ⟨isCopy_of_eq hwf (by rw [h1]; rfl), h2⟩
  · intro hm
    obtain ⟨h1, h2, h3, _, _⟩ := transfers_complete src dst allocator default_resource hm
    exact ⟨h1, h2, h3⟩
  · intro hall d hd
    rw [hd.2]
    congr 1
    rw [List.all_eq_true]
    exact hall

theorem C24_copy_preserves_mapping_witness :
    (∀ r, pmr_sparse_vector.copy_ctor 0 (Memory.granting 16) sample_object = .ok r →
      IsCopy 8 r.object.contents sample_object.contents ∧ r.other = sample_object) ∧
    (∃ r, pmr_sparse_vector.copy_ctor 0 (Memory.granting 16) sample_object = .ok r) ∧
    (∃ r, pmr_sparse_vector.copy_ctor_with (Memory.granting 16) sample_object ⟨2⟩ = .ok r) ∧
    (∃ r, pmr_sparse_vector.operator_assign (Memory.granting 16) sample_target
      (some sample_object) = .ok r ()) ∧
    pmr_sparse_vector.operator_assign (Memory.granting 16) sample_target none =
      .ok ⟨sample_target, none⟩ () :=
  have h := C24_copy_preserves_mapping (w := 8) sample_object sample_target ⟨2⟩ 0
    (Memory.granting 16) sample_wf
  ⟨h.1, (h.2.2.2.1 (by decide)).1, (h.2.2.2.1 (by decide)).2.1, (h.2.2.2.1 (by decide)).2.2,
    h.2.2.2.2.1⟩

/-- C26 (counterexample): with ledger `1` installed as the default memory
resource, the copy of a container built on the allocator of ledger `1`,
constructed without an allocator, reports an allocator equal to the one of the
source. -/
theorem C26_copy_on_default_ledger :
    sample_object.get_allocator = ⟨1⟩ ∧
      ∃ r, pmr_sparse_vector.copy_ctor 1 (Memory.granting 16) sample_object = .ok r ∧
        r.object.get_allocator = sample_object.get_allocator ∧
        ¬ (r.object.get_allocator ≠ sample_object.get_allocator) :=
  ⟨rfl, _, rfl, rfl, fun h => h rfl⟩

/-- C26 (amended): a copy constructed without an allocator reports a
default-constructed allocator, that of the default memory resource; it differs
from the allocator of the source exactly when the source is not built on the
default memory resource (so for a source on a ledger that is not installed as
the default).  A copy or a move constructed with an allocator reports that
allocator.  A move constructed without an allocator reports the allocator of
the source and asks no allocator for storage. -/
theorem C26_allocator_selection (src : pmr_sparse_vector α)
    (allocator : polymorphic_allocator) (default_resource : Nat) (mem : Memory) :
    (∀ r, pmr_sparse_vector.copy_ctor default_resource mem src = .ok r →
      r.object.get_allocator = ⟨default_resource⟩ ∧
      (r.object.get_allocator ≠ src.get_allocator ↔
        src.get_allocator.resource ≠ default_resource)) ∧
    (∀ r, pmr_sparse_vector.copy_ctor_with mem src allocator = .ok r →
      r.object.get_allocator = allocator) ∧
    (∀ r, pmr_sparse_vector.move_ctor_with mem src allocator = .ok r →
      r.object.get_allocator = allocator) ∧
    (pmr_sparse_vector.move_ctor src).object.get_allocator = src.get_allocator ∧
    (pmr_sparse_vector.move_ctor src).requests = [] ∧
    (mem.holds src.contents →
      (∃ r, pmr_sparse_vector.copy_ctor default_resource mem src = .ok r) ∧
      (∃ r, pmr_sparse_vector.copy_ctor_with mem src allocator = .ok r) ∧
      (∃ r, pmr_sparse_vector.move_ctor_with mem src allocator = .ok r)) := by
  refine ⟨?_, ?_, ?_, rfl, rfl, ?_⟩
  · intro r h
    obtain ⟨h1, _⟩ := copy_ctor_ok h
    have hg : r.object.get_allocator = ⟨default_resource⟩ := by rw [h1]; rfl
    refine ⟨hg, ?_⟩
    rw [hg]
    constructor
    · intro hne he
      apply hne
      rw [← he]
    · intro hne he
      apply hne
      rw [← he]
  · intro r h
    obtain ⟨h1, _⟩ := copy_ctor_with_ok h
    rw [h1]; rfl
  · intro r h
    obtain ⟨h1, _⟩ := move_ctor_with_ok h
    rw [h1]; rfl
  · intro hm
    obtain ⟨h1, h2, _, h4, _⟩ := transfers_complete src src allocator default_resource hm
    exact ⟨h1, h2, h4⟩

theorem C26_allocator_selection_witness :
    (∃ r, pmr_sparse_vector.copy_ctor 0 (Memory.granting 16) sample_object = .ok r ∧
      r.object.get_allocator = ⟨0⟩ ∧ r.object.get_allocator ≠ sample_object.get_allocator) ∧
    (∃ r, pmr_sparse_vector.copy_ctor_with (Memory.granting 16) sample_object ⟨2⟩ = .ok r ∧
      r.object.get_allocator = ⟨2⟩) ∧
    (∃ r, pmr_sparse_vector.move_ctor_with (Memory.granting 16) sample_object ⟨2⟩ = .ok r ∧
      r.object.get_allocator = ⟨2⟩) ∧
    (pmr_sparse_vector.move_ctor sample_object).object.get_allocator =
      sample_object.get_allocator ∧
    (pmr_sparse_vector.move_ctor sample_object).requests = [] :=
  have h := C26_allocator_selection sample_object ⟨2⟩ 0 (Memory.granting 16)
  ⟨⟨_, rfl, (h.1 _ rfl).1, (h.1 _ rfl).2.2 (by decide)⟩,
    ⟨_, rfl, h.2.1 _ rfl⟩,
    ⟨_, rfl, h.2.2.1 _ rfl⟩,
    h.2.2.2.1, h.2.2.2.2.1⟩

end ARo
